import Mathlib

/-!
Shallow embedding of `src/enc/backward_references_cost_enc.c` (cost-based
refinement of backward references) and proofs about it.

Conventions used throughout:
* C `int64_t` cost values are modelled as `Int`; every write the code performs
  is min-guarded, and the boundedness theorems add the explicit size
  hypotheses under which the C arithmetic cannot overflow.
* C `uint32_t` quantities are modelled as `Nat` together with `< 2^32`
  hypotheses where a bound matters; `uint32_t` wrap-around subtraction and
  accumulation are modelled with explicit `% 2^32`.
* Arrays (`costs[]`, `dist_array[]`, `cost_cache[]`, the model tables) are
  modelled as total functions from `Nat`; the code only ever reads indices
  the claims talk about.
* External collaborators (`VP8LFastLog2`, `VP8LPrefixEncodeBits`,
  `VP8LDistanceToPlaneCode`, the color cache, the hash chain) are taken as
  abstract function parameters, mirroring §6 of the specification.
* All recursion is structural (lists or explicit fuel) so that every
  definition evaluates inside the kernel.
-/

/-! ## Constants of the source file and its headers -/

def MAX_LENGTH : Nat := 4096

def VALUES_IN_BYTE : Nat := 256

def NUM_LENGTH_CODES : Nat := 24

def NUM_DISTANCE_CODES : Nat := 40

def COST_CACHE_INTERVAL_SIZE_MAX : Nat := 500

def COST_MANAGER_MAX_FREE_LIST : Nat := 10

def LOG_2_PRECISION_BITS : Nat := 23

def WEBP_INT64_MAX : Int := 9223372036854775807

/-- `kSkipDistance` from `PushInterval`. -/
def kSkipDistance : Nat := 10

/-- Size of the `uint32_t` value space. -/
def U32MOD : Nat := 4294967296

/-- `DivRound` from `src/utils/utils.h` (external header).  In this file it is
only ever applied with a non-negative numerator and the positive denominator
100, where every C rounding convention agrees with this formula. -/
def DivRound (a b : Int) : Int := (a + b / 2) / b

/-! ## CostModel (tables are `uint32_t` arrays in C, modelled as functions) -/

structure CostModel where
  alpha : Nat → Nat
  red : Nat → Nat
  blue : Nat → Nat
  distance : Nat → Nat
  literal : Nat → Nat

/-- `GetLiteralCost`: `alpha[v >> 24] + red[(v >> 16) & 0xff] +
literal[(v >> 8) & 0xff] + blue[v & 0xff]`, summed in `int64_t`. -/
def GetLiteralCost (m : CostModel) (v : Nat) : Int :=
  (m.alpha (v >>> 24) : Int) + (m.red ((v >>> 16) &&& 255) : Int) +
    (m.literal ((v >>> 8) &&& 255) : Int) + (m.blue (v &&& 255) : Int)

/-- `GetCacheCost`: `literal[VALUES_IN_BYTE + NUM_LENGTH_CODES + idx]`. -/
def GetCacheCost (m : CostModel) (idx : Nat) : Int :=
  (m.literal (VALUES_IN_BYTE + NUM_LENGTH_CODES + idx) : Int)

/-- `GetLengthCost`; `pe` abstracts the external `VP8LPrefixEncodeBits`,
returning `(code, extra_bits)`. -/
def GetLengthCost (m : CostModel) (pe : Nat → Nat × Nat) (length : Nat) : Int :=
  (m.literal (VALUES_IN_BYTE + (pe length).1) : Int) +
    ((pe length).2 : Int) * 2 ^ LOG_2_PRECISION_BITS

/-- `GetDistanceCost`; `pe` abstracts the external `VP8LPrefixEncodeBits`. -/
def GetDistanceCost (m : CostModel) (pe : Nat → Nat × Nat) (dist : Nat) : Int :=
  (m.distance (pe dist).1 : Int) +
    ((pe dist).2 : Int) * 2 ^ LOG_2_PRECISION_BITS

/-! ## ConvertPopulationCountTableToBitEstimates -/

/-- The running `uint32_t` accumulation `sum += population_counts[i]`. -/
def popSum (pc : Nat → Nat) : Nat → Nat
  | 0 => 0
  | n + 1 => (popSum pc n + pc n) % U32MOD

/-- The mathematical (unwrapped) sum of the first `n` population counts. -/
def popSumRaw (pc : Nat → Nat) : Nat → Nat
  | 0 => 0
  | n + 1 => popSumRaw pc n + pc n

/-- The number of strictly positive counts among the first `n`. -/
def popNonzeros (pc : Nat → Nat) : Nat → Nat
  | 0 => 0
  | n + 1 => popNonzeros pc n + (if 0 < pc n then 1 else 0)

/-- `ConvertPopulationCountTableToBitEstimates`; `flog` abstracts the external
`VP8LFastLog2` (a `uint32_t → uint32_t` function).  The `uint32_t` subtraction
`logsum - VP8LFastLog2(population_counts[i])` is modelled with an explicit
`% 2^32`. -/
def ConvertPopulationCountTableToBitEstimates (flog : Nat → Nat)
    (numSymbols : Nat) (pc : Nat → Nat) : Nat → Nat :=
  if popNonzeros pc numSymbols ≤ 1 then fun _ => 0
  else
    fun i =>
      (flog (popSum pc numSymbols) % U32MOD + U32MOD - flog (pc i) % U32MOD) %
        U32MOD

theorem popSumRaw_le_succ (pc : Nat → Nat) (n : Nat) :
    popSumRaw pc n ≤ popSumRaw pc (n + 1) := by
  simp only [popSumRaw]; omega

theorem popSumRaw_mono (pc : Nat → Nat) {a b : Nat} (h : a ≤ b) :
    popSumRaw pc a ≤ popSumRaw pc b := by
  induction b with
  | zero => simp_all
  | succ b ih =>
    rcases Nat.lt_or_ge a (b + 1) with h2 | h2
    · exact Nat.le_trans (ih (by omega)) (popSumRaw_le_succ pc b)
    · have : a = b + 1 := by omega
      subst this; exact Nat.le_refl _

theorem pc_le_popSumRaw (pc : Nat → Nat) {i n : Nat} (h : i < n) :
    pc i ≤ popSumRaw pc n := by
  have h1 : popSumRaw pc i + pc i ≤ popSumRaw pc (i + 1) := by
    simp [popSumRaw]
  have h2 : popSumRaw pc (i + 1) ≤ popSumRaw pc n := popSumRaw_mono pc h
  omega

theorem popSum_eq_raw (pc : Nat → Nat) (n : Nat)
    (h : popSumRaw pc n < U32MOD) : popSum pc n = popSumRaw pc n := by
  induction n with
  | zero => rfl
  | succ n ih =>
    have hle : popSumRaw pc n ≤ popSumRaw pc (n + 1) := popSumRaw_le_succ pc n
    have hn : popSumRaw pc n < U32MOD := Nat.lt_of_le_of_lt hle h
    simp only [popSum, popSumRaw] at *
    rw [ih hn]
    exact Nat.mod_eq_of_lt h

/-- C9: ConvertPopulationCountTableToBitEstimates: with `sum = Σ H[i]` and
`nonzeros = |{i : H[i] > 0}|`, if `nonzeros ≤ 1` every output entry is `0`;
otherwise `output[i] = FastLog2(sum) - FastLog2(H[i])` for every `i < m`.
Hypotheses: the external `VP8LFastLog2` is monotone and its value at `sum`
fits in `uint32_t`, and the histogram sum does not wrap `uint32_t`
(true of the real fast-log table and of any real sub-histogram). -/
theorem convertPopulation_spec (flog : Nat → Nat) (numSymbols : Nat)
    (pc : Nat → Nat)
    (hmono : ∀ a b : Nat, a ≤ b → flog a ≤ flog b)
    (hsum : popSumRaw pc numSymbols < U32MOD)
    (hflog : flog (popSumRaw pc numSymbols) < U32MOD) :
    (popNonzeros pc numSymbols ≤ 1 →
      ∀ i, i < numSymbols →
        ConvertPopulationCountTableToBitEstimates flog numSymbols pc i = 0) ∧
    (1 < popNonzeros pc numSymbols →
      ∀ i, i < numSymbols →
        ConvertPopulationCountTableToBitEstimates flog numSymbols pc i =
          flog (popSumRaw pc numSymbols) - flog (pc i)) := by
  constructor
  · intro hnz i _
    simp [ConvertPopulationCountTableToBitEstimates, hnz]
  · intro hnz i hi
    have hle : flog (pc i) ≤ flog (popSumRaw pc numSymbols) :=
      hmono _ _ (pc_le_popSumRaw pc hi)
    have hfl : flog (pc i) < U32MOD := Nat.lt_of_le_of_lt hle hflog
    unfold ConvertPopulationCountTableToBitEstimates
    rw [if_neg (by omega : ¬ popNonzeros pc numSymbols ≤ 1)]
    show (flog (popSum pc numSymbols) % U32MOD + U32MOD -
        flog (pc i) % U32MOD) % U32MOD = _
    rw [popSum_eq_raw pc numSymbols hsum]
    rw [Nat.mod_eq_of_lt hflog, Nat.mod_eq_of_lt hfl]
    have h1 : flog (popSumRaw pc numSymbols) + U32MOD - flog (pc i) =
        U32MOD + (flog (popSumRaw pc numSymbols) - flog (pc i)) := by omega
    rw [h1, Nat.add_mod_left]
    exact Nat.mod_eq_of_lt (by omega)

/-- Witness for C9 at a concrete two-symbol histogram with `flog = id`. -/
theorem convertPopulation_spec_witness :
    ConvertPopulationCountTableToBitEstimates (fun v => v) 2
      (fun i => if i = 0 then 3 else if i = 1 then 5 else 0) 0 = 5 := by
  have h := convertPopulation_spec (fun v => v) 2
    (fun i => if i = 0 then 3 else if i = 1 then 5 else 0)
    (fun a b hab => hab) (by decide) (by decide)
  have h2 := h.2 (by decide) 0 (by decide)
  rw [h2]
  decide

/-! ## AddSingleLiteralWithCostModel

The color cache (`src/utils/color_cache_utils.h`) is external; it is
abstracted by a state type `C` with a lookup `contains : C → Nat → Option Nat`
(`VP8LColorCacheContains`, `none` standing for a negative return) and an
insertion `ins : C → Nat → C` (`VP8LColorCacheInsert`).  The function returns
the new cache state together with the updated `cost` and `dist_array`
functions. -/

def AddSingleLiteralWithCostModel {C : Type} (contains : C → Nat → Option Nat)
    (ins : C → Nat → C) (costModel : CostModel) (argb : Nat → Nat) (idx : Nat)
    (useColorCache : Bool) (prevCost : Int) (hashers : C) (cost : Nat → Int)
    (distArray : Nat → Nat) : C × (Nat → Int) × (Nat → Nat) :=
  let color := argb idx
  let ix : Option Nat := if useColorCache then contains hashers color else none
  match ix with
  | some i =>
    let costVal := prevCost + DivRound (GetCacheCost costModel i * 68) 100
    if costVal < cost idx then
      (hashers, fun j => if j = idx then costVal else cost j,
        fun j => if j = idx then 1 else distArray j)
    else (hashers, cost, distArray)
  | none =>
    let hashers1 := if useColorCache then ins hashers color else hashers
    let costVal := prevCost + DivRound (GetLiteralCost costModel color * 82) 100
    if costVal < cost idx then
      (hashers1, fun j => if j = idx then costVal else cost j,
        fun j => if j = idx then 1 else distArray j)
    else (hashers1, cost, distArray)

/-- C6: per-position literal relaxation.  If the color cache is enabled and
contains `argb[idx]` at slot `ix`, the candidate is
`prev_cost + DivRound(GetCacheCost(model, ix) * 68, 100)` and the cache state
is untouched; otherwise the candidate is
`prev_cost + DivRound(GetLiteralCost(model, argb[idx]) * 82, 100)` and
`argb[idx]` is inserted into the cache exactly when the cache is enabled
(insertion happens only on this literal branch); `costs[idx]` is overwritten
and `dist_array[idx]` set to `1` exactly when the candidate is strictly
smaller than `costs[idx]`, and no other position is written. -/
theorem addSingleLiteral_spec {C : Type} (contains : C → Nat → Option Nat)
    (ins : C → Nat → C) (cm : CostModel) (argb : Nat → Nat) (idx : Nat)
    (ucc : Bool) (prev : Int) (h : C) (cost : Nat → Int) (dist : Nat → Nat) :
    (∀ ix, ucc = true → contains h (argb idx) = some ix →
      (AddSingleLiteralWithCostModel contains ins cm argb idx ucc prev h cost
          dist).1 = h ∧
      (AddSingleLiteralWithCostModel contains ins cm argb idx ucc prev h cost
          dist).2.1 idx =
        (if prev + DivRound (GetCacheCost cm ix * 68) 100 < cost idx then
          prev + DivRound (GetCacheCost cm ix * 68) 100 else cost idx) ∧
      (AddSingleLiteralWithCostModel contains ins cm argb idx ucc prev h cost
          dist).2.2 idx =
        (if prev + DivRound (GetCacheCost cm ix * 68) 100 < cost idx then 1
          else dist idx)) ∧
    ((ucc = true ∧ contains h (argb idx) = none) ∨ ucc = false →
      (AddSingleLiteralWithCostModel contains ins cm argb idx ucc prev h cost
          dist).1 = (if ucc then ins h (argb idx) else h) ∧
      (AddSingleLiteralWithCostModel contains ins cm argb idx ucc prev h cost
          dist).2.1 idx =
        (if prev + DivRound (GetLiteralCost cm (argb idx) * 82) 100 < cost idx
          then prev + DivRound (GetLiteralCost cm (argb idx) * 82) 100
          else cost idx) ∧
      (AddSingleLiteralWithCostModel contains ins cm argb idx ucc prev h cost
          dist).2.2 idx =
        (if prev + DivRound (GetLiteralCost cm (argb idx) * 82) 100 < cost idx
          then 1 else dist idx)) ∧
    (∀ j, j ≠ idx →
      (AddSingleLiteralWithCostModel contains ins cm argb idx ucc prev h cost
          dist).2.1 j = cost j ∧
      (AddSingleLiteralWithCostModel contains ins cm argb idx ucc prev h cost
          dist).2.2 j = dist j) := by
  refine ⟨?_, ?_, ?_⟩
  · intro ix hucc hcont
    subst hucc
    simp only [AddSingleLiteralWithCostModel, if_true, hcont]
    split <;> simp
  · rintro (⟨hucc, hcont⟩ | hucc)
    · subst hucc
      simp only [AddSingleLiteralWithCostModel, if_true, hcont]
      split <;> simp
    · subst hucc
      simp only [AddSingleLiteralWithCostModel, if_false, Bool.false_eq_true]
      split <;> simp
  · intro j hj
    unfold AddSingleLiteralWithCostModel
    rcases hc : (if ucc then contains h (argb idx) else none) with _ | ix <;>
      simp only [hc] <;> split <;> simp [hj]

/-- Witness for C6: a concrete cache-hit call (single-slot cache holding the
pixel) where the candidate improves the cost. -/
theorem addSingleLiteral_spec_witness :
    (AddSingleLiteralWithCostModel
      (fun (c : Option Nat) v => if c = some v then some 0 else none)
      (fun _ v => some v)
      ⟨fun _ => 0, fun _ => 0, fun _ => 0, fun _ => 0,
        fun n => if n = 280 then 100 else 0⟩
      (fun _ => 7) 1 true 0 (some 7) (fun _ => 1000) (fun _ => 0)).2.1 1 =
      68 := by
  have h := (addSingleLiteral_spec
    (fun (c : Option Nat) v => if c = some v then some 0 else none)
    (fun _ v => some v)
    ⟨fun _ => 0, fun _ => 0, fun _ => 0, fun _ => 0,
      fun n => if n = 280 then 100 else 0⟩
    (fun _ => 7) 1 true 0 (some 7) (fun _ => 1000) (fun _ => 0)).1 0 rfl
    (by decide)
  rw [h.2.1]
  decide

/-! ## CostManager and interval handling

`CostInterval` mirrors `struct CostInterval` (the `previous`/`next` links are
represented by the position of the record in the manager's `head` list, which
models the doubly-linked active list in order).  `end` is a Lean keyword, so
the field is called `iend`. -/

structure CostInterval where
  cost : Int
  start : Nat
  iend : Nat
  index : Nat
deriving Repr, DecidableEq

/-- `CostCacheInterval`: `{cost, start, end}` with `end` exclusive. -/
structure CostCacheInterval where
  cost : Int
  start : Nat
  iend : Nat
deriving Repr, DecidableEq

/-- `CostManager`.  The active list is `head` (in list order); `pool` is the
total number of records available on the free list plus the recycled list
(popping a node returns it to one of the two, inserting consumes from them in
the same order as the C code, so only their sum is observable); `allocOk` is
an oracle deciding whether the `k`-th call to `WebPSafeMalloc` for a fresh
interval record succeeds, and `allocTick` counts those calls. -/
structure CostManager where
  head : List CostInterval
  count : Nat
  cacheIntervals : List CostCacheInterval
  costCache : Nat → Int
  costs : Nat → Int
  distArray : Nat → Nat
  pool : Nat
  allocOk : Nat → Bool
  allocTick : Nat

/-- `UpdateCost`: relax `costs[i]` against `cost` for the interval generator
`position`, recording `dist_array[i] = (i - position) + 1` on improvement. -/
def UpdateCost (m : CostManager) (i position : Nat) (cost : Int) : CostManager :=
  let k := i - position
  if cost < m.costs i then
    { m with
      costs := fun j => if j = i then cost else m.costs j
      distArray := fun j => if j = i then k + 1 else m.distArray j }
  else m

def UpdateCostPerIntervalGo (m : CostManager) (start position : Nat)
    (cost : Int) : Nat → CostManager
  | 0 => m
  | n + 1 =>
    UpdateCostPerIntervalGo (UpdateCost m start position cost) (start + 1)
      position cost n

/-- `UpdateCostPerInterval`: relax every pixel of `[start, iend)`. -/
def UpdateCostPerInterval (m : CostManager) (start iend position : Nat)
    (cost : Int) : CostManager :=
  UpdateCostPerIntervalGo m start position cost (iend - start)

/-- `PopInterval`: unlink an interval from the active list; the record goes
back to the free list (inline node) or the recycled list (heap node), in both
cases growing `pool` by one. -/
def PopInterval (m : CostManager) (interval : CostInterval) : CostManager :=
  if interval ∈ m.head then
    { m with
      head := m.head.erase interval
      pool := m.pool + 1
      count := m.count - 1 }
  else m

/-- The walk of `UpdateCostAtIndex`: process list elements while
`current->start <= i`; an element with `current->end <= i` is popped when
`do_clean_intervals` is set (its record returning to the pool), otherwise it
relaxes `costs[i]`.  Returns the new list together with the updated manager
scalar state (the `head` field of the returned manager is dead; the caller
reinstalls the returned list). -/
def UpdateCostAtIndexGo (i : Nat) (clean : Bool) :
    List CostInterval → CostManager → List CostInterval × CostManager
  | [], m => ([], m)
  | cur :: rest, m =>
    if cur.start ≤ i then
      if cur.iend ≤ i then
        if clean then
          UpdateCostAtIndexGo i clean rest
            { m with pool := m.pool + 1, count := m.count - 1 }
        else
          let r := UpdateCostAtIndexGo i clean rest m
          (cur :: r.1, r.2)
      else
        let r := UpdateCostAtIndexGo i clean rest (UpdateCost m i cur.index cur.cost)
        (cur :: r.1, r.2)
    else (cur :: rest, m)

/-- `UpdateCostAtIndex`. -/
def UpdateCostAtIndex (m : CostManager) (i : Nat) (clean : Bool) : CostManager :=
  let r := UpdateCostAtIndexGo i clean m.head m
  { r.2 with head := r.1 }

/-- Sorted insertion by `start`.  Under the list invariant (strictly
increasing starts) this is exactly where `PositionOrphanInterval` splices a
detached record, whatever hint it starts from. -/
def insertSorted : List CostInterval → CostInterval → List CostInterval
  | [], x => [x]
  | y :: l, x => if y.start < x.start then y :: insertSorted l x else x :: y :: l

/-- The allocation/serialization part of `InsertInterval`: returns the record
to be spliced (`some`) or `none` when the call degraded to a direct
per-position relaxation (empty range, full table, or failed allocation) or
did nothing.  The list splice itself is left to the caller because
`PushInterval` splices at its sweep cursor. -/
def InsertIntervalAux (m : CostManager) (cost : Int) (position start iend : Nat) :
    Option CostInterval × CostManager :=
  if iend ≤ start then (none, m)
  else if COST_CACHE_INTERVAL_SIZE_MAX ≤ m.count then
    (none, UpdateCostPerInterval m start iend position cost)
  else if 0 < m.pool then
    (some ⟨cost, start, iend, position⟩,
      { m with pool := m.pool - 1, count := m.count + 1 })
  else if m.allocOk m.allocTick then
    (some ⟨cost, start, iend, position⟩,
      { m with allocTick := m.allocTick + 1, count := m.count + 1 })
  else
    (none,
      UpdateCostPerInterval { m with allocTick := m.allocTick + 1 } start iend
        position cost)

/-- `InsertInterval` as a standalone operation (hint dropped: the splice
position is determined by the `start` ordering). -/
def InsertInterval (m : CostManager) (cost : Int) (position start iend : Nat) :
    CostManager :=
  match InsertIntervalAux m cost position start iend with
  | (none, m1) => m1
  | (some x, m1) => { m1 with head := insertSorted m1.head x }

/-- The `len < kSkipDistance` fast path of `PushInterval`: for each
`k ∈ [0, len)` relax `costs[position + k]` against
`distance_cost + cost_cache[k]` directly. -/
def PushIntervalFastGo (m : CostManager) (distanceCost : Int)
    (position k : Nat) : Nat → CostManager
  | 0 => m
  | n + 1 =>
    PushIntervalFastGo
      (UpdateCost m (position + k) position (distanceCost + m.costCache k))
      distanceCost position (k + 1) n

/-- The inner sweep of `PushInterval` for one cache segment
`[a, e) @ cost` (already intersected with `[0, len)` and shifted by
`position`).  The active list is split into the already-passed part (owned by
the caller) and the `suffix` starting at the sweep cursor `interval`.  The
result is `(manager, emitted, suffix')`: `emitted` are the records that ended
up before the final cursor position (including records spliced by
`InsertInterval` calls and shrunk/split survivors), `suffix'` is the rest of
the list from the final cursor on.  The trailing
`InsertInterval(.., start, end)` of the segment is included. -/
def PushSegment (cost : Int) (position : Nat) :
    Nat → Nat → List CostInterval → CostManager →
      CostManager × List CostInterval × List CostInterval
  | a, e, [], m =>
    match InsertIntervalAux m cost position a e with
    | (none, m1) => (m1, [], [])
    | (some x, m1) => (m1, [x], [])
  | a, e, cur :: rest, m =>
    if cur.start < e then
      if cur.iend ≤ a then
        -- no overlap: `continue`
        let r := PushSegment cost position a e rest m
        (r.1, cur :: r.2.1, r.2.2)
      else if cur.cost ≤ cost then
        -- the new segment is not better: keep `[a, cur.start)`, skip over
        let startNew := cur.iend
        let ra := InsertIntervalAux m cost position a cur.start
        let emitted0 := match ra.1 with | none => [] | some x => [x]
        if e ≤ startNew then
          -- `break`; the trailing insert has an empty range and does nothing
          (ra.2, emitted0, cur :: rest)
        else
          let r := PushSegment cost position startNew e rest ra.2
          (r.1, emitted0 ++ cur :: r.2.1, r.2.2)
      else
        if a ≤ cur.start then
          if cur.iend ≤ e then
            -- old interval fully included: pop it
            PushSegment cost position a e rest
              { m with pool := m.pool + 1, count := m.count - 1 }
          else
            -- new segment covers the left of the old one: shrink, `break`
            match InsertIntervalAux m cost position a e with
            | (none, m1) => (m1, [], { cur with start := e } :: rest)
            | (some x, m1) => (m1, [x], { cur with start := e } :: rest)
        else
          if e < cur.iend then
            -- new segment strictly inside the old one: split, `break`
            let ra := InsertIntervalAux m cur.cost cur.index e cur.iend
            let suffix1 := match ra.1 with | none => rest | some x => x :: rest
            match InsertIntervalAux ra.2 cost position a e with
            | (none, m2) => (m2, [{ cur with iend := a }], suffix1)
            | (some y, m2) => (m2, [{ cur with iend := a }, y], suffix1)
          else
            -- new segment covers the right of the old one: shrink, `continue`
            let r := PushSegment cost position a e rest m
            (r.1, { cur with iend := a } :: r.2.1, r.2.2)
    else
      -- loop exit (`interval->start >= end`): trailing insert before cursor
      match InsertIntervalAux m cost position a e with
      | (none, m1) => (m1, [], cur :: rest)
      | (some x, m1) => (m1, [x], cur :: rest)

/-- The outer loop of `PushInterval` over the cache intervals, threading the
sweep cursor (`done` = part of the active list already passed, `suffix` =
rest from the cursor on). -/
def PushIntervalGo (distanceCost : Int) (position len : Nat) :
    List CostCacheInterval → List CostInterval → List CostInterval →
      CostManager → CostManager × List CostInterval
  | [], done, suffix, m => (m, done ++ suffix)
  | ci :: cis, done, suffix, m =>
    if ci.start < len then
      let a := position + ci.start
      let e := position + min ci.iend len
      let cost := distanceCost + ci.cost
      let r := PushSegment cost position a e suffix m
      PushIntervalGo distanceCost position len cis (done ++ r.2.1) r.2.2 r.1
    else (m, done ++ suffix)

/-- `PushInterval`. -/
def PushInterval (m : CostManager) (distanceCost : Int) (position len : Nat) :
    CostManager :=
  if len < kSkipDistance then PushIntervalFastGo m distanceCost position 0 len
  else
    let r := PushIntervalGo distanceCost position len m.cacheIntervals [] m.head m
    { r.1 with head := r.2 }

/-! ## Effective best-known cost and the list invariants -/

/-- Fold the costs of all intervals of `l` covering position `j` into the
initial value `c` by `min`. -/
def effList : List CostInterval → Nat → Int → Int
  | [], _, c => c
  | I :: r, j, c =>
    if I.start ≤ j ∧ j < I.iend then min (effList r j c) I.cost
    else effList r j c

/-- The effective best-known cost at position `j`: the minimum of `costs[j]`
and the costs of all active intervals whose range covers `j`. -/
def EffectiveCost (m : CostManager) (j : Nat) : Int :=
  effList m.head j (m.costs j)

/-- Adjacent non-overlap, in list order: `A.end ≤ B.start` whenever
`A.next == B`. -/
def chainOk : List CostInterval → Prop
  | [] => True
  | [_] => True
  | a :: b :: r => a.iend ≤ b.start ∧ chainOk (b :: r)

def decChainOk : (l : List CostInterval) → Decidable (chainOk l)
  | [] => .isTrue trivial
  | [_] => .isTrue trivial
  | a :: b :: r =>
    match decChainOk (b :: r) with
    | .isTrue h =>
      if h2 : a.iend ≤ b.start then .isTrue ⟨h2, h⟩
      else .isFalse (fun hh => h2 hh.1)
    | .isFalse h => .isFalse (fun hh => h hh.2)

instance (l : List CostInterval) : Decidable (chainOk l) := decChainOk l

/-- The active-list invariant of claim C3: sorted, non-overlapping (in the
`chainOk` sense, which together with non-emptiness gives sortedness by
`start`), every stored interval non-empty, the stored `count` in sync with
the list, and bounded by `COST_CACHE_INTERVAL_SIZE_MAX`. -/
def ManagerInv (m : CostManager) : Prop :=
  chainOk m.head ∧ (∀ I ∈ m.head, I.start < I.iend) ∧
    m.count = m.head.length ∧ m.count ≤ COST_CACHE_INTERVAL_SIZE_MAX

instance (m : CostManager) : Decidable (ManagerInv m) := by
  unfold ManagerInv; infer_instance

/-- Well-formedness of the cache-interval list built by `CostManagerInit`:
starting at `s` the intervals are contiguous, non-empty and reach at least
`K`. -/
def CacheSegFrom (s K : Nat) : List CostCacheInterval → Prop
  | [] => K ≤ s
  | ci :: r => ci.start = s ∧ s < ci.iend ∧ CacheSegFrom ci.iend K r

def decCacheSegFrom (s K : Nat) :
    (l : List CostCacheInterval) → Decidable (CacheSegFrom s K l)
  | [] => inferInstanceAs (Decidable (K ≤ s))
  | ci :: r =>
    match decCacheSegFrom ci.iend K r with
    | .isTrue h =>
      if h2 : ci.start = s ∧ s < ci.iend then .isTrue ⟨h2.1, h2.2, h⟩
      else .isFalse (fun hh => h2 ⟨hh.1, hh.2.1⟩)
    | .isFalse h => .isFalse (fun hh => h hh.2.2)

instance (s K : Nat) (l : List CostCacheInterval) :
    Decidable (CacheSegFrom s K l) := decCacheSegFrom s K l

/-- Each cache interval carries exactly the `cost_cache` value of the run it
represents. -/
def CacheCostOk (cc : Nat → Int) (l : List CostCacheInterval) : Prop :=
  ∀ ci ∈ l, ∀ k < ci.iend, ci.start ≤ k → cc k = ci.cost

instance (cc : Nat → Int) (l : List CostCacheInterval) :
    Decidable (CacheCostOk cc l) := by
  unfold CacheCostOk; infer_instance

/-! ### Basic lemmas about `effList` -/

theorem effList_le_init (l : List CostInterval) (j : Nat) (c : Int) :
    effList l j c ≤ c := by
  induction l with
  | nil => exact le_refl c
  | cons I r ih =>
    simp only [effList]
    split
    · exact le_trans (min_le_left _ _) ih
    · exact ih

theorem effList_mono (l : List CostInterval) (j : Nat) {c d : Int}
    (h : c ≤ d) : effList l j c ≤ effList l j d := by
  induction l with
  | nil => exact h
  | cons I r ih =>
    simp only [effList]
    split
    · exact min_le_min ih (le_refl _)
    · exact ih

theorem effList_append (l1 l2 : List CostInterval) (j : Nat) (c : Int) :
    effList (l1 ++ l2) j c = effList l1 j (effList l2 j c) := by
  induction l1 with
  | nil => rfl
  | cons I r ih => simp only [List.cons_append, effList, List.append_eq, ih]

theorem effList_min_init (l : List CostInterval) (j : Nat) (c d : Int) :
    effList l j (min c d) = min (effList l j c) d := by
  induction l with
  | nil => rfl
  | cons I r ih =>
    simp only [effList, ih]
    split
    · rw [min_right_comm]
    · rfl

theorem effList_cover_le (l : List CostInterval) (j : Nat) (c : Int)
    (I : CostInterval) (hm : I ∈ l) (h1 : I.start ≤ j) (h2 : j < I.iend) :
    effList l j c ≤ I.cost := by
  induction l with
  | nil => cases hm
  | cons J r ih =>
    rcases List.mem_cons.mp hm with h | h
    · subst h
      simp only [effList]
      rw [if_pos (show I.start ≤ j ∧ j < I.iend from ⟨h1, h2⟩)]
      exact min_le_right _ _
    · simp only [effList]
      split
      · exact le_trans (min_le_left _ _) (ih h)
      · exact ih h

/-! ### Basic facts about the elementary operations -/

theorem UpdateCost_costs (m : CostManager) (i position : Nat) (c : Int)
    (j : Nat) :
    (UpdateCost m i position c).costs j =
      if j = i then min (m.costs j) c else m.costs j := by
  unfold UpdateCost
  split
  · rename_i h
    by_cases hj : j = i
    · subst hj; simp [min_eq_right (le_of_lt h)]
    · simp [hj]
  · rename_i h
    by_cases hj : j = i
    · subst hj; simp [min_eq_left (le_of_not_lt h)]
    · simp [hj]

theorem UpdateCost_dist (m : CostManager) (i position : Nat) (c : Int)
    (j : Nat) :
    (UpdateCost m i position c).distArray j =
      if j = i ∧ c < m.costs i then i - position + 1 else m.distArray j := by
  unfold UpdateCost
  split
  · rename_i h
    by_cases hj : j = i
    · subst hj; simp [h]
    · simp [hj]
  · rename_i h
    simp only []
    rw [if_neg (by tauto)]

theorem UpdateCost_frame (m : CostManager) (i position : Nat) (c : Int) :
    (UpdateCost m i position c).head = m.head ∧
    (UpdateCost m i position c).count = m.count ∧
    (UpdateCost m i position c).pool = m.pool ∧
    (UpdateCost m i position c).allocTick = m.allocTick ∧
    (UpdateCost m i position c).allocOk = m.allocOk ∧
    (UpdateCost m i position c).cacheIntervals = m.cacheIntervals ∧
    (UpdateCost m i position c).costCache = m.costCache := by
  unfold UpdateCost; split <;> simp

theorem UpdateCostPerIntervalGo_frame (m : CostManager) (s position : Nat)
    (c : Int) (n : Nat) :
    (UpdateCostPerIntervalGo m s position c n).head = m.head ∧
    (UpdateCostPerIntervalGo m s position c n).count = m.count ∧
    (UpdateCostPerIntervalGo m s position c n).pool = m.pool ∧
    (UpdateCostPerIntervalGo m s position c n).allocTick = m.allocTick ∧
    (UpdateCostPerIntervalGo m s position c n).allocOk = m.allocOk ∧
    (UpdateCostPerIntervalGo m s position c n).cacheIntervals =
      m.cacheIntervals ∧
    (UpdateCostPerIntervalGo m s position c n).costCache = m.costCache := by
  induction n generalizing m s with
  | zero => simp [UpdateCostPerIntervalGo]
  | succ n ih =>
    simp only [UpdateCostPerIntervalGo]
    have h1 := UpdateCost_frame m s position c
    have h2 := ih (UpdateCost m s position c) (s + 1)
    exact ⟨h2.1.trans h1.1, h2.2.1.trans h1.2.1, h2.2.2.1.trans h1.2.2.1,
      h2.2.2.2.1.trans h1.2.2.2.1, h2.2.2.2.2.1.trans h1.2.2.2.2.1,
      h2.2.2.2.2.2.1.trans h1.2.2.2.2.2.1,
      h2.2.2.2.2.2.2.trans h1.2.2.2.2.2.2⟩

theorem UpdateCostPerIntervalGo_costs (position : Nat) (c : Int) (n : Nat) :
    ∀ (m : CostManager) (s j : Nat),
      (UpdateCostPerIntervalGo m s position c n).costs j =
        if s ≤ j ∧ j < s + n then min (m.costs j) c else m.costs j := by
  induction n with
  | zero =>
    intro m s j
    simp only [UpdateCostPerIntervalGo]
    rw [if_neg (by omega)]
  | succ n ih =>
    intro m s j
    simp only [UpdateCostPerIntervalGo]
    rw [ih, UpdateCost_costs]
    by_cases h1 : j = s
    · subst h1
      rw [if_neg (by omega), if_pos rfl, if_pos (by omega)]
    · rw [if_neg h1]
      by_cases h2 : s + 1 ≤ j ∧ j < s + 1 + n
      · rw [if_pos h2, if_pos (by omega)]
      · rw [if_neg h2, if_neg (by omega)]

theorem UpdateCostPerIntervalGo_dist (position : Nat) (c : Int) (n : Nat) :
    ∀ (m : CostManager) (s j : Nat),
      (UpdateCostPerIntervalGo m s position c n).distArray j =
        if s ≤ j ∧ j < s + n ∧ c < m.costs j then j - position + 1
        else m.distArray j := by
  induction n with
  | zero =>
    intro m s j
    simp only [UpdateCostPerIntervalGo]
    rw [if_neg (by omega)]
  | succ n ih =>
    intro m s j
    simp only [UpdateCostPerIntervalGo]
    rw [ih]
    by_cases h1 : j = s
    · subst h1
      rw [if_neg (fun hh => absurd hh.1 (by omega)), UpdateCost_dist]
      by_cases h2 : c < m.costs j
      · rw [if_pos ⟨rfl, h2⟩, if_pos ⟨by omega, by omega, h2⟩]
      · rw [if_neg (fun hh => h2 hh.2), if_neg (fun hh => h2 hh.2.2)]
    · have hc : (UpdateCost m s position c).costs j = m.costs j := by
        rw [UpdateCost_costs, if_neg h1]
      have hd : (UpdateCost m s position c).distArray j = m.distArray j := by
        rw [UpdateCost_dist, if_neg (fun hh => h1 hh.1)]
      rw [hc, hd]
      by_cases h2 : s + 1 ≤ j ∧ j < s + 1 + n ∧ c < m.costs j
      · rw [if_pos h2, if_pos ⟨by omega, by omega, h2.2.2⟩]
      · rw [if_neg h2, if_neg (fun hh => h2 ⟨by omega, by omega, hh.2.2⟩)]

theorem PushIntervalFastGo_frame (dc : Int) (position : Nat) (n : Nat) :
    ∀ (m : CostManager) (k : Nat),
      (PushIntervalFastGo m dc position k n).head = m.head ∧
      (PushIntervalFastGo m dc position k n).count = m.count ∧
      (PushIntervalFastGo m dc position k n).pool = m.pool ∧
      (PushIntervalFastGo m dc position k n).allocTick = m.allocTick ∧
      (PushIntervalFastGo m dc position k n).allocOk = m.allocOk ∧
      (PushIntervalFastGo m dc position k n).cacheIntervals =
        m.cacheIntervals ∧
      (PushIntervalFastGo m dc position k n).costCache = m.costCache := by
  induction n with
  | zero => intro m k; simp [PushIntervalFastGo]
  | succ n ih =>
    intro m k
    simp only [PushIntervalFastGo]
    have h1 := UpdateCost_frame m (position + k) position (dc + m.costCache k)
    have h2 := ih (UpdateCost m (position + k) position (dc + m.costCache k))
      (k + 1)
    exact ⟨h2.1.trans h1.1, h2.2.1.trans h1.2.1, h2.2.2.1.trans h1.2.2.1,
      h2.2.2.2.1.trans h1.2.2.2.1, h2.2.2.2.2.1.trans h1.2.2.2.2.1,
      h2.2.2.2.2.2.1.trans h1.2.2.2.2.2.1,
      h2.2.2.2.2.2.2.trans h1.2.2.2.2.2.2⟩

theorem PushIntervalFastGo_costs (dc : Int) (position : Nat) (n : Nat) :
    ∀ (m : CostManager) (k j : Nat),
      (PushIntervalFastGo m dc position k n).costs j =
        if position + k ≤ j ∧ j < position + k + n then
          min (m.costs j) (dc + m.costCache (j - position))
        else m.costs j := by
  induction n with
  | zero =>
    intro m k j
    simp only [PushIntervalFastGo]
    rw [if_neg (by omega)]
  | succ n ih =>
    intro m k j
    simp only [PushIntervalFastGo]
    rw [ih, UpdateCost_costs]
    have hcc := (UpdateCost_frame m (position + k) position
      (dc + m.costCache k)).2.2.2.2.2.2
    rw [hcc]
    by_cases h1 : j = position + k
    · subst h1
      rw [if_neg (by omega), if_pos rfl, if_pos (by omega)]
      have : position + k - position = k := by omega
      rw [this]
    · rw [if_neg h1]
      by_cases h2 : position + (k + 1) ≤ j ∧ j < position + (k + 1) + n
      · rw [if_pos h2, if_pos (by omega)]
      · rw [if_neg h2, if_neg (by omega)]

theorem PushIntervalFastGo_dist (dc : Int) (position : Nat) (n : Nat) :
    ∀ (m : CostManager) (k j : Nat),
      (PushIntervalFastGo m dc position k n).distArray j =
        if position + k ≤ j ∧ j < position + k + n ∧
            dc + m.costCache (j - position) < m.costs j then
          j - position + 1
        else m.distArray j := by
  induction n with
  | zero =>
    intro m k j
    simp only [PushIntervalFastGo]
    rw [if_neg (by omega)]
  | succ n ih =>
    intro m k j
    simp only [PushIntervalFastGo]
    rw [ih]
    have hcc := (UpdateCost_frame m (position + k) position
      (dc + m.costCache k)).2.2.2.2.2.2
    rw [hcc]
    by_cases h1 : j = position + k
    · subst h1
      rw [if_neg (fun hh => absurd hh.1 (by omega)), UpdateCost_dist]
      have hk : position + k - position = k := by omega
      by_cases h2 : dc + m.costCache k < m.costs (position + k)
      · rw [if_pos ⟨rfl, h2⟩,
          if_pos ⟨by omega, by omega, by rw [hk]; exact h2⟩]
      · rw [if_neg (fun hh => h2 hh.2),
          if_neg (fun hh => by rw [hk] at hh; exact h2 hh.2.2)]
    · have hc : (UpdateCost m (position + k) position
          (dc + m.costCache k)).costs j = m.costs j := by
        rw [UpdateCost_costs, if_neg h1]
      have hd : (UpdateCost m (position + k) position
          (dc + m.costCache k)).distArray j = m.distArray j := by
        rw [UpdateCost_dist, if_neg (fun hh => h1 hh.1)]
      rw [hc, hd]
      by_cases h2 : position + (k + 1) ≤ j ∧ j < position + (k + 1) + n ∧
          dc + m.costCache (j - position) < m.costs j
      · rw [if_pos h2, if_pos ⟨by omega, by omega, h2.2.2⟩]
      · rw [if_neg h2, if_neg (fun hh => h2 ⟨by omega, by omega, hh.2.2⟩)]

/-- C7: for `len < kSkipDistance` (= 10), `PushInterval` relaxes
`costs[position + k]` directly against `distance_cost + cost_cache[k]` for
each `k ∈ [0, len)` (setting `dist_array[position + k] = k + 1` on strict
improvement), touches no position outside `[position, position + len)`, and
leaves the active interval list (`head`, `count`) and the node pools
completely unchanged. -/
theorem pushInterval_fastpath (m : CostManager) (dc : Int) (position len : Nat)
    (hlen : len < kSkipDistance) :
    (PushInterval m dc position len).head = m.head ∧
    (PushInterval m dc position len).count = m.count ∧
    (PushInterval m dc position len).pool = m.pool ∧
    (PushInterval m dc position len).allocTick = m.allocTick ∧
    (PushInterval m dc position len).cacheIntervals = m.cacheIntervals ∧
    (∀ k, k < len →
      (PushInterval m dc position len).costs (position + k) =
        (if dc + m.costCache k < m.costs (position + k) then dc + m.costCache k
          else m.costs (position + k)) ∧
      (PushInterval m dc position len).distArray (position + k) =
        (if dc + m.costCache k < m.costs (position + k) then k + 1
          else m.distArray (position + k))) ∧
    (∀ j, j < position ∨ position + len ≤ j →
      (PushInterval m dc position len).costs j = m.costs j ∧
      (PushInterval m dc position len).distArray j = m.distArray j) := by
  unfold PushInterval
  rw [if_pos hlen]
  have hf := PushIntervalFastGo_frame dc position len m 0
  refine ⟨hf.1, hf.2.1, hf.2.2.1, hf.2.2.2.1, hf.2.2.2.2.2.1, ?_, ?_⟩
  · intro k hk
    have hkk : position + k - position = k := by omega
    constructor
    · rw [PushIntervalFastGo_costs, if_pos ⟨by omega, by omega⟩, hkk]
      rcases lt_or_ge (dc + m.costCache k) (m.costs (position + k)) with h | h
      · rw [if_pos h, min_eq_right (le_of_lt h)]
      · rw [if_neg (not_lt.mpr h), min_eq_left h]
    · rw [PushIntervalFastGo_dist]
      by_cases h : dc + m.costCache k < m.costs (position + k)
      · rw [if_pos ⟨by omega, by omega, by rw [hkk]; exact h⟩, if_pos h, hkk]
      · rw [if_neg (fun hh => by rw [hkk] at hh; exact h hh.2.2), if_neg h]
  · intro j hj
    constructor
    · rw [PushIntervalFastGo_costs, if_neg (by omega)]
    · rw [PushIntervalFastGo_dist, if_neg (by omega)]

/-- A small concrete manager used by several witnesses. -/
def exampleManager : CostManager :=
  { head := [⟨5, 2, 4, 1⟩]
    count := 1
    cacheIntervals := [⟨7, 0, 3⟩, ⟨9, 3, 12⟩]
    costCache := fun k => if k < 3 then 7 else 9
    costs := fun _ => 100
    distArray := fun _ => 0
    pool := 10
    allocOk := fun _ => true
    allocTick := 0 }

/-- Witness for C7: a concrete small-run push at `len = 3 < 10`. -/
theorem pushInterval_fastpath_witness :
    (PushInterval exampleManager 5 10 3).head = exampleManager.head ∧
    (PushInterval exampleManager 5 10 3).costs 11 = 12 := by
  have h := pushInterval_fastpath exampleManager 5 10 3 (by decide)
  refine ⟨h.1, ?_⟩
  have h2 := (h.2.2.2.2.2.1 1 (by decide)).1
  rw [h2]
  decide

theorem UpdateCostAtIndexGo_noclean (i : Nat) :
    ∀ (l : List CostInterval) (m : CostManager),
      (UpdateCostAtIndexGo i false l m).1 = l ∧
      (UpdateCostAtIndexGo i false l m).2.head = m.head ∧
      (UpdateCostAtIndexGo i false l m).2.count = m.count ∧
      (UpdateCostAtIndexGo i false l m).2.pool = m.pool ∧
      (UpdateCostAtIndexGo i false l m).2.allocTick = m.allocTick ∧
      (UpdateCostAtIndexGo i false l m).2.allocOk = m.allocOk ∧
      (UpdateCostAtIndexGo i false l m).2.cacheIntervals = m.cacheIntervals ∧
      (UpdateCostAtIndexGo i false l m).2.costCache = m.costCache ∧
      (∀ j, j ≠ i → (UpdateCostAtIndexGo i false l m).2.costs j = m.costs j ∧
        (UpdateCostAtIndexGo i false l m).2.distArray j = m.distArray j) ∧
      ((UpdateCostAtIndexGo i false l m).2.costs i ≠ m.costs i ∨
          (UpdateCostAtIndexGo i false l m).2.distArray i ≠ m.distArray i →
        ∃ I ∈ l, I.start ≤ i ∧ i < I.iend ∧ I.cost < m.costs i) := by
  intro l
  induction l with
  | nil =>
    intro m
    refine ⟨rfl, rfl, rfl, rfl, rfl, rfl, rfl, rfl, fun j _ => ⟨rfl, rfl⟩, ?_⟩
    intro h
    rcases h with h | h <;> exact absurd rfl h
  | cons cur rest ih =>
    intro m
    by_cases hs : cur.start ≤ i
    · by_cases he : cur.iend ≤ i
      · -- outdated interval, not cleaned: walk past it
        have hgo : UpdateCostAtIndexGo i false (cur :: rest) m =
            ((cur :: (UpdateCostAtIndexGo i false rest m).1),
              (UpdateCostAtIndexGo i false rest m).2) := by
          simp only [UpdateCostAtIndexGo, if_pos hs, if_pos he]
          rfl
        rw [hgo]
        have h := ih m
        refine ⟨by rw [h.1], h.2.1, h.2.2.1, h.2.2.2.1, h.2.2.2.2.1,
          h.2.2.2.2.2.1, h.2.2.2.2.2.2.1, h.2.2.2.2.2.2.2.1,
          h.2.2.2.2.2.2.2.2.1, ?_⟩
        intro hch
        rcases h.2.2.2.2.2.2.2.2.2 hch with ⟨I, hI, hI2⟩
        exact ⟨I, List.mem_cons_of_mem cur hI, hI2⟩
      · -- covering interval: relax costs[i]
        have hgo : UpdateCostAtIndexGo i false (cur :: rest) m =
            ((cur :: (UpdateCostAtIndexGo i false rest
                (UpdateCost m i cur.index cur.cost)).1),
              (UpdateCostAtIndexGo i false rest
                (UpdateCost m i cur.index cur.cost)).2) := by
          simp only [UpdateCostAtIndexGo, if_pos hs, if_neg he]
        rw [hgo]
        set m1 := UpdateCost m i cur.index cur.cost with hm1
        have h := ih m1
        have hfr := UpdateCost_frame m i cur.index cur.cost
        refine ⟨by rw [h.1], h.2.1.trans hfr.1, h.2.2.1.trans hfr.2.1,
          h.2.2.2.1.trans hfr.2.2.1, h.2.2.2.2.1.trans hfr.2.2.2.1,
          h.2.2.2.2.2.1.trans hfr.2.2.2.2.1,
          h.2.2.2.2.2.2.1.trans hfr.2.2.2.2.2.1,
          h.2.2.2.2.2.2.2.1.trans hfr.2.2.2.2.2.2, ?_, ?_⟩
        · intro j hj
          have h9 := h.2.2.2.2.2.2.2.2.1 j hj
          have hc : m1.costs j = m.costs j := by
            rw [hm1, UpdateCost_costs, if_neg hj]
          have hd : m1.distArray j = m.distArray j := by
            rw [hm1, UpdateCost_dist, if_neg (fun hh => hj hh.1)]
          exact ⟨h9.1.trans hc, h9.2.trans hd⟩
        · intro hch
          by_cases hcur : cur.cost < m.costs i
          · exact ⟨cur, List.mem_cons_self cur rest, hs, by omega, hcur⟩
          · have hc : m1.costs i = m.costs i := by
              rw [hm1, UpdateCost_costs, if_pos rfl,
                min_eq_left (le_of_not_lt hcur)]
            have hd : m1.distArray i = m.distArray i := by
              rw [hm1, UpdateCost_dist, if_neg (fun hh => hcur hh.2)]
            have hch1 : (UpdateCostAtIndexGo i false rest m1).2.costs i ≠
                m1.costs i ∨
                (UpdateCostAtIndexGo i false rest m1).2.distArray i ≠
                  m1.distArray i := by
              rcases hch with hch | hch
              · left; rw [hc]; exact hch
              · right; rw [hd]; exact hch
            rcases h.2.2.2.2.2.2.2.2.2 hch1 with ⟨I, hI, hI2, hI3, hI4⟩
            rw [hc] at hI4
            exact ⟨I, List.mem_cons_of_mem cur hI, hI2, hI3, hI4⟩
    · -- walk stops
      have hgo : UpdateCostAtIndexGo i false (cur :: rest) m =
          (cur :: rest, m) := by
        simp only [UpdateCostAtIndexGo, if_neg hs]
      rw [hgo]
      refine ⟨rfl, rfl, rfl, rfl, rfl, rfl, rfl, rfl, fun j _ => ⟨rfl, rfl⟩, ?_⟩
      intro h
      rcases h with h | h <;> exact absurd rfl h

/-- C10: `UpdateCostAtIndex(manager, i, 0)` (cleaning disabled) leaves the
active interval list (and the node pools) entirely unchanged; the only state
it may write is `costs[i]` and `dist_array[i]`, and only when some active
interval covering `i` has cost strictly below `costs[i]`. -/
theorem updateCostAtIndex_noclean_frame (m : CostManager) (i : Nat) :
    (UpdateCostAtIndex m i false).head = m.head ∧
    (UpdateCostAtIndex m i false).count = m.count ∧
    (UpdateCostAtIndex m i false).pool = m.pool ∧
    (UpdateCostAtIndex m i false).allocTick = m.allocTick ∧
    (UpdateCostAtIndex m i false).cacheIntervals = m.cacheIntervals ∧
    (∀ j, j ≠ i → (UpdateCostAtIndex m i false).costs j = m.costs j ∧
      (UpdateCostAtIndex m i false).distArray j = m.distArray j) ∧
    ((UpdateCostAtIndex m i false).costs i ≠ m.costs i ∨
        (UpdateCostAtIndex m i false).distArray i ≠ m.distArray i →
      ∃ I ∈ m.head, I.start ≤ i ∧ i < I.iend ∧ I.cost < m.costs i) := by
  have h := UpdateCostAtIndexGo_noclean i m.head m
  unfold UpdateCostAtIndex
  exact ⟨h.1, h.2.2.1, h.2.2.2.1, h.2.2.2.2.1, h.2.2.2.2.2.2.1,
    h.2.2.2.2.2.2.2.2.1, h.2.2.2.2.2.2.2.2.2⟩

/-- Witness for C10 on a concrete manager whose single interval covers the
index: the list survives and the cost drops to the interval's cost. -/
theorem updateCostAtIndex_noclean_frame_witness :
    (UpdateCostAtIndex exampleManager 3 false).head = exampleManager.head ∧
    (UpdateCostAtIndex exampleManager 3 false).costs 7 =
      exampleManager.costs 7 := by
  have h := updateCostAtIndex_noclean_frame exampleManager 3
  exact ⟨h.1, (h.2.2.2.2.2.1 7 (by decide)).1⟩

theorem UpdateCostPerInterval_costs (m : CostManager) (s e position : Nat)
    (c : Int) (j : Nat) :
    (UpdateCostPerInterval m s e position c).costs j =
      if s ≤ j ∧ j < e then min (m.costs j) c else m.costs j := by
  unfold UpdateCostPerInterval
  rw [UpdateCostPerIntervalGo_costs]
  by_cases h : s ≤ j ∧ j < e
  · rw [if_pos ⟨h.1, by omega⟩, if_pos h]
  · rw [if_neg (fun hh => h ⟨hh.1, by omega⟩), if_neg h]

theorem UpdateCostPerInterval_dist (m : CostManager) (s e position : Nat)
    (c : Int) (j : Nat) :
    (UpdateCostPerInterval m s e position c).distArray j =
      if s ≤ j ∧ j < e ∧ c < m.costs j then j - position + 1
      else m.distArray j := by
  unfold UpdateCostPerInterval
  rw [UpdateCostPerIntervalGo_dist]
  by_cases h : s ≤ j ∧ j < e ∧ c < m.costs j
  · rw [if_pos ⟨h.1, by omega, h.2.2⟩, if_pos h]
  · rw [if_neg (fun hh => h ⟨hh.1, by omega, hh.2.2⟩), if_neg h]

/-- Characterization of `InsertIntervalAux`: the record handed back on
success, and the serialized relaxation on the degraded paths. -/
theorem InsertIntervalAux_spec (m : CostManager) (c : Int)
    (position s e : Nat) :
    (InsertIntervalAux m c position s e).2.head = m.head ∧
    (InsertIntervalAux m c position s e).2.cacheIntervals = m.cacheIntervals ∧
    (InsertIntervalAux m c position s e).2.costCache = m.costCache ∧
    (InsertIntervalAux m c position s e).2.allocOk = m.allocOk ∧
    (match (InsertIntervalAux m c position s e).1 with
     | some x =>
        x = ⟨c, s, e, position⟩ ∧ s < e ∧
          m.count < COST_CACHE_INTERVAL_SIZE_MAX ∧
          (InsertIntervalAux m c position s e).2.count = m.count + 1 ∧
          (∀ j, (InsertIntervalAux m c position s e).2.costs j = m.costs j) ∧
          (∀ j, (InsertIntervalAux m c position s e).2.distArray j =
            m.distArray j)
     | none =>
        (InsertIntervalAux m c position s e).2.count = m.count ∧
          (∀ j, (InsertIntervalAux m c position s e).2.costs j =
            if s ≤ j ∧ j < e then min (m.costs j) c else m.costs j) ∧
          (∀ j, (InsertIntervalAux m c position s e).2.distArray j =
            if s ≤ j ∧ j < e ∧ c < m.costs j then j - position + 1
            else m.distArray j)) := by
  unfold InsertIntervalAux
  by_cases h1 : e ≤ s
  · rw [if_pos h1]
    refine ⟨rfl, rfl, rfl, rfl, rfl, ?_, ?_⟩
    · intro j; rw [if_neg (by omega)]
    · intro j; rw [if_neg (by omega)]
  · rw [if_neg h1]
    by_cases h2 : COST_CACHE_INTERVAL_SIZE_MAX ≤ m.count
    · rw [if_pos h2]
      have hfr := UpdateCostPerIntervalGo_frame m s position c (e - s)
      refine ⟨hfr.1, hfr.2.2.2.2.2.1, hfr.2.2.2.2.2.2, hfr.2.2.2.2.1,
        hfr.2.1, ?_, ?_⟩
      · intro j; exact UpdateCostPerInterval_costs m s e position c j
      · intro j; exact UpdateCostPerInterval_dist m s e position c j
    · rw [if_neg h2]
      by_cases h3 : 0 < m.pool
      · rw [if_pos h3]
        exact ⟨rfl, rfl, rfl, rfl, rfl, by omega, by omega, rfl,
          fun j => rfl, fun j => rfl⟩
      · rw [if_neg h3]
        by_cases h4 : m.allocOk m.allocTick
        · rw [if_pos h4]
          exact ⟨rfl, rfl, rfl, rfl, rfl, by omega, by omega, rfl,
            fun j => rfl, fun j => rfl⟩
        · rw [if_neg h4]
          have hfr := UpdateCostPerIntervalGo_frame
            { m with allocTick := m.allocTick + 1 } s position c (e - s)
          refine ⟨hfr.1, hfr.2.2.2.2.2.1, hfr.2.2.2.2.2.2, hfr.2.2.2.2.1,
            hfr.2.1, ?_, ?_⟩
          · intro j
            exact UpdateCostPerInterval_costs
              { m with allocTick := m.allocTick + 1 } s e position c j
          · intro j
            exact UpdateCostPerInterval_dist
              { m with allocTick := m.allocTick + 1 } s e position c j

theorem effList_swap (a b : CostInterval) (l : List CostInterval) (j : Nat)
    (c : Int) : effList (a :: b :: l) j c = effList (b :: a :: l) j c := by
  simp only [effList]
  split_ifs <;> first | rfl | rw [min_right_comm]

theorem effList_insertSorted (l : List CostInterval) (x : CostInterval)
    (j : Nat) (c : Int) :
    effList (insertSorted l x) j c = effList (x :: l) j c := by
  induction l with
  | nil => rfl
  | cons y l ih =>
    simp only [insertSorted]
    by_cases h : y.start < x.start
    · rw [if_pos h]
      have h2 : effList (y :: insertSorted l x) j c =
          effList (y :: x :: l) j c := by
        simp only [effList, ih]
      rw [h2, effList_swap]
    · rw [if_neg h]

/-- Reduce `InsertInterval` through the result of `InsertIntervalAux`. -/
theorem InsertInterval_eq (m : CostManager) (c : Int) (position s e : Nat) :
    InsertInterval m c position s e =
      (match (InsertIntervalAux m c position s e).1 with
       | none => (InsertIntervalAux m c position s e).2
       | some x =>
          { (InsertIntervalAux m c position s e).2 with
            head :=
              insertSorted (InsertIntervalAux m c position s e).2.head x }) := by
  unfold InsertInterval
  rcases haux : InsertIntervalAux m c position s e with ⟨o, m1⟩
  cases o <;> rfl

/-- C8: `InsertInterval` never signals failure.  If the active list is full
(`count ≥ 500`), or no free/recycled node is available and heap allocation
fails, it instead relaxes `costs[start..end)` position by position
(serialization) and leaves the interval list unchanged; and in every case its
effect on the effective best-known cost is exactly that of a successful
insertion of `[start, end)` at `cost` — no error is propagated. -/
theorem insertInterval_never_fails (m : CostManager) (c : Int)
    (position s e : Nat) :
    (s < e ∧ (COST_CACHE_INTERVAL_SIZE_MAX ≤ m.count ∨
        (m.pool = 0 ∧ m.allocOk m.allocTick = false)) →
      (InsertInterval m c position s e).head = m.head ∧
      (∀ j, (InsertInterval m c position s e).costs j =
        if s ≤ j ∧ j < e then min (m.costs j) c else m.costs j) ∧
      (∀ j, (InsertInterval m c position s e).distArray j =
        if s ≤ j ∧ j < e ∧ c < m.costs j then j - position + 1
        else m.distArray j)) ∧
    (∀ j, EffectiveCost (InsertInterval m c position s e) j =
      if s ≤ j ∧ j < e then min (EffectiveCost m j) c
      else EffectiveCost m j) := by
  have hs := InsertIntervalAux_spec m c position s e
  constructor
  · rintro ⟨hse, hfail⟩
    have hnone : (InsertIntervalAux m c position s e).1 = none := by
      unfold InsertIntervalAux
      rw [if_neg (by omega)]
      by_cases hfull : COST_CACHE_INTERVAL_SIZE_MAX ≤ m.count
      · rw [if_pos hfull]
      · rcases hfail with hfail | ⟨hpool, halloc⟩
        · exact absurd hfail hfull
        · rw [if_neg hfull, if_neg (by omega), if_neg (by simp [halloc])]
    rw [InsertInterval_eq, hnone]
    rw [hnone] at hs
    exact ⟨hs.1, hs.2.2.2.2.2.1, hs.2.2.2.2.2.2⟩
  · intro j
    rw [InsertInterval_eq]
    rcases haux : (InsertIntervalAux m c position s e).1 with _ | x
    · rw [haux] at hs
      unfold EffectiveCost
      rw [hs.1, hs.2.2.2.2.2.1 j]
      by_cases hj : s ≤ j ∧ j < e
      · rw [if_pos hj, if_pos hj, effList_min_init]
      · rw [if_neg hj, if_neg hj]
    · rw [haux] at hs
      have hm := hs.2.2.2.2
      unfold EffectiveCost
      simp only []
      rw [hs.1, hm.2.2.2.2.1 j, effList_insertSorted, hm.1]
      simp only [effList]

/-- A manager with no pooled nodes and a failing allocation oracle. -/
def failManager : CostManager :=
  { head := []
    count := 0
    cacheIntervals := []
    costCache := fun _ => 0
    costs := fun _ => 50
    distArray := fun _ => 9
    pool := 0
    allocOk := fun _ => false
    allocTick := 0 }

/-- Witness for C8: with no free node and a failing allocation, the insert
serializes (list unchanged, costs relaxed, predecessor recorded). -/
theorem insertInterval_never_fails_witness :
    (InsertInterval failManager 7 2 3 6).head = failManager.head ∧
    (InsertInterval failManager 7 2 3 6).costs 4 = 7 ∧
    (InsertInterval failManager 7 2 3 6).distArray 4 = 3 := by
  have h := (insertInterval_never_fails failManager 7 2 3 6).1
    ⟨by decide, Or.inr ⟨rfl, rfl⟩⟩
  refine ⟨h.1, ?_, ?_⟩
  · rw [h.2.1 4]; decide
  · rw [h.2.2 4]; decide

theorem effList_cons_le (I : CostInterval) (l : List CostInterval) (j : Nat)
    (c : Int) : effList (I :: l) j c ≤ effList l j c := by
  simp only [effList]
  split
  · exact min_le_left _ _
  · exact le_refl _

theorem effList_append_le (l1 l2 : List CostInterval) (j : Nat) (c : Int) :
    effList (l1 ++ l2) j c ≤ effList l2 j c := by
  rw [effList_append]
  exact effList_le_init _ _ _

theorem InsertIntervalAux_costs_le (m : CostManager) (c : Int)
    (position s e : Nat) (j : Nat) :
    (InsertIntervalAux m c position s e).2.costs j ≤ m.costs j := by
  have hs := InsertIntervalAux_spec m c position s e
  rcases ho : (InsertIntervalAux m c position s e).1 with _ | x
  · rw [ho] at hs
    rw [hs.2.2.2.2.2.1 j]
    split
    · exact min_le_left _ _
    · exact le_refl _
  · rw [ho] at hs
    rw [hs.2.2.2.2.2.2.2.2.1 j]

theorem PushSegment_costs_le (cost : Int) (position e : Nat) :
    ∀ (suffix : List CostInterval) (a : Nat) (m : CostManager) (j : Nat),
      (PushSegment cost position a e suffix m).1.costs j ≤ m.costs j := by
  intro suffix
  induction suffix with
  | nil =>
    intro a m j
    simp only [PushSegment]
    rcases haux : InsertIntervalAux m cost position a e with ⟨o, m1⟩
    have hle := InsertIntervalAux_costs_le m cost position a e j
    rw [haux] at hle
    cases o
    · exact hle
    · exact hle
  | cons cur rest ih =>
    intro a m j
    simp only [PushSegment]
    by_cases g1 : cur.start < e
    rotate_left
    · rw [if_neg g1]
      rcases haux : InsertIntervalAux m cost position a e with ⟨o, m1⟩
      have hle := InsertIntervalAux_costs_le m cost position a e j
      rw [haux] at hle
      cases o
      · exact hle
      · exact hle
    rw [if_pos g1]
    by_cases g2 : cur.iend ≤ a
    · rw [if_pos g2]
      exact ih a m j
    rw [if_neg g2]
    by_cases g3 : cur.cost ≤ cost
    · rw [if_pos g3]
      rcases haux : InsertIntervalAux m cost position a cur.start with ⟨o, m1⟩
      have hle := InsertIntervalAux_costs_le m cost position a cur.start j
      rw [haux] at hle
      by_cases g3a : e ≤ cur.iend
      · rw [if_pos g3a]
        cases o
        · exact hle
        · exact hle
      · rw [if_neg g3a]
        cases o
        · exact le_trans (ih cur.iend m1 j) hle
        · exact le_trans (ih cur.iend m1 j) hle
    rw [if_neg g3]
    by_cases g4 : a ≤ cur.start
    · rw [if_pos g4]
      by_cases g5 : cur.iend ≤ e
      · rw [if_pos g5]
        exact ih a _ j
      · rw [if_neg g5]
        rcases haux : InsertIntervalAux m cost position a e with ⟨o, m1⟩
        have hle := InsertIntervalAux_costs_le m cost position a e j
        rw [haux] at hle
        cases o
        · exact hle
        · exact hle
    rw [if_neg g4]
    by_cases g6 : e < cur.iend
    · rw [if_pos g6]
      rcases hra : InsertIntervalAux m cur.cost cur.index e cur.iend with ⟨o1, m1⟩
      have hle1 := InsertIntervalAux_costs_le m cur.cost cur.index e cur.iend j
      rw [hra] at hle1
      rcases hrb : InsertIntervalAux m1 cost position a e with ⟨o2, m2⟩
      have hle2 := InsertIntervalAux_costs_le m1 cost position a e j
      rw [hrb] at hle2
      cases o1 <;> cases o2
      · exact le_trans hle2 hle1
      · exact le_trans hle2 hle1
      · exact le_trans hle2 hle1
      · exact le_trans hle2 hle1
    · rw [if_neg g6]
      exact ih a m j

theorem InsertIntervalAux_some (m : CostManager) (c : Int) (position s e : Nat)
    (x : CostInterval) (h : (InsertIntervalAux m c position s e).1 = some x) :
    x.cost = c ∧ x.start = s ∧ x.iend = e ∧ x.index = position ∧ s < e ∧
      m.count < COST_CACHE_INTERVAL_SIZE_MAX ∧
      (InsertIntervalAux m c position s e).2.count = m.count + 1 ∧
      (∀ j, (InsertIntervalAux m c position s e).2.costs j = m.costs j) ∧
      (∀ j, (InsertIntervalAux m c position s e).2.distArray j =
        m.distArray j) := by
  have hs := (InsertIntervalAux_spec m c position s e).2.2.2.2
  rw [h] at hs
  refine ⟨?_, ?_, ?_, ?_, hs.2.1, hs.2.2.1, hs.2.2.2.1, hs.2.2.2.2.1,
    hs.2.2.2.2.2⟩ <;> rw [hs.1]

theorem InsertIntervalAux_none (m : CostManager) (c : Int) (position s e : Nat)
    (h : (InsertIntervalAux m c position s e).1 = none) :
    (InsertIntervalAux m c position s e).2.count = m.count ∧
    (∀ j, (InsertIntervalAux m c position s e).2.costs j =
      if s ≤ j ∧ j < e then min (m.costs j) c else m.costs j) ∧
    (∀ j, (InsertIntervalAux m c position s e).2.distArray j =
      if s ≤ j ∧ j < e ∧ c < m.costs j then j - position + 1
      else m.distArray j) := by
  have hs := (InsertIntervalAux_spec m c position s e).2.2.2.2
  rw [h] at hs
  exact hs

theorem InsertIntervalAux_none_le (m : CostManager) (c : Int)
    (position s e : Nat) (j : Nat)
    (h : (InsertIntervalAux m c position s e).1 = none) (hj1 : s ≤ j)
    (hj2 : j < e) : (InsertIntervalAux m c position s e).2.costs j ≤ c := by
  rw [(InsertIntervalAux_none m c position s e h).2.1 j, if_pos ⟨hj1, hj2⟩]
  exact min_le_right _ _

theorem PushSegment_cover (cost : Int) (position e : Nat) :
    ∀ (suffix : List CostInterval) (a : Nat) (m : CostManager) (j : Nat),
      a ≤ j → j < e →
      effList ((PushSegment cost position a e suffix m).2.1 ++
          (PushSegment cost position a e suffix m).2.2) j
        ((PushSegment cost position a e suffix m).1.costs j) ≤ cost := by
  intro suffix
  induction suffix with
  | nil =>
    intro a m j hj1 hj2
    simp only [PushSegment]
    rcases haux : InsertIntervalAux m cost position a e with ⟨o, m1⟩
    cases o with
    | none =>
      have h := InsertIntervalAux_none_le m cost position a e j
      rw [haux] at h
      exact le_trans (effList_le_init _ _ _) (h rfl hj1 hj2)
    | some x =>
      have h := InsertIntervalAux_some m cost position a e x
      rw [haux] at h
      have h2 := h rfl
      have := effList_cover_le ([x] ++ []) j (m1.costs j) x
        (List.mem_append_left _ (List.mem_singleton_self x))
        (by rw [h2.2.1]; exact hj1) (by rw [h2.2.2.1]; exact hj2)
      rw [h2.1] at this
      exact this
  | cons cur rest ih =>
    intro a m j hj1 hj2
    simp only [PushSegment]
    by_cases g1 : cur.start < e
    rotate_left
    · -- loop exit
      rw [if_neg g1]
      rcases haux : InsertIntervalAux m cost position a e with ⟨o, m1⟩
      cases o with
      | none =>
        have h := InsertIntervalAux_none_le m cost position a e j
        rw [haux] at h
        exact le_trans (effList_le_init _ _ _) (h rfl hj1 hj2)
      | some x =>
        have h := InsertIntervalAux_some m cost position a e x
        rw [haux] at h
        have h2 := h rfl
        have := effList_cover_le ([x] ++ cur :: rest) j (m1.costs j) x
          (List.mem_append_left _ (List.mem_singleton_self x))
          (by rw [h2.2.1]; exact hj1) (by rw [h2.2.2.1]; exact hj2)
        rw [h2.1] at this
        exact this
    rw [if_pos g1]
    by_cases g2 : cur.iend ≤ a
    · -- no overlap: skip
      rw [if_pos g2]
      have hle : effList ((cur :: (PushSegment cost position a e rest m).2.1) ++
          (PushSegment cost position a e rest m).2.2) j
            ((PushSegment cost position a e rest m).1.costs j) ≤
          effList ((PushSegment cost position a e rest m).2.1 ++
            (PushSegment cost position a e rest m).2.2) j
            ((PushSegment cost position a e rest m).1.costs j) := by
        rw [List.cons_append]
        exact effList_cons_le _ _ _ _
      exact le_trans hle (ih a m j hj1 hj2)
    rw [if_neg g2]
    by_cases g3 : cur.cost ≤ cost
    · rw [if_pos g3]
      rcases haux : InsertIntervalAux m cost position a cur.start with ⟨o, m1⟩
      by_cases g3a : e ≤ cur.iend
      · -- break out of the sweep
        rw [if_pos g3a]
        by_cases hj3 : j < cur.start
        · cases o with
          | none =>
            have h := InsertIntervalAux_none_le m cost position a cur.start j
            rw [haux] at h
            exact le_trans (effList_le_init _ _ _) (h rfl hj1 hj3)
          | some x =>
            have h := InsertIntervalAux_some m cost position a cur.start x
            rw [haux] at h
            have h2 := h rfl
            have := effList_cover_le ([x] ++ cur :: rest) j (m1.costs j) x
              (List.mem_append_left _ (List.mem_singleton_self x))
              (by rw [h2.2.1]; exact hj1) (by rw [h2.2.2.1]; exact hj3)
            rw [h2.1] at this
            exact this
        · -- j is covered by the old, cheaper interval
          have hcov : cur.start ≤ j ∧ j < cur.iend := ⟨by omega, by omega⟩
          cases o with
          | none =>
            have := effList_cover_le ([] ++ cur :: rest) j (m1.costs j) cur
              (by simp) hcov.1 hcov.2
            exact le_trans this g3
          | some x =>
            have := effList_cover_le ([x] ++ cur :: rest) j (m1.costs j) cur
              (by simp) hcov.1 hcov.2
            exact le_trans this g3
      · -- continue past the old interval
        rw [if_neg g3a]
        by_cases hj3 : j < cur.start
        · cases o with
          | none =>
            have h := InsertIntervalAux_none_le m cost position a cur.start j
            rw [haux] at h
            have hc := PushSegment_costs_le cost position e rest cur.iend m1 j
            exact le_trans (effList_le_init _ _ _)
              (le_trans hc (h rfl hj1 hj3))
          | some x =>
            have h := InsertIntervalAux_some m cost position a cur.start x
            rw [haux] at h
            have h2 := h rfl
            have hmem : x ∈ ([x] ++ cur ::
                (PushSegment cost position cur.iend e rest m1).2.1) ++
                (PushSegment cost position cur.iend e rest m1).2.2 := by simp
            have := effList_cover_le _ j
              ((PushSegment cost position cur.iend e rest m1).1.costs j) x hmem
              (by rw [h2.2.1]; exact hj1) (by rw [h2.2.2.1]; exact hj3)
            rw [h2.1] at this
            exact this
        · by_cases hj4 : j < cur.iend
          · -- covered by the old, cheaper interval
            cases o with
            | none =>
              have := effList_cover_le (([] ++ cur ::
                  (PushSegment cost position cur.iend e rest m1).2.1) ++
                  (PushSegment cost position cur.iend e rest m1).2.2) j
                ((PushSegment cost position cur.iend e rest m1).1.costs j)
                cur (by simp) (by omega) hj4
              exact le_trans this g3
            | some x =>
              have := effList_cover_le (([x] ++ cur ::
                  (PushSegment cost position cur.iend e rest m1).2.1) ++
                  (PushSegment cost position cur.iend e rest m1).2.2) j
                ((PushSegment cost position cur.iend e rest m1).1.costs j)
                cur (by simp) (by omega) hj4
              exact le_trans this g3
          · -- beyond the old interval: the recursion covers j
            have hrec := ih cur.iend m1 j (by omega) hj2
            cases o with
            | none =>
              refine le_trans ?_ hrec
              have h1 : ([] ++ cur ::
                  (PushSegment cost position cur.iend e rest m1).2.1) ++
                  (PushSegment cost position cur.iend e rest m1).2.2 =
                  cur :: ((PushSegment cost position cur.iend e rest m1).2.1 ++
                    (PushSegment cost position cur.iend e rest m1).2.2) := by
                simp
              rw [h1]
              exact effList_cons_le _ _ _ _
            | some x =>
              refine le_trans ?_ hrec
              have h1 : ([x] ++ cur ::
                  (PushSegment cost position cur.iend e rest m1).2.1) ++
                  (PushSegment cost position cur.iend e rest m1).2.2 =
                  x :: cur ::
                    ((PushSegment cost position cur.iend e rest m1).2.1 ++
                    (PushSegment cost position cur.iend e rest m1).2.2) := by
                simp
              rw [h1]
              exact le_trans (effList_cons_le _ _ _ _) (effList_cons_le _ _ _ _)
    rw [if_neg g3]
    by_cases g4 : a ≤ cur.start
    · rw [if_pos g4]
      by_cases g5 : cur.iend ≤ e
      · -- pop the old interval
        rw [if_pos g5]
        exact ih a _ j hj1 hj2
      · -- shrink the old interval from the left, break
        rw [if_neg g5]
        rcases haux : InsertIntervalAux m cost position a e with ⟨o, m1⟩
        cases o with
        | none =>
          have h := InsertIntervalAux_none_le m cost position a e j
          rw [haux] at h
          exact le_trans (effList_le_init _ _ _) (h rfl hj1 hj2)
        | some x =>
          have h := InsertIntervalAux_some m cost position a e x
          rw [haux] at h
          have h2 := h rfl
          have := effList_cover_le
            ([x] ++ { cur with start := e } :: rest) j (m1.costs j) x
            (by simp) (by rw [h2.2.1]; exact hj1) (by rw [h2.2.2.1]; exact hj2)
          rw [h2.1] at this
          exact this
    rw [if_neg g4]
    by_cases g6 : e < cur.iend
    · -- split the old interval, break
      rw [if_pos g6]
      rcases hra : InsertIntervalAux m cur.cost cur.index e cur.iend with
        ⟨o1, m1⟩
      rcases hrb : InsertIntervalAux m1 cost position a e with ⟨o2, m2⟩
      cases o2 with
      | none =>
        have h := InsertIntervalAux_none_le m1 cost position a e j
        rw [hrb] at h
        cases o1 with
        | none => exact le_trans (effList_le_init _ _ _) (h rfl hj1 hj2)
        | some x1 => exact le_trans (effList_le_init _ _ _) (h rfl hj1 hj2)
      | some y =>
        have h := InsertIntervalAux_some m1 cost position a e y
        rw [hrb] at h
        have h2 := h rfl
        cases o1 with
        | none =>
          have := effList_cover_le ([{ cur with iend := a }, y] ++ rest) j
            (m2.costs j) y (by simp) (by rw [h2.2.1]; exact hj1)
            (by rw [h2.2.2.1]; exact hj2)
          rw [h2.1] at this
          exact this
        | some x1 =>
          have := effList_cover_le
            ([{ cur with iend := a }, y] ++ x1 :: rest) j (m2.costs j) y
            (by simp) (by rw [h2.2.1]; exact hj1) (by rw [h2.2.2.1]; exact hj2)
          rw [h2.1] at this
          exact this
    · -- shrink the old interval from the right, continue
      rw [if_neg g6]
      have h1 : ({ cur with iend := a } ::
          (PushSegment cost position a e rest m).2.1) ++
          (PushSegment cost position a e rest m).2.2 =
          { cur with iend := a } ::
            ((PushSegment cost position a e rest m).2.1 ++
            (PushSegment cost position a e rest m).2.2) := by
        simp
      rw [h1]
      exact le_trans (effList_cons_le _ _ _ _) (ih a m j hj1 hj2)

theorem effList_cons_mono (I : CostInterval) {X Y : List CostInterval}
    {j : Nat} {C D : Int} (h : effList X j C ≤ effList Y j D) :
    effList (I :: X) j C ≤ effList (I :: Y) j D := by
  simp only [effList]
  split
  · exact min_le_min h (le_refl _)
  · exact h

theorem InsertIntervalAux_costs_out (m : CostManager) (c : Int)
    (position s e : Nat) (j : Nat) (hj : ¬(s ≤ j ∧ j < e)) :
    (InsertIntervalAux m c position s e).2.costs j = m.costs j := by
  rcases ho : (InsertIntervalAux m c position s e).1 with _ | x
  · rw [(InsertIntervalAux_none m c position s e ho).2.1 j, if_neg hj]
  · exact (InsertIntervalAux_some m c position s e x ho).2.2.2.2.2.2.2.1 j

theorem PushSegment_le (cost : Int) (position e : Nat) :
    ∀ (suffix : List CostInterval) (a : Nat) (m : CostManager) (j : Nat),
      effList ((PushSegment cost position a e suffix m).2.1 ++
          (PushSegment cost position a e suffix m).2.2) j
        ((PushSegment cost position a e suffix m).1.costs j) ≤
      effList suffix j (m.costs j) := by
  intro suffix
  induction suffix with
  | nil =>
    intro a m j
    simp only [PushSegment]
    rcases haux : InsertIntervalAux m cost position a e with ⟨o, m1⟩
    have hle := InsertIntervalAux_costs_le m cost position a e j
    rw [haux] at hle
    cases o with
    | none => exact le_trans (effList_le_init _ _ _) hle
    | some x => exact le_trans (effList_le_init _ _ _) hle
  | cons cur rest ih =>
    intro a m j
    have hshow : effList (cur :: rest) j (m.costs j) =
        if cur.start ≤ j ∧ j < cur.iend then
          min (effList rest j (m.costs j)) cur.cost
        else effList rest j (m.costs j) := rfl
    simp only [PushSegment]
    by_cases g1 : cur.start < e
    rotate_left
    · rw [if_neg g1]
      rcases haux : InsertIntervalAux m cost position a e with ⟨o, m1⟩
      have hle := InsertIntervalAux_costs_le m cost position a e j
      rw [haux] at hle
      cases o with
      | none =>
        exact le_trans (effList_append_le _ _ _ _) (effList_mono _ _ hle)
      | some x =>
        exact le_trans (effList_append_le _ _ _ _) (effList_mono _ _ hle)
    rw [if_pos g1]
    by_cases g2 : cur.iend ≤ a
    · rw [if_pos g2]
      have h1 : (cur :: (PushSegment cost position a e rest m).2.1) ++
          (PushSegment cost position a e rest m).2.2 =
          cur :: ((PushSegment cost position a e rest m).2.1 ++
            (PushSegment cost position a e rest m).2.2) := by simp
      rw [h1]
      exact effList_cons_mono cur (ih a m j)
    rw [if_neg g2]
    by_cases g3 : cur.cost ≤ cost
    · rw [if_pos g3]
      rcases haux : InsertIntervalAux m cost position a cur.start with ⟨o, m1⟩
      have hle := InsertIntervalAux_costs_le m cost position a cur.start j
      rw [haux] at hle
      by_cases g3a : e ≤ cur.iend
      · rw [if_pos g3a]
        cases o with
        | none =>
          exact le_trans (effList_append_le _ _ _ _) (effList_mono _ _ hle)
        | some x =>
          exact le_trans (effList_append_le _ _ _ _) (effList_mono _ _ hle)
      · rw [if_neg g3a]
        cases o with
        | none =>
          have h1 : ([] ++ cur ::
              (PushSegment cost position cur.iend e rest m1).2.1) ++
              (PushSegment cost position cur.iend e rest m1).2.2 =
              cur :: ((PushSegment cost position cur.iend e rest m1).2.1 ++
                (PushSegment cost position cur.iend e rest m1).2.2) := by simp
          rw [h1]
          exact le_trans (effList_cons_mono cur (ih cur.iend m1 j))
            (effList_mono _ _ hle)
        | some x =>
          have h1 : ([x] ++ cur ::
              (PushSegment cost position cur.iend e rest m1).2.1) ++
              (PushSegment cost position cur.iend e rest m1).2.2 =
              x :: (cur ::
                ((PushSegment cost position cur.iend e rest m1).2.1 ++
                (PushSegment cost position cur.iend e rest m1).2.2)) := by simp
          rw [h1]
          refine le_trans (effList_cons_le _ _ _ _) ?_
          exact le_trans (effList_cons_mono cur (ih cur.iend m1 j))
            (effList_mono _ _ hle)
    rw [if_neg g3]
    have hcc : cost ≤ cur.cost := le_of_lt (not_le.mp g3)
    by_cases g4 : a ≤ cur.start
    · rw [if_pos g4]
      by_cases g5 : cur.iend ≤ e
      · -- pop
        rw [if_pos g5, hshow]
        by_cases hcv : cur.start ≤ j ∧ j < cur.iend
        · rw [if_pos hcv]
          refine le_min (ih a _ j) ?_
          have hB := PushSegment_cover cost position e rest a
            { m with pool := m.pool + 1, count := m.count - 1 } j
            (by omega) (by omega)
          exact le_trans hB hcc
        · rw [if_neg hcv]
          exact ih a _ j
      · -- shrink from the left, break
        rw [if_neg g5, hshow]
        rcases haux : InsertIntervalAux m cost position a e with ⟨o, m1⟩
        have hle := InsertIntervalAux_costs_le m cost position a e j
        rw [haux] at hle
        cases o with
        | none =>
          have hRest : effList (([] : List CostInterval) ++
              { cur with start := e } :: rest) j (m1.costs j) ≤
              effList rest j (m.costs j) := by
            refine le_trans (effList_append_le _ _ _ _) ?_
            exact le_trans (effList_cons_le _ _ _ _) (effList_mono _ _ hle)
          by_cases hcv : cur.start ≤ j ∧ j < cur.iend
          · rw [if_pos hcv]
            refine le_min hRest ?_
            by_cases hje : j < e
            · have hf := (InsertIntervalAux_none m cost position a e
                (by rw [haux])).2.1 j
              rw [haux] at hf
              have hm1 : m1.costs j ≤ cost := by
                rw [hf, if_pos ⟨by omega, hje⟩]
                exact min_le_right _ _
              exact le_trans (le_trans (effList_le_init _ _ _) hm1) hcc
            · exact effList_cover_le _ j (m1.costs j) { cur with start := e }
                (by simp) (show e ≤ j by omega) (show j < cur.iend by omega)
          · rw [if_neg hcv]
            exact hRest
        | some x =>
          have h2 := InsertIntervalAux_some m cost position a e x
            (by rw [haux])
          have hcEq : m1.costs j = m.costs j := by
            have h3 := h2.2.2.2.2.2.2.2.1 j
            rw [haux] at h3
            exact h3
          have hRest : effList ([x] ++ { cur with start := e } :: rest) j
              (m1.costs j) ≤ effList rest j (m.costs j) := by
            refine le_trans (effList_append_le _ _ _ _) ?_
            exact le_trans (effList_cons_le _ _ _ _)
              (effList_mono _ _ (le_of_eq hcEq))
          by_cases hcv : cur.start ≤ j ∧ j < cur.iend
          · rw [if_pos hcv]
            refine le_min hRest ?_
            by_cases hje : j < e
            · have h4 := effList_cover_le
                ([x] ++ { cur with start := e } :: rest) j (m1.costs j) x
                (by simp) (by rw [h2.2.1]; omega) (by rw [h2.2.2.1]; exact hje)
              rw [h2.1] at h4
              exact le_trans h4 hcc
            · exact effList_cover_le _ j (m1.costs j) { cur with start := e }
                (by simp) (show e ≤ j by omega) (show j < cur.iend by omega)
          · rw [if_neg hcv]
            exact hRest
    rw [if_neg g4]
    by_cases g6 : e < cur.iend
    · -- split, break
      rw [if_pos g6, hshow]
      rcases hra : InsertIntervalAux m cur.cost cur.index e cur.iend with
        ⟨o1, m1⟩
      have hle1 := InsertIntervalAux_costs_le m cur.cost cur.index e cur.iend j
      rw [hra] at hle1
      rcases hrb : InsertIntervalAux m1 cost position a e with ⟨o2, m2⟩
      have hle2 := InsertIntervalAux_costs_le m1 cost position a e j
      rw [hrb] at hle2
      have hle12 : m2.costs j ≤ m.costs j := le_trans hle2 hle1
      cases o1 with
      | none =>
        have hm2Eq : ¬(a ≤ j ∧ j < e) → m2.costs j = m1.costs j := by
          intro hout
          have h3 := InsertIntervalAux_costs_out m1 cost position a e j hout
          rw [hrb] at h3
          exact h3
        have hm1le : e ≤ j → j < cur.iend → m1.costs j ≤ cur.cost := by
          intro hj1 hj2
          have h3 := (InsertIntervalAux_none m cur.cost cur.index e cur.iend
            (by rw [hra])).2.1 j
          rw [hra] at h3
          rw [h3, if_pos ⟨hj1, hj2⟩]
          exact min_le_right _ _
        cases o2 with
        | none =>
          have hRest : effList (([{ cur with iend := a }] :
              List CostInterval) ++ rest) j (m2.costs j) ≤
              effList rest j (m.costs j) :=
            le_trans (effList_append_le _ _ _ _) (effList_mono _ _ hle12)
          by_cases hcv : cur.start ≤ j ∧ j < cur.iend
          · rw [if_pos hcv]
            refine le_min hRest ?_
            by_cases hja : j < a
            · exact effList_cover_le _ j (m2.costs j) { cur with iend := a }
                (by simp) (show cur.start ≤ j from hcv.1) (show j < a from hja)
            · by_cases hje : j < e
              · have hf := (InsertIntervalAux_none m1 cost position a e
                  (by rw [hrb])).2.1 j
                rw [hrb] at hf
                have hm2 : m2.costs j ≤ cost := by
                  rw [hf, if_pos ⟨by omega, hje⟩]
                  exact min_le_right _ _
                exact le_trans (le_trans (effList_le_init _ _ _) hm2) hcc
              · have hm2c : m2.costs j ≤ cur.cost := by
                  rw [hm2Eq (by omega)]
                  exact hm1le (by omega) hcv.2
                exact le_trans (effList_le_init _ _ _) hm2c
          · rw [if_neg hcv]
            exact hRest
        | some y =>
          have hy := InsertIntervalAux_some m1 cost position a e y
            (by rw [hrb])
          have hcEq2 : m2.costs j = m1.costs j := by
            have h3 := hy.2.2.2.2.2.2.2.1 j
            rw [hrb] at h3
            exact h3
          have hRest : effList (([{ cur with iend := a }, y] :
              List CostInterval) ++ rest) j (m2.costs j) ≤
              effList rest j (m.costs j) :=
            le_trans (effList_append_le _ _ _ _) (effList_mono _ _ hle12)
          by_cases hcv : cur.start ≤ j ∧ j < cur.iend
          · rw [if_pos hcv]
            refine le_min hRest ?_
            by_cases hja : j < a
            · exact effList_cover_le _ j (m2.costs j) { cur with iend := a }
                (by simp) (show cur.start ≤ j from hcv.1) (show j < a from hja)
            · by_cases hje : j < e
              · have h4 := effList_cover_le
                  ([{ cur with iend := a }, y] ++ rest) j (m2.costs j) y
                  (by simp) (by rw [hy.2.1]; omega)
                  (by rw [hy.2.2.1]; exact hje)
                rw [hy.1] at h4
                exact le_trans h4 hcc
              · have hm2c : m2.costs j ≤ cur.cost := by
                  rw [hcEq2]
                  exact hm1le (by omega) hcv.2
                exact le_trans (effList_le_init _ _ _) hm2c
          · rw [if_neg hcv]
            exact hRest
      | some x1 =>
        have hx1 := InsertIntervalAux_some m cur.cost cur.index e cur.iend x1
          (by rw [hra])
        cases o2 with
        | none =>
          have hRest : effList (([{ cur with iend := a }] :
              List CostInterval) ++ x1 :: rest) j (m2.costs j) ≤
              effList rest j (m.costs j) := by
            refine le_trans (effList_append_le _ _ _ _) ?_
            exact le_trans (effList_cons_le _ _ _ _) (effList_mono _ _ hle12)
          by_cases hcv : cur.start ≤ j ∧ j < cur.iend
          · rw [if_pos hcv]
            refine le_min hRest ?_
            by_cases hja : j < a
            · exact effList_cover_le _ j (m2.costs j) { cur with iend := a }
                (by simp) (show cur.start ≤ j from hcv.1) (show j < a from hja)
            · by_cases hje : j < e
              · have hf := (InsertIntervalAux_none m1 cost position a e
                  (by rw [hrb])).2.1 j
                rw [hrb] at hf
                have hm2 : m2.costs j ≤ cost := by
                  rw [hf, if_pos ⟨by omega, hje⟩]
                  exact min_le_right _ _
                exact le_trans (le_trans (effList_le_init _ _ _) hm2) hcc
              · have h4 := effList_cover_le
                  ([{ cur with iend := a }] ++ x1 :: rest) j (m2.costs j) x1
                  (by simp) (by rw [hx1.2.1]; omega)
                  (by rw [hx1.2.2.1]; exact hcv.2)
                rw [hx1.1] at h4
                exact h4
          · rw [if_neg hcv]
            exact hRest
        | some y =>
          have hy := InsertIntervalAux_some m1 cost position a e y
            (by rw [hrb])
          have hRest : effList (([{ cur with iend := a }, y] :
              List CostInterval) ++ x1 :: rest) j (m2.costs j) ≤
              effList rest j (m.costs j) := by
            refine le_trans (effList_append_le _ _ _ _) ?_
            exact le_trans (effList_cons_le _ _ _ _) (effList_mono _ _ hle12)
          by_cases hcv : cur.start ≤ j ∧ j < cur.iend
          · rw [if_pos hcv]
            refine le_min hRest ?_
            by_cases hja : j < a
            · exact effList_cover_le _ j (m2.costs j) { cur with iend := a }
                (by simp) (show cur.start ≤ j from hcv.1) (show j < a from hja)
            · by_cases hje : j < e
              · have h4 := effList_cover_le
                  ([{ cur with iend := a }, y] ++ x1 :: rest) j (m2.costs j) y
                  (by simp) (by rw [hy.2.1]; omega)
                  (by rw [hy.2.2.1]; exact hje)
                rw [hy.1] at h4
                exact le_trans h4 hcc
              · have h4 := effList_cover_le
                  ([{ cur with iend := a }, y] ++ x1 :: rest) j (m2.costs j) x1
                  (by simp) (by rw [hx1.2.1]; omega)
                  (by rw [hx1.2.2.1]; exact hcv.2)
                rw [hx1.1] at h4
                exact h4
          · rw [if_neg hcv]
            exact hRest
    · -- shrink from the right, continue
      rw [if_neg g6, hshow]
      have h1 : ({ cur with iend := a } ::
          (PushSegment cost position a e rest m).2.1) ++
          (PushSegment cost position a e rest m).2.2 =
          { cur with iend := a } ::
            ((PushSegment cost position a e rest m).2.1 ++
            (PushSegment cost position a e rest m).2.2) := by simp
      rw [h1]
      by_cases hcv : cur.start ≤ j ∧ j < cur.iend
      · rw [if_pos hcv]
        by_cases hja : j < a
        · have hunf : effList ({ cur with iend := a } ::
              ((PushSegment cost position a e rest m).2.1 ++
              (PushSegment cost position a e rest m).2.2)) j
              ((PushSegment cost position a e rest m).1.costs j) =
              min (effList ((PushSegment cost position a e rest m).2.1 ++
                (PushSegment cost position a e rest m).2.2) j
                ((PushSegment cost position a e rest m).1.costs j)) cur.cost := by
            simp only [effList]
            rw [if_pos (show ({ cur with iend := a } : CostInterval).start ≤ j ∧
              j < ({ cur with iend := a } : CostInterval).iend from
                ⟨hcv.1, hja⟩)]
          rw [hunf]
          exact min_le_min (ih a m j) (le_refl _)
        · have hunf : effList ({ cur with iend := a } ::
              ((PushSegment cost position a e rest m).2.1 ++
              (PushSegment cost position a e rest m).2.2)) j
              ((PushSegment cost position a e rest m).1.costs j) =
              effList ((PushSegment cost position a e rest m).2.1 ++
                (PushSegment cost position a e rest m).2.2) j
                ((PushSegment cost position a e rest m).1.costs j) := by
            simp only [effList]
            rw [if_neg (show ¬(({ cur with iend := a } :
              CostInterval).start ≤ j ∧
              j < ({ cur with iend := a } : CostInterval).iend) from
                fun hh => hja hh.2)]
          rw [hunf]
          refine le_min (ih a m j) ?_
          have hB := PushSegment_cover cost position e rest a m j (by omega)
            (by omega)
          exact le_trans hB hcc
      · rw [if_neg hcv]
        have hunf : effList ({ cur with iend := a } ::
            ((PushSegment cost position a e rest m).2.1 ++
            (PushSegment cost position a e rest m).2.2)) j
            ((PushSegment cost position a e rest m).1.costs j) =
            effList ((PushSegment cost position a e rest m).2.1 ++
              (PushSegment cost position a e rest m).2.2) j
              ((PushSegment cost position a e rest m).1.costs j) := by
          simp only [effList]
          rw [if_neg (show ¬(({ cur with iend := a } :
            CostInterval).start ≤ j ∧
            j < ({ cur with iend := a } : CostInterval).iend) from
              fun hh => hcv ⟨hh.1, by
                have h5 : j < a := hh.2
                omega⟩)]
        rw [hunf]
        exact ih a m j

theorem PushIntervalGo_le (dc : Int) (position len : Nat) :
    ∀ (cis : List CostCacheInterval) (done suffix : List CostInterval)
      (m : CostManager) (j : Nat),
      effList (PushIntervalGo dc position len cis done suffix m).2 j
        ((PushIntervalGo dc position len cis done suffix m).1.costs j) ≤
      effList (done ++ suffix) j (m.costs j) := by
  intro cis
  induction cis with
  | nil => intro done suffix m j; exact le_refl _
  | cons ci cis ih =>
    intro done suffix m j
    simp only [PushIntervalGo]
    by_cases hci : ci.start < len
    · rw [if_pos hci]
      refine le_trans (ih _ _ _ j) ?_
      have h1 : (done ++ (PushSegment (dc + ci.cost) position
          (position + ci.start) (position + min ci.iend len) suffix m).2.1) ++
          (PushSegment (dc + ci.cost) position (position + ci.start)
            (position + min ci.iend len) suffix m).2.2 =
          done ++ ((PushSegment (dc + ci.cost) position (position + ci.start)
            (position + min ci.iend len) suffix m).2.1 ++
          (PushSegment (dc + ci.cost) position (position + ci.start)
            (position + min ci.iend len) suffix m).2.2) := by simp
      rw [h1, effList_append,
        show effList (done ++ suffix) j (m.costs j) =
          effList done j (effList suffix j (m.costs j)) from
            effList_append _ _ _ _]
      exact effList_mono _ _ (PushSegment_le _ _ _ suffix _ m j)
    · rw [if_neg hci]

theorem PushIntervalGo_cover (dc : Int) (position len : Nat) (cc : Nat → Int)
    (K : Nat) :
    ∀ (cis : List CostCacheInterval) (s : Nat)
      (done suffix : List CostInterval) (m : CostManager),
      CacheSegFrom s K cis → CacheCostOk cc cis →
      ∀ k, s ≤ k → k < len → k < K →
        effList (PushIntervalGo dc position len cis done suffix m).2
            (position + k)
          ((PushIntervalGo dc position len cis done suffix m).1.costs
            (position + k)) ≤ dc + cc k := by
  intro cis
  induction cis with
  | nil =>
    intro s done suffix m hseg _ k hk1 _ hk3
    have h : K ≤ s := hseg
    omega
  | cons ci cis ih =>
    intro s done suffix m hseg hcost k hk1 hk2 hk3
    obtain ⟨hstart, hlt, hrest⟩ := hseg
    simp only [PushIntervalGo]
    rw [if_pos (by omega : ci.start < len)]
    by_cases hk : k < ci.iend
    · -- this cache segment is responsible for offset k
      have hcov := PushSegment_cover (dc + ci.cost) position
        (position + min ci.iend len) suffix (position + ci.start) m
        (position + k) (by omega) (by omega)
      have hcck : cc k = ci.cost :=
        hcost ci (List.mem_cons_self _ _) k hk (by omega)
      refine le_trans (le_trans (PushIntervalGo_le dc position len cis _ _ _
        (position + k)) ?_) (by rw [hcck])
      have h1 : (done ++ (PushSegment (dc + ci.cost) position
          (position + ci.start) (position + min ci.iend len) suffix m).2.1) ++
          (PushSegment (dc + ci.cost) position (position + ci.start)
            (position + min ci.iend len) suffix m).2.2 =
          done ++ ((PushSegment (dc + ci.cost) position (position + ci.start)
            (position + min ci.iend len) suffix m).2.1 ++
          (PushSegment (dc + ci.cost) position (position + ci.start)
            (position + min ci.iend len) suffix m).2.2) := by simp
      rw [h1, effList_append]
      exact le_trans (effList_le_init _ _ _) hcov
    · -- handled by a later cache segment
      exact ih ci.iend _ _ _ hrest
        (fun cj hj => hcost cj (List.mem_cons_of_mem _ hj)) k (by omega) hk2
        hk3

/-- C1: after `PushInterval(manager, distance_cost, position, len)` with
`0 < len` (and `len` within the range `[0, K)` covered by the cache
intervals, `K = min(pix_count, MAX_LENGTH)`, as guaranteed at every call
site), the effective best-known cost at `position + k` — the minimum of
`costs[position + k]` and the costs of all active intervals covering it — is
at most `distance_cost + cost_cache[k]` for every `k < len`; moreover the
effective best-known cost at any position never increases. -/
theorem pushInterval_relaxes (m : CostManager) (dc : Int)
    (position len K : Nat) (hseg : CacheSegFrom 0 K m.cacheIntervals)
    (hcost : CacheCostOk m.costCache m.cacheIntervals) (hlen0 : 0 < len)
    (hlenK : len ≤ K) :
    (∀ k, k < len →
      EffectiveCost (PushInterval m dc position len) (position + k) ≤
        dc + m.costCache k) ∧
    (∀ j, EffectiveCost (PushInterval m dc position len) j ≤
      EffectiveCost m j) := by
  unfold PushInterval
  by_cases hfast : len < kSkipDistance
  · rw [if_pos hfast]
    have hframe := PushIntervalFastGo_frame dc position len m 0
    constructor
    · intro k hk
      unfold EffectiveCost
      rw [hframe.1]
      have hc := PushIntervalFastGo_costs dc position len m 0 (position + k)
      rw [if_pos ⟨by omega, by omega⟩] at hc
      have hkk : position + k - position = k := by omega
      rw [hkk] at hc
      rw [hc]
      exact le_trans (effList_le_init _ _ _) (min_le_right _ _)
    · intro j
      unfold EffectiveCost
      rw [hframe.1]
      refine effList_mono _ _ ?_
      have hc := PushIntervalFastGo_costs dc position len m 0 j
      rw [hc]
      split
      · exact min_le_left _ _
      · exact le_refl _
  · rw [if_neg hfast]
    constructor
    · intro k hk
      exact PushIntervalGo_cover dc position len m.costCache K
        m.cacheIntervals 0 [] m.head m hseg hcost k (Nat.zero_le k) hk
        (by omega)
    · intro j
      exact PushIntervalGo_le dc position len m.cacheIntervals [] m.head m j

/-- Witness for C1: a concrete push through the general (interval) path. -/
theorem pushInterval_relaxes_witness :
    EffectiveCost (PushInterval exampleManager 5 10 12) 14 ≤
      5 + exampleManager.costCache 4 := by
  exact (pushInterval_relaxes exampleManager 5 10 12 12 (by decide)
    (by decide) (by decide) (by decide)).1 4 (by decide)

/-! ### A toolkit for the sorted / non-overlapping list invariant -/

theorem chainOk_tail (c : CostInterval) (l : List CostInterval)
    (h : chainOk (c :: l)) : chainOk l := by
  cases l with
  | nil => trivial
  | cons d r => exact h.2

theorem chainOk_cons_of (c : CostInterval) (l : List CostInterval)
    (h1 : ∀ J ∈ l, c.iend ≤ J.start) (h2 : chainOk l) : chainOk (c :: l) := by
  cases l with
  | nil => trivial
  | cons d r => exact ⟨h1 d (List.mem_cons_self d r), h2⟩

theorem chain_ge (c : CostInterval) (l : List CostInterval)
    (h : chainOk (c :: l)) (hne : ∀ I ∈ l, I.start < I.iend) :
    ∀ J ∈ l, c.iend ≤ J.start := by
  induction l generalizing c with
  | nil => intro J hJ; cases hJ
  | cons d r ih =>
    intro J hJ
    rcases List.mem_cons.mp hJ with hJ | hJ
    · subst hJ; exact h.1
    · have h1 : c.iend ≤ d.start := h.1
      have hd := ih d h.2 (fun I hI => hne I (List.mem_cons_of_mem d hI)) J hJ
      have h2 : d.start < d.iend := hne d (List.mem_cons_self d r)
      omega

theorem chainOk_append_left (X Y : List CostInterval)
    (h : chainOk (X ++ Y)) : chainOk X := by
  induction X with
  | nil => trivial
  | cons c X ih =>
    cases X with
    | nil => trivial
    | cons d X2 => exact ⟨h.1, ih h.2⟩

theorem chainOk_append_right (X Y : List CostInterval)
    (h : chainOk (X ++ Y)) : chainOk Y := by
  induction X with
  | nil => exact h
  | cons c X ih =>
    apply ih
    cases X with
    | nil => exact chainOk_tail c Y h
    | cons d X2 => exact h.2

theorem sepAll_of_chainOk (X Y : List CostInterval)
    (h : chainOk (X ++ Y)) (hne : ∀ I ∈ X ++ Y, I.start < I.iend) :
    ∀ I ∈ X, ∀ J ∈ Y, I.iend ≤ J.start := by
  induction X with
  | nil => intro I hI; cases hI
  | cons c X ih =>
    intro I hI J hJ
    rcases List.mem_cons.mp hI with hI | hI
    · subst hI
      exact chain_ge I (X ++ Y) h
        (fun K hK => hne K (List.mem_cons_of_mem I hK)) J
        (List.mem_append_right X hJ)
    · exact ih (chainOk_tail c (X ++ Y) h)
        (fun K hK => hne K (List.mem_cons_of_mem c hK)) I hI J hJ

theorem chainOk_append_of (X Y : List CostInterval) (hY : chainOk Y) :
    chainOk X → (∀ I ∈ X, ∀ J ∈ Y, I.iend ≤ J.start) → chainOk (X ++ Y) := by
  induction X with
  | nil => intro _ _; exact hY
  | cons c X ih =>
    intro hX hsep
    cases X with
    | nil =>
      exact chainOk_cons_of c Y
        (fun J hJ => hsep c (List.mem_cons_self _ _) J hJ) hY
    | cons d X2 =>
      exact ⟨hX.1, ih hX.2 (fun I hI => hsep I (List.mem_cons_of_mem c hI))⟩

/-- Lower bound used for the sweep's structural invariant: the smallest
`start` the segment may produce, given the entry point `a` and the cursor. -/
def headLB (a : Nat) : List CostInterval → Nat
  | [] => a
  | c :: _ => min a c.start

theorem InsertIntervalAux_count_none (m : CostManager) (c : Int)
    (position s e : Nat) (h : (InsertIntervalAux m c position s e).1 = none) :
    (InsertIntervalAux m c position s e).2.count = m.count :=
  (InsertIntervalAux_none m c position s e h).1

theorem InsertIntervalAux_count_some (m : CostManager) (c : Int)
    (position s e : Nat) (x : CostInterval)
    (h : (InsertIntervalAux m c position s e).1 = some x) :
    (InsertIntervalAux m c position s e).2.count = m.count + 1 ∧
      m.count < COST_CACHE_INTERVAL_SIZE_MAX :=
  ⟨(InsertIntervalAux_some m c position s e x h).2.2.2.2.2.2.1,
    (InsertIntervalAux_some m c position s e x h).2.2.2.2.2.1⟩


theorem PushSegment_count (cost : Int) (position e : Nat) :
    ∀ (suffix : List CostInterval) (a : Nat) (m : CostManager) (dn : Nat),
      m.count = dn + suffix.length →
      m.count ≤ COST_CACHE_INTERVAL_SIZE_MAX →
      (PushSegment cost position a e suffix m).1.count =
        dn + ((PushSegment cost position a e suffix m).2.1.length +
          (PushSegment cost position a e suffix m).2.2.length) ∧
      (PushSegment cost position a e suffix m).1.count ≤
        COST_CACHE_INTERVAL_SIZE_MAX := by
  intro suffix
  induction suffix with
  | nil =>
    intro a m dn hsync hmax
    simp only [PushSegment]
    simp only [List.length_nil] at hsync
    rcases haux : InsertIntervalAux m cost position a e with ⟨o, m1⟩
    cases o with
    | none =>
      have hc : m1.count = m.count := by
        have h0 := InsertIntervalAux_count_none m cost position a e
          (by rw [haux])
        rw [haux] at h0
        exact h0
      refine ⟨?_, ?_⟩
      · show m1.count = dn + (0 + 0)
        omega
      · show m1.count ≤ COST_CACHE_INTERVAL_SIZE_MAX
        omega
    | some x =>
      have hc : m1.count = m.count + 1 ∧
          m.count < COST_CACHE_INTERVAL_SIZE_MAX := by
        have h0 := InsertIntervalAux_count_some m cost position a e x (by rw [haux])
        rw [haux] at h0
        exact h0
      refine ⟨?_, ?_⟩
      · show m1.count = dn + (1 + 0)
        omega
      · show m1.count ≤ COST_CACHE_INTERVAL_SIZE_MAX
        omega
  | cons cur rest ih =>
    intro a m dn hsync hmax
    simp only [PushSegment]
    simp only [List.length_cons] at hsync
    by_cases g1 : cur.start < e
    rotate_left
    · rw [if_neg g1]
      rcases haux : InsertIntervalAux m cost position a e with ⟨o, m1⟩
      cases o with
      | none =>
        have hc : m1.count = m.count := by
          have h0 := InsertIntervalAux_count_none m cost position a e
            (by rw [haux])
          rw [haux] at h0
          exact h0
        refine ⟨?_, ?_⟩
        · show m1.count = dn + (0 + (rest.length + 1))
          omega
        · show m1.count ≤ COST_CACHE_INTERVAL_SIZE_MAX
          omega
      | some x =>
        have hc : m1.count = m.count + 1 ∧
            m.count < COST_CACHE_INTERVAL_SIZE_MAX := by
          have h0 := InsertIntervalAux_count_some m cost position a e x (by rw [haux])
          rw [haux] at h0
          exact h0
        refine ⟨?_, ?_⟩
        · show m1.count = dn + (1 + (rest.length + 1))
          omega
        · show m1.count ≤ COST_CACHE_INTERVAL_SIZE_MAX
          omega
    rw [if_pos g1]
    by_cases g2 : cur.iend ≤ a
    · rw [if_pos g2]
      have h := ih a m (dn + 1) (by omega) hmax
      refine ⟨?_, ?_⟩
      · show (PushSegment cost position a e rest m).1.count =
          dn + ((PushSegment cost position a e rest m).2.1.length + 1 +
            (PushSegment cost position a e rest m).2.2.length)
        omega
      · exact h.2
    rw [if_neg g2]
    by_cases g3 : cur.cost ≤ cost
    · rw [if_pos g3]
      rcases haux : InsertIntervalAux m cost position a cur.start with ⟨o, m1⟩
      by_cases g3a : e ≤ cur.iend
      · rw [if_pos g3a]
        cases o with
        | none =>
          have hc : m1.count = m.count := by
            have h0 := InsertIntervalAux_count_none m cost position a cur.start
              (by rw [haux])
            rw [haux] at h0
            exact h0
          refine ⟨?_, ?_⟩
          · show m1.count = dn + (0 + (rest.length + 1))
            omega
          · show m1.count ≤ COST_CACHE_INTERVAL_SIZE_MAX
            omega
        | some x =>
          have hc : m1.count = m.count + 1 ∧
              m.count < COST_CACHE_INTERVAL_SIZE_MAX := by
            have h0 := InsertIntervalAux_count_some m cost position a cur.start x (by rw [haux])
            rw [haux] at h0
            exact h0
          refine ⟨?_, ?_⟩
          · show m1.count = dn + (1 + (rest.length + 1))
            omega
          · show m1.count ≤ COST_CACHE_INTERVAL_SIZE_MAX
            omega
      · rw [if_neg g3a]
        cases o with
        | none =>
          have hc : m1.count = m.count := by
            have h0 := InsertIntervalAux_count_none m cost position a cur.start
              (by rw [haux])
            rw [haux] at h0
            exact h0
          have h := ih cur.iend m1 (dn + 1) (by omega) (by omega)
          refine ⟨?_, ?_⟩
          · show (PushSegment cost position cur.iend e rest m1).1.count =
              dn + (((PushSegment cost position cur.iend e rest m1).2.1.length
                + 1) +
                (PushSegment cost position cur.iend e rest m1).2.2.length)
            omega
          · exact h.2
        | some x =>
          have hc : m1.count = m.count + 1 ∧
              m.count < COST_CACHE_INTERVAL_SIZE_MAX := by
            have h0 := InsertIntervalAux_count_some m cost position a cur.start x (by rw [haux])
            rw [haux] at h0
            exact h0
          have h := ih cur.iend m1 (dn + 2) (by omega) (by omega)
          refine ⟨?_, ?_⟩
          · show (PushSegment cost position cur.iend e rest m1).1.count =
              dn + (((PushSegment cost position cur.iend e rest m1).2.1.length
                + 1 + 1) +
                (PushSegment cost position cur.iend e rest m1).2.2.length)
            omega
          · exact h.2
    rw [if_neg g3]
    by_cases g4 : a ≤ cur.start
    · rw [if_pos g4]
      by_cases g5 : cur.iend ≤ e
      · rw [if_pos g5]
        exact ih a { m with pool := m.pool + 1, count := m.count - 1 } dn
          (by show m.count - 1 = dn + rest.length; omega)
          (by show m.count - 1 ≤ COST_CACHE_INTERVAL_SIZE_MAX; omega)
      · rw [if_neg g5]
        rcases haux : InsertIntervalAux m cost position a e with ⟨o, m1⟩
        cases o with
        | none =>
          have hc : m1.count = m.count := by
            have h0 := InsertIntervalAux_count_none m cost position a e
              (by rw [haux])
            rw [haux] at h0
            exact h0
          refine ⟨?_, ?_⟩
          · show m1.count = dn + (0 + (rest.length + 1))
            omega
          · show m1.count ≤ COST_CACHE_INTERVAL_SIZE_MAX
            omega
        | some x =>
          have hc : m1.count = m.count + 1 ∧
              m.count < COST_CACHE_INTERVAL_SIZE_MAX := by
            have h0 := InsertIntervalAux_count_some m cost position a e x (by rw [haux])
            rw [haux] at h0
            exact h0
          refine ⟨?_, ?_⟩
          · show m1.count = dn + (1 + (rest.length + 1))
            omega
          · show m1.count ≤ COST_CACHE_INTERVAL_SIZE_MAX
            omega
    rw [if_neg g4]
    by_cases g6 : e < cur.iend
    · rw [if_pos g6]
      rcases hra : InsertIntervalAux m cur.cost cur.index e cur.iend with
        ⟨o1, m1⟩
      cases o1 with
      | none =>
        have hc1 : m1.count = m.count := by
          have h0 := InsertIntervalAux_count_none m cur.cost cur.index e cur.iend
            (by rw [hra])
          rw [hra] at h0
          exact h0
        rcases hrb : InsertIntervalAux m1 cost position a e with ⟨o2, m2⟩
        cases o2 with
        | none =>
          have hc2 : m2.count = m1.count := by
            have h0 := InsertIntervalAux_count_none m1 cost position a e
              (by rw [hrb])
            rw [hrb] at h0
            exact h0
          refine ⟨?_, ?_⟩
          · show m2.count = dn + (1 + rest.length)
            omega
          · show m2.count ≤ COST_CACHE_INTERVAL_SIZE_MAX
            omega
        | some y =>
          have hc2 : m2.count = m1.count + 1 ∧
              m1.count < COST_CACHE_INTERVAL_SIZE_MAX := by
            have h0 := InsertIntervalAux_count_some m1 cost position a e y (by rw [hrb])
            rw [hrb] at h0
            exact h0
          refine ⟨?_, ?_⟩
          · show m2.count = dn + ((1 + 1) + rest.length)
            omega
          · show m2.count ≤ COST_CACHE_INTERVAL_SIZE_MAX
            omega
      | some x1 =>
        have hc1 : m1.count = m.count + 1 ∧
            m.count < COST_CACHE_INTERVAL_SIZE_MAX := by
          have h0 := InsertIntervalAux_count_some m cur.cost cur.index e
            cur.iend x1 (by rw [hra])
          rw [hra] at h0
          exact h0
        rcases hrb : InsertIntervalAux m1 cost position a e with ⟨o2, m2⟩
        cases o2 with
        | none =>
          have hc2 : m2.count = m1.count := by
            have h0 := InsertIntervalAux_count_none m1 cost position a e
              (by rw [hrb])
            rw [hrb] at h0
            exact h0
          refine ⟨?_, ?_⟩
          · show m2.count = dn + (1 + (rest.length + 1))
            omega
          · show m2.count ≤ COST_CACHE_INTERVAL_SIZE_MAX
            omega
        | some y =>
          have hc2 : m2.count = m1.count + 1 ∧
              m1.count < COST_CACHE_INTERVAL_SIZE_MAX := by
            have h0 := InsertIntervalAux_count_some m1 cost position a e y (by rw [hrb])
            rw [hrb] at h0
            exact h0
          refine ⟨?_, ?_⟩
          · show m2.count = dn + ((1 + 1) + (rest.length + 1))
            omega
          · show m2.count ≤ COST_CACHE_INTERVAL_SIZE_MAX
            omega
    · rw [if_neg g6]
      have h := ih a m (dn + 1) (by omega) hmax
      refine ⟨?_, ?_⟩
      · show (PushSegment cost position a e rest m).1.count =
          dn + ((PushSegment cost position a e rest m).2.1.length + 1 +
            (PushSegment cost position a e rest m).2.2.length)
        omega
      · exact h.2

theorem headLB_ge_of (a lb : Nat) (l : List CostInterval)
    (h1 : lb ≤ a) (h2 : ∀ J ∈ l, lb ≤ J.start) : lb ≤ headLB a l := by
  cases l with
  | nil => exact h1
  | cons c r => exact le_min h1 (h2 c (List.mem_cons_self c r))

theorem PushSegment_inv (cost : Int) (position e : Nat) :
    ∀ (suffix : List CostInterval) (a : Nat) (m : CostManager),
      chainOk suffix → (∀ I ∈ suffix, I.start < I.iend) → a < e →
      chainOk ((PushSegment cost position a e suffix m).2.1 ++
        (PushSegment cost position a e suffix m).2.2) ∧
      (∀ I ∈ (PushSegment cost position a e suffix m).2.1 ++
          (PushSegment cost position a e suffix m).2.2, I.start < I.iend) ∧
      (∀ I ∈ (PushSegment cost position a e suffix m).2.1 ++
          (PushSegment cost position a e suffix m).2.2,
        headLB a suffix ≤ I.start) ∧
      (∀ I ∈ (PushSegment cost position a e suffix m).2.1, I.iend ≤ e) := by
  intro suffix
  induction suffix with
  | nil =>
    intro a m hch hne hae
    simp only [PushSegment]
    rcases haux : InsertIntervalAux m cost position a e with ⟨o, m1⟩
    cases o with
    | none =>
      dsimp only [List.nil_append, headLB]
      refine ⟨trivial, ?_, ?_, ?_⟩ <;>
        · intro I hI
          exact absurd hI (List.not_mem_nil I)
    | some x =>
      have hxs : x.start = a :=
        (InsertIntervalAux_some m cost position a e x (by rw [haux])).2.1
      have hxe : x.iend = e :=
        (InsertIntervalAux_some m cost position a e x (by rw [haux])).2.2.1
      dsimp only [List.append_nil, headLB]
      refine ⟨trivial, ?_, ?_, ?_⟩ <;>
        · intro I hI
          have h' : I = x := List.mem_singleton.mp hI
          subst h'
          omega
  | cons cur rest ih =>
    intro a m hch hne hae
    have hcur : cur.start < cur.iend := hne cur (List.mem_cons_self cur rest)
    have hchr : chainOk rest := chainOk_tail cur rest hch
    have hner : ∀ I ∈ rest, I.start < I.iend :=
      fun I hI => hne I (List.mem_cons_of_mem cur hI)
    have hge : ∀ J ∈ rest, cur.iend ≤ J.start := chain_ge cur rest hch hner
    simp only [PushSegment]
    by_cases g1 : cur.start < e
    rotate_left
    · rw [if_neg g1]
      rcases haux : InsertIntervalAux m cost position a e with ⟨o, m1⟩
      cases o with
      | none =>
        dsimp only [List.nil_append, headLB]
        refine ⟨hch, hne, ?_, ?_⟩
        · intro I hI
          rcases List.mem_cons.mp hI with rfl | hI
          · omega
          · have := hge I hI
            omega
        · intro I hI
          exact absurd hI (List.not_mem_nil I)
      | some x =>
        have hxs : x.start = a :=
          (InsertIntervalAux_some m cost position a e x (by rw [haux])).2.1
        have hxe : x.iend = e :=
          (InsertIntervalAux_some m cost position a e x (by rw [haux])).2.2.1
        dsimp only [List.singleton_append, headLB]
        refine ⟨?_, ?_, ?_, ?_⟩
        · refine chainOk_cons_of x (cur :: rest) ?_ hch
          intro J hJ
          rcases List.mem_cons.mp hJ with rfl | hJ
          · omega
          · have := hge J hJ
            omega
        · intro I hI
          rcases List.mem_cons.mp hI with rfl | hI
          · omega
          · exact hne I hI
        · intro I hI
          rcases List.mem_cons.mp hI with rfl | hI
          · omega
          · rcases List.mem_cons.mp hI with rfl | hI
            · omega
            · have := hge I hI
              omega
        · intro I hI
          have h' : I = x := List.mem_singleton.mp hI
          subst h'
          omega
    rw [if_pos g1]
    by_cases g2 : cur.iend ≤ a
    · rw [if_pos g2]
      dsimp only [List.cons_append, headLB]
      have ih' := ih a m hchr hner hae
      have hlbr : cur.iend ≤ headLB a rest :=
        headLB_ge_of a cur.iend rest (by omega) hge
      have hlb2 : min a cur.start ≤ headLB a rest :=
        headLB_ge_of a (min a cur.start) rest (min_le_left a cur.start)
          (fun J hJ => by have := hge J hJ; omega)
      refine ⟨?_, ?_, ?_, ?_⟩
      · refine chainOk_cons_of cur _ ?_ ih'.1
        intro J hJ
        have := ih'.2.2.1 J hJ
        omega
      · intro I hI
        rcases List.mem_cons.mp hI with rfl | hI
        · exact hcur
        · exact ih'.2.1 I hI
      · intro I hI
        rcases List.mem_cons.mp hI with rfl | hI
        · omega
        · have := ih'.2.2.1 I hI
          omega
      · intro I hI
        rcases List.mem_cons.mp hI with rfl | hI
        · omega
        · exact ih'.2.2.2 I hI
    rw [if_neg g2]
    by_cases g3 : cur.cost ≤ cost
    · rw [if_pos g3]
      rcases haux : InsertIntervalAux m cost position a cur.start with ⟨o, m1⟩
      by_cases g3a : e ≤ cur.iend
      · rw [if_pos g3a]
        cases o with
        | none =>
          dsimp only [List.nil_append, headLB]
          refine ⟨hch, hne, ?_, ?_⟩
          · intro I hI
            rcases List.mem_cons.mp hI with rfl | hI
            · omega
            · have := hge I hI
              omega
          · intro I hI
            exact absurd hI (List.not_mem_nil I)
        | some x =>
          have hxs : x.start = a :=
            (InsertIntervalAux_some m cost position a cur.start x
              (by rw [haux])).2.1
          have hxe : x.iend = cur.start :=
            (InsertIntervalAux_some m cost position a cur.start x
              (by rw [haux])).2.2.1
          have hax : a < cur.start :=
            (InsertIntervalAux_some m cost position a cur.start x
              (by rw [haux])).2.2.2.2.1
          dsimp only [List.singleton_append, headLB]
          refine ⟨?_, ?_, ?_, ?_⟩
          · refine chainOk_cons_of x (cur :: rest) ?_ hch
            intro J hJ
            rcases List.mem_cons.mp hJ with rfl | hJ
            · omega
            · have := hge J hJ
              omega
          · intro I hI
            rcases List.mem_cons.mp hI with rfl | hI
            · omega
            · exact hne I hI
          · intro I hI
            rcases List.mem_cons.mp hI with rfl | hI
            · omega
            · rcases List.mem_cons.mp hI with rfl | hI
              · omega
              · have := hge I hI
                omega
          · intro I hI
            have h' : I = x := List.mem_singleton.mp hI
            subst h'
            omega
      · rw [if_neg g3a]
        have hae' : cur.iend < e := by omega
        have ih' := ih cur.iend m1 hchr hner hae'
        have hlbr : cur.iend ≤ headLB cur.iend rest :=
          headLB_ge_of cur.iend cur.iend rest (le_refl _) hge
        cases o with
        | none =>
          dsimp only [List.nil_append, List.cons_append, headLB]
          refine ⟨?_, ?_, ?_, ?_⟩
          · refine chainOk_cons_of cur _ ?_ ih'.1
            intro J hJ
            have := ih'.2.2.1 J hJ
            omega
          · intro I hI
            rcases List.mem_cons.mp hI with rfl | hI
            · exact hcur
            · exact ih'.2.1 I hI
          · intro I hI
            rcases List.mem_cons.mp hI with rfl | hI
            · omega
            · have := ih'.2.2.1 I hI
              omega
          · intro I hI
            rcases List.mem_cons.mp hI with rfl | hI
            · omega
            · exact ih'.2.2.2 I hI
        | some x =>
          have hxs : x.start = a :=
            (InsertIntervalAux_some m cost position a cur.start x
              (by rw [haux])).2.1
          have hxe : x.iend = cur.start :=
            (InsertIntervalAux_some m cost position a cur.start x
              (by rw [haux])).2.2.1
          have hax : a < cur.start :=
            (InsertIntervalAux_some m cost position a cur.start x
              (by rw [haux])).2.2.2.2.1
          dsimp only [List.singleton_append, List.cons_append, headLB]
          refine ⟨?_, ?_, ?_, ?_⟩
          · refine chainOk_cons_of x _ ?_ ?_
            · intro J hJ
              rcases List.mem_cons.mp hJ with rfl | hJ
              · omega
              · have := ih'.2.2.1 J hJ
                omega
            · refine chainOk_cons_of cur _ ?_ ih'.1
              intro J hJ
              have := ih'.2.2.1 J hJ
              omega
          · intro I hI
            rcases List.mem_cons.mp hI with rfl | hI
            · omega
            · rcases List.mem_cons.mp hI with rfl | hI
              · exact hcur
              · exact ih'.2.1 I hI
          · intro I hI
            rcases List.mem_cons.mp hI with rfl | hI
            · omega
            · rcases List.mem_cons.mp hI with rfl | hI
              · omega
              · have := ih'.2.2.1 I hI
                omega
          · intro I hI
            rcases List.mem_cons.mp hI with rfl | hI
            · omega
            · rcases List.mem_cons.mp hI with rfl | hI
              · omega
              · exact ih'.2.2.2 I hI
    rw [if_neg g3]
    by_cases g4 : a ≤ cur.start
    · rw [if_pos g4]
      by_cases g5 : cur.iend ≤ e
      · rw [if_pos g5]
        have ih' := ih a { m with pool := m.pool + 1, count := m.count - 1 }
          hchr hner hae
        have hlb2 : min a cur.start ≤ headLB a rest :=
          headLB_ge_of a (min a cur.start) rest (min_le_left a cur.start)
            (fun J hJ => by have := hge J hJ; omega)
        refine ⟨ih'.1, ih'.2.1, ?_, ih'.2.2.2⟩
        intro I hI
        have := ih'.2.2.1 I hI
        dsimp only [headLB]
        omega
      · rw [if_neg g5]
        have hg5 : e < cur.iend := by omega
        rcases haux : InsertIntervalAux m cost position a e with ⟨o, m1⟩
        cases o with
        | none =>
          dsimp only [List.nil_append, headLB]
          refine ⟨?_, ?_, ?_, ?_⟩
          · refine chainOk_cons_of _ rest ?_ hchr
            intro J hJ
            have := hge J hJ
            show cur.iend ≤ J.start
            omega
          · intro I hI
            rcases List.mem_cons.mp hI with rfl | hI
            · show e < cur.iend
              omega
            · exact hner I hI
          · intro I hI
            rcases List.mem_cons.mp hI with rfl | hI
            · show min a cur.start ≤ e
              omega
            · have := hge I hI
              omega
          · intro I hI
            exact absurd hI (List.not_mem_nil I)
        | some x =>
          have hxs : x.start = a :=
            (InsertIntervalAux_some m cost position a e x (by rw [haux])).2.1
          have hxe : x.iend = e :=
            (InsertIntervalAux_some m cost position a e x (by rw [haux])).2.2.1
          dsimp only [List.singleton_append, headLB]
          refine ⟨?_, ?_, ?_, ?_⟩
          · refine chainOk_cons_of x _ ?_ ?_
            · intro J hJ
              rcases List.mem_cons.mp hJ with rfl | hJ
              · show x.iend ≤ e
                omega
              · have := hge J hJ
                omega
            · refine chainOk_cons_of _ rest ?_ hchr
              intro J hJ
              have := hge J hJ
              show cur.iend ≤ J.start
              omega
          · intro I hI
            rcases List.mem_cons.mp hI with rfl | hI
            · omega
            · rcases List.mem_cons.mp hI with rfl | hI
              · show e < cur.iend
                omega
              · exact hner I hI
          · intro I hI
            rcases List.mem_cons.mp hI with rfl | hI
            · omega
            · rcases List.mem_cons.mp hI with rfl | hI
              · show min a cur.start ≤ e
                omega
              · have := hge I hI
                omega
          · intro I hI
            have h' : I = x := List.mem_singleton.mp hI
            subst h'
            omega
    rw [if_neg g4]
    have hg4 : cur.start < a := by omega
    have hg2' : a < cur.iend := by omega
    by_cases g6 : e < cur.iend
    · rw [if_pos g6]
      rcases hra : InsertIntervalAux m cur.cost cur.index e cur.iend with
        ⟨o1, m1⟩
      rcases hrb : InsertIntervalAux m1 cost position a e with ⟨o2, m2⟩
      cases o1 with
      | none =>
        cases o2 with
        | none =>
          dsimp only [List.singleton_append, headLB]
          refine ⟨?_, ?_, ?_, ?_⟩
          · refine chainOk_cons_of _ rest ?_ hchr
            intro J hJ
            have := hge J hJ
            show a ≤ J.start
            omega
          · intro I hI
            rcases List.mem_cons.mp hI with rfl | hI
            · show cur.start < a
              omega
            · exact hner I hI
          · intro I hI
            rcases List.mem_cons.mp hI with rfl | hI
            · show min a cur.start ≤ cur.start
              omega
            · have := hge I hI
              omega
          · intro I hI
            have h' : I = { cur with iend := a } := List.mem_singleton.mp hI
            subst h'
            show a ≤ e
            omega
        | some y =>
          have hys : y.start = a :=
            (InsertIntervalAux_some m1 cost position a e y (by rw [hrb])).2.1
          have hye : y.iend = e :=
            (InsertIntervalAux_some m1 cost position a e y
              (by rw [hrb])).2.2.1
          dsimp only [List.cons_append, List.singleton_append, headLB]
          refine ⟨?_, ?_, ?_, ?_⟩
          · refine chainOk_cons_of _ (y :: rest) ?_ ?_
            · intro J hJ
              rcases List.mem_cons.mp hJ with rfl | hJ
              · show a ≤ J.start
                omega
              · have := hge J hJ
                show a ≤ J.start
                omega
            · refine chainOk_cons_of y rest ?_ hchr
              intro J hJ
              have := hge J hJ
              omega
          · intro I hI
            rcases List.mem_cons.mp hI with rfl | hI
            · show cur.start < a
              omega
            · rcases List.mem_cons.mp hI with rfl | hI
              · omega
              · exact hner I hI
          · intro I hI
            rcases List.mem_cons.mp hI with rfl | hI
            · show min a cur.start ≤ cur.start
              omega
            · rcases List.mem_cons.mp hI with rfl | hI
              · omega
              · have := hge I hI
                omega
          · intro I hI
            rcases List.mem_cons.mp hI with rfl | hI
            · show a ≤ e
              omega
            · rcases List.mem_cons.mp hI with rfl | hI
              · omega
              · exact absurd hI (List.not_mem_nil I)
      | some x1 =>
        have hx1s : x1.start = e :=
          (InsertIntervalAux_some m cur.cost cur.index e cur.iend x1
            (by rw [hra])).2.1
        have hx1e : x1.iend = cur.iend :=
          (InsertIntervalAux_some m cur.cost cur.index e cur.iend x1
            (by rw [hra])).2.2.1
        cases o2 with
        | none =>
          dsimp only [List.singleton_append, headLB]
          refine ⟨?_, ?_, ?_, ?_⟩
          · refine chainOk_cons_of _ (x1 :: rest) ?_ ?_
            · intro J hJ
              rcases List.mem_cons.mp hJ with rfl | hJ
              · show a ≤ J.start
                omega
              · have := hge J hJ
                show a ≤ J.start
                omega
            · refine chainOk_cons_of x1 rest ?_ hchr
              intro J hJ
              have := hge J hJ
              omega
          · intro I hI
            rcases List.mem_cons.mp hI with rfl | hI
            · show cur.start < a
              omega
            · rcases List.mem_cons.mp hI with rfl | hI
              · omega
              · exact hner I hI
          · intro I hI
            rcases List.mem_cons.mp hI with rfl | hI
            · show min a cur.start ≤ cur.start
              omega
            · rcases List.mem_cons.mp hI with rfl | hI
              · omega
              · have := hge I hI
                omega
          · intro I hI
            have h' : I = { cur with iend := a } := List.mem_singleton.mp hI
            subst h'
            show a ≤ e
            omega
        | some y =>
          have hys : y.start = a :=
            (InsertIntervalAux_some m1 cost position a e y (by rw [hrb])).2.1
          have hye : y.iend = e :=
            (InsertIntervalAux_some m1 cost position a e y
              (by rw [hrb])).2.2.1
          dsimp only [List.cons_append, List.singleton_append, headLB]
          refine ⟨?_, ?_, ?_, ?_⟩
          · refine chainOk_cons_of _ (y :: x1 :: rest) ?_ ?_
            · intro J hJ
              rcases List.mem_cons.mp hJ with rfl | hJ
              · show a ≤ J.start
                omega
              · rcases List.mem_cons.mp hJ with rfl | hJ
                · show a ≤ J.start
                  omega
                · have := hge J hJ
                  show a ≤ J.start
                  omega
            · refine chainOk_cons_of y (x1 :: rest) ?_ ?_
              · intro J hJ
                rcases List.mem_cons.mp hJ with rfl | hJ
                · omega
                · have := hge J hJ
                  omega
              · refine chainOk_cons_of x1 rest ?_ hchr
                intro J hJ
                have := hge J hJ
                omega
          · intro I hI
            rcases List.mem_cons.mp hI with rfl | hI
            · show cur.start < a
              omega
            · rcases List.mem_cons.mp hI with rfl | hI
              · omega
              · rcases List.mem_cons.mp hI with rfl | hI
                · omega
                · exact hner I hI
          · intro I hI
            rcases List.mem_cons.mp hI with rfl | hI
            · show min a cur.start ≤ cur.start
              omega
            · rcases List.mem_cons.mp hI with rfl | hI
              · omega
              · rcases List.mem_cons.mp hI with rfl | hI
                · omega
                · have := hge I hI
                  omega
          · intro I hI
            rcases List.mem_cons.mp hI with rfl | hI
            · show a ≤ e
              omega
            · rcases List.mem_cons.mp hI with rfl | hI
              · omega
              · exact absurd hI (List.not_mem_nil I)
    · rw [if_neg g6]
      dsimp only [List.cons_append, headLB]
      have ih' := ih a m hchr hner hae
      have hlba : a ≤ headLB a rest :=
        headLB_ge_of a a rest (le_refl a)
          (fun J hJ => by have := hge J hJ; omega)
      have hlb2 : min a cur.start ≤ headLB a rest :=
        headLB_ge_of a (min a cur.start) rest (min_le_left a cur.start)
          (fun J hJ => by have := hge J hJ; omega)
      refine ⟨?_, ?_, ?_, ?_⟩
      · refine chainOk_cons_of _ _ ?_ ih'.1
        intro J hJ
        have := ih'.2.2.1 J hJ
        show a ≤ J.start
        omega
      · intro I hI
        rcases List.mem_cons.mp hI with rfl | hI
        · show cur.start < a
          omega
        · exact ih'.2.1 I hI
      · intro I hI
        rcases List.mem_cons.mp hI with rfl | hI
        · show min a cur.start ≤ cur.start
          omega
        · have := ih'.2.2.1 I hI
          omega
      · intro I hI
        rcases List.mem_cons.mp hI with rfl | hI
        · show a ≤ e
          omega
        · exact ih'.2.2.2 I hI

/-- Adjacent ordering of the cache-interval list (implied by contiguity). -/
def cacheChain : List CostCacheInterval → Prop
  | [] => True
  | [_] => True
  | c :: d :: r => c.iend ≤ d.start ∧ cacheChain (d :: r)

theorem cacheChain_of_seg :
    ∀ (l : List CostCacheInterval) (s K : Nat), CacheSegFrom s K l →
      cacheChain l ∧ (∀ ci ∈ l, ci.start < ci.iend) := by
  intro l
  induction l with
  | nil => intro s K _; exact ⟨trivial, fun ci hci => absurd hci (List.not_mem_nil ci)⟩
  | cons ci r ih =>
    intro s K h
    have hr := ih ci.iend K h.2.2
    constructor
    · cases r with
      | nil => trivial
      | cons d r2 =>
        have hd : d.start = ci.iend := h.2.2.1
        exact ⟨le_of_eq hd.symm, hr.1⟩
    · intro J hJ
      rcases List.mem_cons.mp hJ with rfl | hJ
      · have := h.1
        have := h.2.1
        omega
      · exact hr.2 J hJ

theorem cacheChain_tail (c : CostCacheInterval) (l : List CostCacheInterval)
    (h : cacheChain (c :: l)) : cacheChain l := by
  cases l with
  | nil => trivial
  | cons d r => exact h.2

theorem cacheChain_ge (c : CostCacheInterval) (l : List CostCacheInterval)
    (h : cacheChain (c :: l)) (hne : ∀ d ∈ l, d.start < d.iend) :
    ∀ d ∈ l, c.iend ≤ d.start := by
  induction l generalizing c with
  | nil => intro d hd; cases hd
  | cons d r ih =>
    intro J hJ
    rcases List.mem_cons.mp hJ with rfl | hJ
    · exact h.1
    · have h1 : c.iend ≤ d.start := h.1
      have hd := ih d h.2 (fun I hI => hne I (List.mem_cons_of_mem d hI)) J hJ
      have h2 : d.start < d.iend := hne d (List.mem_cons_self d r)
      omega

theorem PushIntervalGo_inv (distanceCost : Int) (position len : Nat) :
    ∀ (cis : List CostCacheInterval) (done suffix : List CostInterval)
      (m : CostManager) (b : Nat),
      chainOk (done ++ suffix) →
      (∀ I ∈ done ++ suffix, I.start < I.iend) →
      m.count = done.length + suffix.length →
      m.count ≤ COST_CACHE_INTERVAL_SIZE_MAX →
      cacheChain cis →
      (∀ ci ∈ cis, ci.start < ci.iend) →
      (∀ I ∈ done, I.iend ≤ b) →
      (∀ ci ∈ cis, b ≤ position + ci.start) →
      chainOk (PushIntervalGo distanceCost position len cis done suffix m).2 ∧
      (∀ I ∈ (PushIntervalGo distanceCost position len cis done suffix m).2,
        I.start < I.iend) ∧
      (PushIntervalGo distanceCost position len cis done suffix m).1.count =
        (PushIntervalGo distanceCost position len cis done suffix m).2.length ∧
      (PushIntervalGo distanceCost position len cis done suffix m).1.count ≤
        COST_CACHE_INTERVAL_SIZE_MAX := by
  intro cis
  induction cis with
  | nil =>
    intro done suffix m b hch hne hcnt hmax _ _ _ _
    refine ⟨hch, hne, ?_, hmax⟩
    simp only [PushIntervalGo, List.length_append]
    omega
  | cons ci cis ih =>
    intro done suffix m b hch hne hcnt hmax hcch hcne hdb hcb
    simp only [PushIntervalGo]
    by_cases g : ci.start < len
    rotate_left
    · rw [if_neg g]
      refine ⟨hch, hne, ?_, hmax⟩
      simp only [List.length_append]
      omega
    rw [if_pos g]
    have hcine : ci.start < ci.iend := hcne ci (List.mem_cons_self ci cis)
    have hae : position + ci.start < position + min ci.iend len := by omega
    have hchsuf : chainOk suffix := chainOk_append_right done suffix hch
    have hnesuf : ∀ I ∈ suffix, I.start < I.iend :=
      fun I hI => hne I (List.mem_append_right done hI)
    have hnedone : ∀ I ∈ done, I.start < I.iend :=
      fun I hI => hne I (List.mem_append_left suffix hI)
    have hinv := PushSegment_inv (distanceCost + ci.cost) position
      (position + min ci.iend len) suffix (position + ci.start) m hchsuf
      hnesuf hae
    have hcnt2 := PushSegment_count (distanceCost + ci.cost) position
      (position + min ci.iend len) suffix (position + ci.start) m done.length
      (by omega) hmax
    have hba : b ≤ position + ci.start := hcb ci (List.mem_cons_self ci cis)
    have hsep : ∀ I ∈ done,
        ∀ J ∈ (PushSegment (distanceCost + ci.cost) position
            (position + ci.start) (position + min ci.iend len) suffix m).2.1 ++
          (PushSegment (distanceCost + ci.cost) position
            (position + ci.start) (position + min ci.iend len) suffix m).2.2,
          I.iend ≤ J.start := by
      intro I hI J hJ
      have h1 : I.iend ≤ headLB (position + ci.start) suffix :=
        headLB_ge_of (position + ci.start) I.iend suffix
          (le_trans (hdb I hI) hba)
          (fun J2 hJ2 => sepAll_of_chainOk done suffix hch hne I hI J2 hJ2)
      exact le_trans h1 (hinv.2.2.1 J hJ)
    have hch2 : chainOk ((done ++ (PushSegment (distanceCost + ci.cost)
        position (position + ci.start) (position + min ci.iend len)
          suffix m).2.1) ++
        (PushSegment (distanceCost + ci.cost) position
          (position + ci.start) (position + min ci.iend len) suffix m).2.2) := by
      rw [List.append_assoc]
      exact chainOk_append_of done _ hinv.1 (chainOk_append_left done suffix hch)
        hsep
    have hne2 : ∀ I ∈ (done ++ (PushSegment (distanceCost + ci.cost) position
        (position + ci.start) (position + min ci.iend len) suffix m).2.1) ++
        (PushSegment (distanceCost + ci.cost) position
          (position + ci.start) (position + min ci.iend len) suffix m).2.2,
        I.start < I.iend := by
      intro I hI
      rw [List.append_assoc] at hI
      rcases List.mem_append.mp hI with hI | hI
      · exact hnedone I hI
      · exact hinv.2.1 I hI
    have hdb2 : ∀ I ∈ done ++ (PushSegment (distanceCost + ci.cost) position
        (position + ci.start) (position + min ci.iend len) suffix m).2.1,
        I.iend ≤ position + min ci.iend len := by
      intro I hI
      rcases List.mem_append.mp hI with hI | hI
      · have := hdb I hI
        omega
      · exact hinv.2.2.2 I hI
    have hcb2 : ∀ ci2 ∈ cis,
        position + min ci.iend len ≤ position + ci2.start := by
      intro ci2 hci2
      have := cacheChain_ge ci cis hcch
        (fun d hd => hcne d (List.mem_cons_of_mem ci hd)) ci2 hci2
      omega
    have hcnt3 : (PushSegment (distanceCost + ci.cost) position
        (position + ci.start) (position + min ci.iend len) suffix m).1.count =
        (done ++ (PushSegment (distanceCost + ci.cost) position
          (position + ci.start) (position + min ci.iend len)
            suffix m).2.1).length +
        (PushSegment (distanceCost + ci.cost) position
          (position + ci.start) (position + min ci.iend len)
            suffix m).2.2.length := by
      rw [List.length_append]
      omega
    exact ih (done ++ (PushSegment (distanceCost + ci.cost) position
        (position + ci.start) (position + min ci.iend len) suffix m).2.1)
      (PushSegment (distanceCost + ci.cost) position
        (position + ci.start) (position + min ci.iend len) suffix m).2.2
      (PushSegment (distanceCost + ci.cost) position
        (position + ci.start) (position + min ci.iend len) suffix m).1
      (position + min ci.iend len) hch2 hne2 hcnt3 hcnt2.2
      (cacheChain_tail ci cis hcch)
      (fun d hd => hcne d (List.mem_cons_of_mem ci hd)) hdb2 hcb2

/-! ### Preservation of the active-list invariant (claim C3) -/

theorem insertSorted_length (l : List CostInterval) (x : CostInterval) :
    (insertSorted l x).length = l.length + 1 := by
  induction l with
  | nil => rfl
  | cons y l ih =>
    simp only [insertSorted]
    by_cases h : y.start < x.start
    · rw [if_pos h]
      simp only [List.length_cons, ih]
    · rw [if_neg h]
      simp only [List.length_cons]

theorem insertSorted_mem (l : List CostInterval) (x I : CostInterval)
    (h : I ∈ insertSorted l x) : I = x ∨ I ∈ l := by
  induction l with
  | nil =>
    rcases List.mem_singleton.mp h with rfl
    exact Or.inl rfl
  | cons y l ih =>
    simp only [insertSorted] at h
    by_cases hc : y.start < x.start
    · rw [if_pos hc] at h
      rcases List.mem_cons.mp h with rfl | h
      · exact Or.inr (List.mem_cons_self _ _)
      · rcases ih h with h | h
        · exact Or.inl h
        · exact Or.inr (List.mem_cons_of_mem y h)
    · rw [if_neg hc] at h
      rcases List.mem_cons.mp h with rfl | h
      · exact Or.inl rfl
      · exact Or.inr h

theorem chainOk_insertSorted (l : List CostInterval) (x : CostInterval)
    (hch : chainOk l) (hne : ∀ I ∈ l, I.start < I.iend)
    (hx : x.start < x.iend)
    (hdisj : ∀ I ∈ l, I.iend ≤ x.start ∨ x.iend ≤ I.start) :
    chainOk (insertSorted l x) := by
  induction l with
  | nil => trivial
  | cons y l ih =>
    have hy : y.start < y.iend := hne y (List.mem_cons_self y l)
    have hger : ∀ J ∈ l, y.iend ≤ J.start :=
      chain_ge y l hch (fun I hI => hne I (List.mem_cons_of_mem y hI))
    simp only [insertSorted]
    by_cases hc : y.start < x.start
    · rw [if_pos hc]
      have hdy : y.iend ≤ x.start := by
        rcases hdisj y (List.mem_cons_self y l) with h | h
        · exact h
        · omega
      refine chainOk_cons_of y (insertSorted l x) ?_ ?_
      · intro J hJ
        rcases insertSorted_mem l x J hJ with rfl | hJ
        · exact hdy
        · exact hger J hJ
      · exact ih (chainOk_tail y l hch)
          (fun I hI => hne I (List.mem_cons_of_mem y hI))
          (fun I hI => hdisj I (List.mem_cons_of_mem y hI))
    · rw [if_neg hc]
      have hdy : x.iend ≤ y.start := by
        rcases hdisj y (List.mem_cons_self y l) with h | h
        · omega
        · exact h
      refine chainOk_cons_of x (y :: l) ?_ hch
      intro J hJ
      rcases List.mem_cons.mp hJ with rfl | hJ
      · exact hdy
      · have := hger J hJ
        omega

theorem chainOk_sublist (l' l : List CostInterval) (h : l'.Sublist l)
    (hch : chainOk l) (hne : ∀ I ∈ l, I.start < I.iend) : chainOk l' := by
  induction h with
  | slnil => trivial
  | cons a h ih =>
    rename_i l1 l2
    exact ih (chainOk_tail a l2 hch)
      (fun I hI => hne I (List.mem_cons_of_mem a hI))
  | cons₂ a h ih =>
    rename_i l1 l2
    refine chainOk_cons_of a l1 ?_
      (ih (chainOk_tail a l2 hch)
        (fun I hI => hne I (List.mem_cons_of_mem a hI)))
    intro J hJ
    exact chain_ge a l2 hch (fun I hI => hne I (List.mem_cons_of_mem a hI)) J
      (h.subset hJ)

theorem InsertInterval_inv (m : CostManager) (c : Int) (position s e : Nat)
    (hm : ManagerInv m) (hdisj : ∀ J ∈ m.head, J.iend ≤ s ∨ e ≤ J.start) :
    ManagerInv (InsertInterval m c position s e) := by
  unfold InsertInterval
  rcases haux : InsertIntervalAux m c position s e with ⟨o, m1⟩
  have hspec := InsertIntervalAux_spec m c position s e
  rw [haux] at hspec
  cases o with
  | none =>
    have hhead : m1.head = m.head := hspec.1
    have hcount : m1.count = m.count := hspec.2.2.2.2.1
    exact ⟨hhead ▸ hm.1, hhead ▸ hm.2.1, by rw [hcount, hhead]; exact hm.2.2.1,
      by rw [hcount]; exact hm.2.2.2⟩
  | some x =>
    have hhead : m1.head = m.head := hspec.1
    have hx : x = ⟨c, s, e, position⟩ := hspec.2.2.2.2.1
    have hse : s < e := hspec.2.2.2.2.2.1
    have hlt : m.count < COST_CACHE_INTERVAL_SIZE_MAX := hspec.2.2.2.2.2.2.1
    have hcount : m1.count = m.count + 1 := hspec.2.2.2.2.2.2.2.1
    have hxs : x.start = s := by rw [hx]
    have hxe : x.iend = e := by rw [hx]
    refine ⟨?_, ?_, ?_, ?_⟩
    · show chainOk (insertSorted m1.head x)
      rw [hhead]
      exact chainOk_insertSorted m.head x hm.1 hm.2.1 (by omega)
        (by rw [hxs, hxe]; exact hdisj)
    · show ∀ I ∈ insertSorted m1.head x, I.start < I.iend
      intro I hI
      rw [hhead] at hI
      rcases insertSorted_mem m.head x I hI with rfl | hI
      · omega
      · exact hm.2.1 I hI
    · show m1.count = (insertSorted m1.head x).length
      rw [hcount, hhead, insertSorted_length]
      rw [hm.2.2.1]
    · show m1.count ≤ COST_CACHE_INTERVAL_SIZE_MAX
      omega

theorem PopInterval_inv (m : CostManager) (I : CostInterval)
    (hm : ManagerInv m) : ManagerInv (PopInterval m I) := by
  unfold PopInterval
  by_cases h : I ∈ m.head
  · rw [if_pos h]
    refine ⟨?_, ?_, ?_, ?_⟩
    · show chainOk (m.head.erase I)
      exact chainOk_sublist (m.head.erase I) m.head (m.head.erase_sublist I)
        hm.1 hm.2.1
    · show ∀ J ∈ m.head.erase I, J.start < J.iend
      intro J hJ
      exact hm.2.1 J ((m.head.erase_sublist I).subset hJ)
    · show m.count - 1 = (m.head.erase I).length
      rw [List.length_erase_of_mem h, hm.2.2.1]
    · show m.count - 1 ≤ COST_CACHE_INTERVAL_SIZE_MAX
      have := hm.2.2.2
      omega
  · rw [if_neg h]
    exact hm

theorem UpdateCostAtIndexGo_inv (i : Nat) (clean : Bool) :
    ∀ (l : List CostInterval) (m : CostManager) (dn : Nat),
      chainOk l → (∀ I ∈ l, I.start < I.iend) →
      m.count = dn + l.length → m.count ≤ COST_CACHE_INTERVAL_SIZE_MAX →
      (UpdateCostAtIndexGo i clean l m).1.Sublist l ∧
      (UpdateCostAtIndexGo i clean l m).2.count =
        dn + (UpdateCostAtIndexGo i clean l m).1.length ∧
      (UpdateCostAtIndexGo i clean l m).2.count ≤
        COST_CACHE_INTERVAL_SIZE_MAX := by
  intro l
  induction l with
  | nil =>
    intro m dn _ _ hcnt hmax
    exact ⟨List.Sublist.refl [], by simpa using hcnt, hmax⟩
  | cons cur rest ih =>
    intro m dn hch hne hcnt hmax
    simp only [UpdateCostAtIndexGo]
    simp only [List.length_cons] at hcnt
    have hchr : chainOk rest := chainOk_tail cur rest hch
    have hner : ∀ I ∈ rest, I.start < I.iend :=
      fun I hI => hne I (List.mem_cons_of_mem cur hI)
    by_cases g1 : cur.start ≤ i
    rotate_left
    · rw [if_neg g1]
      exact ⟨List.Sublist.refl _, by simp only [List.length_cons]; omega, hmax⟩
    rw [if_pos g1]
    by_cases g2 : cur.iend ≤ i
    · rw [if_pos g2]
      cases clean with
      | true =>
        rw [if_pos rfl]
        have h := ih { m with pool := m.pool + 1, count := m.count - 1 } dn
          hchr hner (by show m.count - 1 = dn + rest.length; omega)
          (by show m.count - 1 ≤ COST_CACHE_INTERVAL_SIZE_MAX; omega)
        exact ⟨h.1.cons cur, h.2.1, h.2.2⟩
      | false =>
        rw [if_neg (by simp)]
        have h := ih m (dn + 1) hchr hner (by omega) hmax
        refine ⟨h.1.cons₂ cur, ?_, h.2.2⟩
        show (UpdateCostAtIndexGo i false rest m).2.count =
          dn + ((UpdateCostAtIndexGo i false rest m).1.length + 1)
        omega
    · rw [if_neg g2]
      have hfr := UpdateCost_frame m i cur.index cur.cost
      have h := ih (UpdateCost m i cur.index cur.cost) (dn + 1) hchr hner
        (by rw [hfr.2.1]; omega) (by rw [hfr.2.1]; exact hmax)
      refine ⟨h.1.cons₂ cur, ?_, h.2.2⟩
      show (UpdateCostAtIndexGo i clean rest
          (UpdateCost m i cur.index cur.cost)).2.count =
        dn + ((UpdateCostAtIndexGo i clean rest
          (UpdateCost m i cur.index cur.cost)).1.length + 1)
      omega

theorem UpdateCostAtIndex_inv (m : CostManager) (i : Nat) (clean : Bool)
    (hm : ManagerInv m) : ManagerInv (UpdateCostAtIndex m i clean) := by
  unfold UpdateCostAtIndex
  have h := UpdateCostAtIndexGo_inv i clean m.head m 0 hm.1 hm.2.1
    (by rw [hm.2.2.1]; omega) hm.2.2.2
  refine ⟨?_, ?_, ?_, ?_⟩
  · show chainOk (UpdateCostAtIndexGo i clean m.head m).1
    exact chainOk_sublist _ m.head h.1 hm.1 hm.2.1
  · show ∀ I ∈ (UpdateCostAtIndexGo i clean m.head m).1, I.start < I.iend
    intro I hI
    exact hm.2.1 I (h.1.subset hI)
  · show (UpdateCostAtIndexGo i clean m.head m).2.count =
      (UpdateCostAtIndexGo i clean m.head m).1.length
    omega
  · exact h.2.2

theorem PushInterval_inv (m : CostManager) (dc : Int) (position len K : Nat)
    (hm : ManagerInv m) (hcache : CacheSegFrom 0 K m.cacheIntervals) :
    ManagerInv (PushInterval m dc position len) := by
  unfold PushInterval
  by_cases g : len < kSkipDistance
  · rw [if_pos g]
    have hfr := PushIntervalFastGo_frame dc position len m 0
    exact ⟨hfr.1 ▸ hm.1, hfr.1 ▸ hm.2.1,
      by rw [hfr.2.1, hfr.1]; exact hm.2.2.1, by rw [hfr.2.1]; exact hm.2.2.2⟩
  · rw [if_neg g]
    have hcch := cacheChain_of_seg m.cacheIntervals 0 K hcache
    have h := PushIntervalGo_inv dc position len m.cacheIntervals [] m.head m 0
      hm.1 hm.2.1 (by simpa using hm.2.2.1) hm.2.2.2 hcch.1 hcch.2
      (fun I hI => absurd hI (List.not_mem_nil I))
      (fun ci _ => Nat.zero_le _)
    exact ⟨h.1, h.2.1, h.2.2.1, h.2.2.2⟩

/-- C3: every `CostManager` operation — `InsertInterval` (called, as at its
use sites, with a range that does not overlap any active interval),
`PopInterval`, `PushInterval` (under the contiguous cache-interval layout
built by `CostManagerInit`) and `UpdateCostAtIndex` — preserves the
active-list invariant: the list is sorted by `start` with adjacent
non-overlap (`A.end ≤ B.start` whenever `A.next == B`), every stored
interval satisfies `start < end`, the stored `count` matches the list and
never exceeds `COST_CACHE_INTERVAL_SIZE_MAX = 500`. -/
theorem costManagerOps_preserve_invariant
    (m : CostManager) (c dc : Int) (position s e i len K : Nat) (clean : Bool)
    (I : CostInterval)
    (hm : ManagerInv m)
    (hdisj : ∀ J ∈ m.head, J.iend ≤ s ∨ e ≤ J.start)
    (hcache : CacheSegFrom 0 K m.cacheIntervals) :
    ManagerInv (InsertInterval m c position s e) ∧
    ManagerInv (PopInterval m I) ∧
    ManagerInv (PushInterval m dc position len) ∧
    ManagerInv (UpdateCostAtIndex m i clean) :=
  ⟨InsertInterval_inv m c position s e hm hdisj,
   PopInterval_inv m I hm,
   PushInterval_inv m dc position len K hm hcache,
   UpdateCostAtIndex_inv m i clean hm⟩

/-- Witness for C3: the four operations applied to a concrete manager
satisfying the invariant. -/
theorem costManagerOps_preserve_invariant_witness :
    ManagerInv exampleManager ∧
    (∀ J ∈ exampleManager.head, J.iend ≤ 12 ∨ 15 ≤ J.start) ∧
    CacheSegFrom 0 12 exampleManager.cacheIntervals ∧
    (ManagerInv (InsertInterval exampleManager 3 2 12 15) ∧
     ManagerInv (PopInterval exampleManager ⟨5, 2, 4, 1⟩) ∧
     ManagerInv (PushInterval exampleManager 1 2 12) ∧
     ManagerInv (UpdateCostAtIndex exampleManager 3 true)) :=
  ⟨by decide, by decide, by decide,
   costManagerOps_preserve_invariant exampleManager 3 1 2 12 15 3 12 12 true
     ⟨5, 2, 4, 1⟩ (by decide) (by decide) (by decide)⟩

/-! ## `TraceBackwards` (claim C4) -/

/-- Sum of `f` over `[s, s + n)`. -/
def rangeSum (f : Nat → Nat) (s : Nat) : Nat → Nat
  | 0 => 0
  | n + 1 => f s + rangeSum f (s + 1) n

theorem rangeSum_succ_last (f : Nat → Nat) :
    ∀ (n s : Nat), rangeSum f s (n + 1) = rangeSum f s n + f (s + n) := by
  intro n
  induction n with
  | zero =>
    intro s
    show f s + rangeSum f (s + 1) 0 = rangeSum f s 0 + f (s + 0)
    simp [rangeSum]
  | succ n ihn =>
    intro s
    show f s + rangeSum f (s + 1) (n + 1) = (f s + rangeSum f (s + 1) n) + _
    rw [ihn (s + 1)]
    have : s + 1 + n = s + (n + 1) := by omega
    rw [this]
    omega

theorem rangeSum_congr (f g : Nat → Nat) :
    ∀ (n s : Nat), (∀ j, s ≤ j → j < s + n → f j = g j) →
      rangeSum f s n = rangeSum g s n := by
  intro n
  induction n with
  | zero => intro s _; rfl
  | succ n ihn =>
    intro s h
    show f s + rangeSum f (s + 1) n = g s + rangeSum g (s + 1) n
    rw [h s (le_refl s) (by omega),
      ihn (s + 1) (fun j h1 h2 => h j (by omega) (by omega))]

/-- The loop of `TraceBackwards`, with the cursor represented as
`curp = cur + 1` (the loop exits when `cur` walks off the front, i.e.
`curp = 0`) and explicit fuel.  Each step reads `k = dist_array[cur]`,
stores it at `--path`, and jumps `cur -= k`. -/
def TraceBackwardsGo : Nat → (Nat → Nat) → Nat → Nat →
    Option ((Nat → Nat) × Nat)
  | _, arr, path, 0 => some (arr, path)
  | 0, _, _, _ + 1 => none
  | fuel + 1, arr, path, curp + 1 =>
    TraceBackwardsGo fuel
      (fun j => if j = path - 1 then arr curp else arr j) (path - 1)
      (curp + 1 - arr curp)

/-- `TraceBackwards`: pack the chosen path at the tail of `dist_array`;
returns the packed array and the offset `path` of the tail (the reported
`chosen_path_size` is `n - path`).  `n` steps of fuel always suffice when
the entries are positive. -/
def TraceBackwards (arr : Nat → Nat) (n : Nat) :
    Option ((Nat → Nat) × Nat) :=
  TraceBackwardsGo n arr n n

theorem TraceBackwardsGo_spec :
    ∀ (fuel : Nat) (arr : Nat → Nat) (path curp : Nat),
      (∀ i < path, 1 ≤ arr i ∧ arr i ≤ i + 1) →
      curp ≤ path → curp ≤ fuel →
      ∃ arr2 off, TraceBackwardsGo fuel arr path curp = some (arr2, off) ∧
        off ≤ path ∧
        (∀ j < off, arr2 j = arr j) ∧
        (∀ j, path ≤ j → arr2 j = arr j) ∧
        rangeSum arr2 off (path - off) = curp := by
  intro fuel
  induction fuel with
  | zero =>
    intro arr path curp hpre hcp hcf
    have h0 : curp = 0 := by omega
    subst h0
    exact ⟨arr, path, rfl, le_refl path, fun j _ => rfl, fun j _ => rfl,
      by simp [Nat.sub_self, rangeSum]⟩
  | succ fuel ih =>
    intro arr path curp hpre hcp hcf
    cases curp with
    | zero =>
      exact ⟨arr, path, rfl, le_refl path, fun j _ => rfl, fun j _ => rfl,
        by simp [Nat.sub_self, rangeSum]⟩
    | succ cur =>
      have hk := hpre cur (by omega)
      have hk1 : 1 ≤ arr cur := hk.1
      have hk2 : arr cur ≤ cur + 1 := hk.2
      have hrec := ih (fun j => if j = path - 1 then arr cur else arr j)
        (path - 1) (cur + 1 - arr cur)
        (by
          intro i hi
          show 1 ≤ (if i = path - 1 then arr cur else arr i) ∧
            (if i = path - 1 then arr cur else arr i) ≤ i + 1
          rw [if_neg (by omega)]
          exact hpre i (by omega))
        (by omega) (by omega)
      rcases hrec with ⟨arr2, off, heq, hoff, hlow, hhigh, hsum⟩
      refine ⟨arr2, off, ?_, by omega, ?_, ?_, ?_⟩
      · show TraceBackwardsGo fuel
          (fun j => if j = path - 1 then arr cur else arr j) (path - 1)
          (cur + 1 - arr cur) = some (arr2, off)
        exact heq
      · intro j hj
        rw [hlow j hj]
        show (if j = path - 1 then arr cur else arr j) = arr j
        rw [if_neg (by omega)]
      · intro j hj
        rw [hhigh j (by omega)]
        show (if j = path - 1 then arr cur else arr j) = arr j
        rw [if_neg (by omega)]
      · have hsplit : path - off = (path - 1 - off) + 1 := by omega
        rw [hsplit, rangeSum_succ_last]
        have hlast : arr2 (off + (path - 1 - off)) = arr cur := by
          rw [hhigh (off + (path - 1 - off)) (by omega)]
          show (if off + (path - 1 - off) = path - 1 then arr cur
            else arr (off + (path - 1 - off))) = arr cur
          rw [if_pos (by omega)]
        rw [hlast, hsum]
        omega

/-- C4: `TraceBackwards(dist_array, N)` under the precondition
`1 ≤ dist_array[i] ≤ i + 1` for all `i < N`: the loop terminates, the
chosen path is packed at the tail `[off, N)` of the array (entries below
the reported offset are untouched), the reported size is `N - off`, and
the packed entries sum to `N`. -/
theorem traceBackwards_spec (arr : Nat → Nat) (n : Nat)
    (h : ∀ i < n, 1 ≤ arr i ∧ arr i ≤ i + 1) :
    ∃ arr2 off, TraceBackwards arr n = some (arr2, off) ∧ off ≤ n ∧
      (∀ j < off, arr2 j = arr j) ∧ rangeSum arr2 off (n - off) = n := by
  rcases TraceBackwardsGo_spec n arr n n h (le_refl n) (le_refl n) with
    ⟨arr2, off, heq, hoff, hlow, _, hsum⟩
  exact ⟨arr2, off, heq, hoff, hlow, hsum⟩

def traceArr : Nat → Nat := fun i => if i = 1 then 2 else if i = 3 then 2 else 1

/-- Witness for C4: a concrete four-entry `dist_array`. -/
theorem traceBackwards_spec_witness :
    (∀ i < 4, 1 ≤ traceArr i ∧ traceArr i ≤ i + 1) ∧
    (∃ arr2 off, TraceBackwards traceArr 4 = some (arr2, off) ∧ off ≤ 4 ∧
      (∀ j < off, arr2 j = traceArr j) ∧ rangeSum arr2 off (4 - off) = 4) :=
  ⟨by decide, traceBackwards_spec traceArr 4 (by decide)⟩

/-! ## Cost/dist pairing through the DP (towards claims C2 and C5)

Every write of `costs[p]` anywhere in this file is a strict relaxation that
simultaneously stores a generator distance of the shape `p - position + 1`
(or the literal distance `1`) into `dist_array[p]`.  `RelaxStep` captures
exactly this: per position, either nothing changed, or the cost strictly
decreased and the new `dist_array` entry lies in `[1, p + 1]`. -/

def RelaxStep (c1 : Nat → Int) (d1 : Nat → Nat) (c2 : Nat → Int)
    (d2 : Nat → Nat) : Prop :=
  ∀ p, (c2 p = c1 p ∧ d2 p = d1 p) ∨ (c2 p < c1 p ∧ 1 ≤ d2 p ∧ d2 p ≤ p + 1)

def RelaxStepM (m m' : CostManager) : Prop :=
  RelaxStep m.costs m.distArray m'.costs m'.distArray

/-- `costs[p] ≤ INT64_MAX` everywhere, and every finite entry is paired with
an in-range `dist_array` entry. -/
def CostsOk (c : Nat → Int) (d : Nat → Nat) : Prop :=
  ∀ p, c p ≤ WEBP_INT64_MAX ∧
    (c p < WEBP_INT64_MAX → 1 ≤ d p ∧ d p ≤ p + 1)

theorem RelaxStep_refl (c : Nat → Int) (d : Nat → Nat) : RelaxStep c d c d :=
  fun _ => Or.inl ⟨rfl, rfl⟩

theorem RelaxStep_trans {c1 c2 c3 : Nat → Int} {d1 d2 d3 : Nat → Nat}
    (h1 : RelaxStep c1 d1 c2 d2) (h2 : RelaxStep c2 d2 c3 d3) :
    RelaxStep c1 d1 c3 d3 := by
  intro p
  rcases h1 p with ⟨e1, e2⟩ | ⟨l1, b1, b2⟩ <;>
    rcases h2 p with ⟨f1, f2⟩ | ⟨m1, n1, n2⟩
  · exact Or.inl ⟨f1.trans e1, f2.trans e2⟩
  · exact Or.inr ⟨by omega, n1, n2⟩
  · exact Or.inr ⟨by omega, by omega, by omega⟩
  · exact Or.inr ⟨by omega, n1, n2⟩

theorem RelaxStep_costs_le {c1 c2 : Nat → Int} {d1 d2 : Nat → Nat}
    (h : RelaxStep c1 d1 c2 d2) (p : Nat) : c2 p ≤ c1 p := by
  rcases h p with ⟨e1, _⟩ | ⟨l1, _, _⟩ <;> omega

theorem CostsOk_of_relax {c1 c2 : Nat → Int} {d1 d2 : Nat → Nat}
    (h0 : CostsOk c1 d1) (h : RelaxStep c1 d1 c2 d2) : CostsOk c2 d2 := by
  intro p
  have hp := h0 p
  rcases h p with ⟨e1, e2⟩ | ⟨l1, b1, b2⟩
  · rw [e1, e2]; exact hp
  · exact ⟨by omega, fun _ => ⟨b1, b2⟩⟩

theorem UpdateCost_relax (m : CostManager) (i position : Nat) (c : Int) :
    RelaxStepM m (UpdateCost m i position c) := by
  intro p
  unfold UpdateCost
  by_cases h : c < m.costs i
  · rw [if_pos h]
    by_cases hp : p = i
    · subst hp
      refine Or.inr ⟨?_, ?_, ?_⟩
      · show (if p = p then c else m.costs p) < m.costs p
        rw [if_pos rfl]; exact h
      · show 1 ≤ if p = p then p - position + 1 else m.distArray p
        rw [if_pos rfl]; omega
      · show (if p = p then p - position + 1 else m.distArray p) ≤ p + 1
        rw [if_pos rfl]; omega
    · refine Or.inl ⟨?_, ?_⟩
      · show (if p = i then c else m.costs p) = m.costs p
        rw [if_neg hp]
      · show (if p = i then i - position + 1 else m.distArray p) = m.distArray p
        rw [if_neg hp]
  · rw [if_neg h]
    exact Or.inl ⟨rfl, rfl⟩

theorem UpdateCostPerIntervalGo_relax (position : Nat) (c : Int) :
    ∀ (n : Nat) (m : CostManager) (s : Nat),
      RelaxStepM m (UpdateCostPerIntervalGo m s position c n) := by
  intro n
  induction n with
  | zero => intro m s; exact RelaxStep_refl _ _
  | succ n ih =>
    intro m s
    exact RelaxStep_trans (UpdateCost_relax m s position c)
      (ih (UpdateCost m s position c) (s + 1))

theorem InsertIntervalAux_relax (m : CostManager) (c : Int)
    (position s e : Nat) : RelaxStepM m (InsertIntervalAux m c position s e).2 := by
  have hspec := InsertIntervalAux_spec m c position s e
  rcases haux : (InsertIntervalAux m c position s e).1 with _ | x
  · rw [haux] at hspec
    intro p
    have hc := hspec.2.2.2.2.2.1 p
    have hd := hspec.2.2.2.2.2.2 p
    by_cases hin : s ≤ p ∧ p < e
    · rw [if_pos hin] at hc
      by_cases hlt : c < m.costs p
      · refine Or.inr ⟨?_, ?_, ?_⟩
        · rw [hc]; omega
        · rw [hd, if_pos ⟨hin.1, hin.2, hlt⟩]; omega
        · rw [hd, if_pos ⟨hin.1, hin.2, hlt⟩]; omega
      · refine Or.inl ⟨?_, ?_⟩
        · rw [hc]; omega
        · rw [hd, if_neg (by tauto)]
    · rw [if_neg hin] at hc
      refine Or.inl ⟨hc, ?_⟩
      rw [hd, if_neg (by tauto)]
  · rw [haux] at hspec
    intro p
    exact Or.inl ⟨hspec.2.2.2.2.2.2.2.2.1 p, hspec.2.2.2.2.2.2.2.2.2 p⟩

theorem PushSegment_relax (cost : Int) (position e : Nat) :
    ∀ (suffix : List CostInterval) (a : Nat) (m : CostManager),
      RelaxStepM m (PushSegment cost position a e suffix m).1 := by
  intro suffix
  induction suffix with
  | nil =>
    intro a m
    simp only [PushSegment]
    rcases haux : InsertIntervalAux m cost position a e with ⟨o, m1⟩
    have h := InsertIntervalAux_relax m cost position a e
    rw [haux] at h
    cases o
    · exact h
    · exact h
  | cons cur rest ih =>
    intro a m
    simp only [PushSegment]
    by_cases g1 : cur.start < e
    rotate_left
    · rw [if_neg g1]
      rcases haux : InsertIntervalAux m cost position a e with ⟨o, m1⟩
      have h := InsertIntervalAux_relax m cost position a e
      rw [haux] at h
      cases o
      · exact h
      · exact h
    rw [if_pos g1]
    by_cases g2 : cur.iend ≤ a
    · rw [if_pos g2]
      exact ih a m
    rw [if_neg g2]
    by_cases g3 : cur.cost ≤ cost
    · rw [if_pos g3]
      rcases haux : InsertIntervalAux m cost position a cur.start with ⟨o, m1⟩
      have h := InsertIntervalAux_relax m cost position a cur.start
      rw [haux] at h
      by_cases g3a : e ≤ cur.iend
      · rw [if_pos g3a]
        cases o
        · exact h
        · exact h
      · rw [if_neg g3a]
        cases o
        · exact RelaxStep_trans h (ih cur.iend m1)
        · exact RelaxStep_trans h (ih cur.iend m1)
    rw [if_neg g3]
    by_cases g4 : a ≤ cur.start
    · rw [if_pos g4]
      by_cases g5 : cur.iend ≤ e
      · rw [if_pos g5]
        exact ih a { m with pool := m.pool + 1, count := m.count - 1 }
      · rw [if_neg g5]
        rcases haux : InsertIntervalAux m cost position a e with ⟨o, m1⟩
        have h := InsertIntervalAux_relax m cost position a e
        rw [haux] at h
        cases o
        · exact h
        · exact h
    rw [if_neg g4]
    by_cases g6 : e < cur.iend
    · rw [if_pos g6]
      rcases hra : InsertIntervalAux m cur.cost cur.index e cur.iend with
        ⟨o1, m1⟩
      rcases hrb : InsertIntervalAux m1 cost position a e with ⟨o2, m2⟩
      have h1 := InsertIntervalAux_relax m cur.cost cur.index e cur.iend
      rw [hra] at h1
      have h2 := InsertIntervalAux_relax m1 cost position a e
      rw [hrb] at h2
      cases o1 <;> cases o2
      · exact RelaxStep_trans h1 h2
      · exact RelaxStep_trans h1 h2
      · exact RelaxStep_trans h1 h2
      · exact RelaxStep_trans h1 h2
    · rw [if_neg g6]
      exact ih a m

theorem PushIntervalFastGo_relax (dc : Int) (position : Nat) :
    ∀ (n : Nat) (m : CostManager) (k : Nat),
      RelaxStepM m (PushIntervalFastGo m dc position k n) := by
  intro n
  induction n with
  | zero => intro m k; exact RelaxStep_refl _ _
  | succ n ih =>
    intro m k
    exact RelaxStep_trans
      (UpdateCost_relax m (position + k) position (dc + m.costCache k))
      (ih (UpdateCost m (position + k) position (dc + m.costCache k)) (k + 1))

theorem PushIntervalGo_relax (dc : Int) (position len : Nat) :
    ∀ (cis : List CostCacheInterval) (done suffix : List CostInterval)
      (m : CostManager),
      RelaxStepM m (PushIntervalGo dc position len cis done suffix m).1 := by
  intro cis
  induction cis with
  | nil => intro done suffix m; exact RelaxStep_refl _ _
  | cons ci cis ih =>
    intro done suffix m
    simp only [PushIntervalGo]
    by_cases hci : ci.start < len
    · rw [if_pos hci]
      exact RelaxStep_trans (PushSegment_relax (dc + ci.cost) position
        (position + min ci.iend len) suffix (position + ci.start) m) (ih _ _ _)
    · rw [if_neg hci]
      exact RelaxStep_refl _ _

theorem PushInterval_relax (m : CostManager) (dc : Int) (position len : Nat) :
    RelaxStepM m (PushInterval m dc position len) := by
  unfold PushInterval
  by_cases h : len < kSkipDistance
  · rw [if_pos h]
    exact PushIntervalFastGo_relax dc position len m 0
  · rw [if_neg h]
    exact PushIntervalGo_relax dc position len m.cacheIntervals [] m.head m

theorem UpdateCostAtIndexGo_relax (i : Nat) (clean : Bool) :
    ∀ (l : List CostInterval) (m : CostManager),
      RelaxStepM m (UpdateCostAtIndexGo i clean l m).2 := by
  intro l
  induction l with
  | nil => intro m; exact RelaxStep_refl _ _
  | cons cur rest ih =>
    intro m
    simp only [UpdateCostAtIndexGo]
    by_cases g1 : cur.start ≤ i
    rotate_left
    · rw [if_neg g1]
      exact RelaxStep_refl _ _
    rw [if_pos g1]
    by_cases g2 : cur.iend ≤ i
    · rw [if_pos g2]
      cases clean with
      | true =>
        rw [if_pos rfl]
        exact ih { m with pool := m.pool + 1, count := m.count - 1 }
      | false =>
        rw [if_neg (by simp)]
        exact ih m
    · rw [if_neg g2]
      exact RelaxStep_trans (UpdateCost_relax m i cur.index cur.cost)
        (ih (UpdateCost m i cur.index cur.cost))

theorem UpdateCostAtIndex_relax (m : CostManager) (i : Nat) (clean : Bool) :
    RelaxStepM m (UpdateCostAtIndex m i clean) := by
  unfold UpdateCostAtIndex
  exact UpdateCostAtIndexGo_relax i clean m.head m

theorem AddSingleLiteral_relax {C : Type} (contains : C → Nat → Option Nat)
    (ins : C → Nat → C) (cm : CostModel) (argb : Nat → Nat) (idx : Nat)
    (ucc : Bool) (prev : Int) (h : C) (cost : Nat → Int) (dist : Nat → Nat) :
    RelaxStep cost dist
      (AddSingleLiteralWithCostModel contains ins cm argb idx ucc prev h cost
        dist).2.1
      (AddSingleLiteralWithCostModel contains ins cm argb idx ucc prev h cost
        dist).2.2 := by
  intro p
  simp only [AddSingleLiteralWithCostModel]
  rcases hix : (if ucc then contains h (argb idx) else none) with _ | ix
  · by_cases hlt : prev + DivRound (GetLiteralCost cm (argb idx) * 82) 100 <
        cost idx
    · rw [if_pos hlt]
      by_cases hp : p = idx
      · subst hp
        refine Or.inr ⟨?_, ?_, ?_⟩
        · show (if p = p then prev + DivRound (GetLiteralCost cm (argb p) * 82)
              100 else cost p) < cost p
          rw [if_pos rfl]; exact hlt
        · show 1 ≤ if p = p then 1 else dist p
          rw [if_pos rfl]
        · show (if p = p then 1 else dist p) ≤ p + 1
          rw [if_pos rfl]; omega
      · refine Or.inl ⟨?_, ?_⟩
        · show (if p = idx then prev + DivRound (GetLiteralCost cm (argb idx) *
              82) 100 else cost p) = cost p
          rw [if_neg hp]
        · show (if p = idx then 1 else dist p) = dist p
          rw [if_neg hp]
    · rw [if_neg hlt]
      exact Or.inl ⟨rfl, rfl⟩
  · dsimp only
    by_cases hlt : prev + DivRound (GetCacheCost cm ix * 68) 100 < cost idx
    · rw [if_pos hlt]
      by_cases hp : p = idx
      · subst hp
        refine Or.inr ⟨?_, ?_, ?_⟩
        · show (if p = p then prev + DivRound (GetCacheCost cm ix * 68) 100
              else cost p) < cost p
          rw [if_pos rfl]; exact hlt
        · show 1 ≤ if p = p then 1 else dist p
          rw [if_pos rfl]
        · show (if p = p then 1 else dist p) ≤ p + 1
          rw [if_pos rfl]; omega
      · refine Or.inl ⟨?_, ?_⟩
        · show (if p = idx then prev + DivRound (GetCacheCost cm ix * 68) 100
              else cost p) = cost p
          rw [if_neg hp]
        · show (if p = idx then 1 else dist p) = dist p
          rw [if_neg hp]
    · rw [if_neg hlt]
      exact Or.inl ⟨rfl, rfl⟩

theorem AddSingleLiteral_le_cand {C : Type} (contains : C → Nat → Option Nat)
    (ins : C → Nat → C) (cm : CostModel) (argb : Nat → Nat) (idx : Nat)
    (ucc : Bool) (prev : Int) (h : C) (cost : Nat → Int) (dist : Nat → Nat)
    (B : Int)
    (hB1 : ∀ v, DivRound (GetLiteralCost cm v * 82) 100 ≤ B)
    (hB2 : ∀ ix, DivRound (GetCacheCost cm ix * 68) 100 ≤ B) :
    (AddSingleLiteralWithCostModel contains ins cm argb idx ucc prev h cost
      dist).2.1 idx ≤ prev + B := by
  simp only [AddSingleLiteralWithCostModel]
  rcases hix : (if ucc then contains h (argb idx) else none) with _ | ix
  · by_cases hlt : prev + DivRound (GetLiteralCost cm (argb idx) * 82) 100 <
        cost idx
    · rw [if_pos hlt]
      show (if idx = idx then prev + DivRound (GetLiteralCost cm (argb idx) *
        82) 100 else cost idx) ≤ prev + B
      rw [if_pos rfl]
      have := hB1 (argb idx)
      omega
    · rw [if_neg hlt]
      show cost idx ≤ prev + B
      have := hB1 (argb idx)
      omega
  · dsimp only
    by_cases hlt : prev + DivRound (GetCacheCost cm ix * 68) 100 < cost idx
    · rw [if_pos hlt]
      show (if idx = idx then prev + DivRound (GetCacheCost cm ix * 68) 100
        else cost idx) ≤ prev + B
      rw [if_pos rfl]
      have := hB2 ix
      omega
    · rw [if_neg hlt]
      show cost idx ≤ prev + B
      have := hB2 ix
      omega

/-! ## The distance-only DP (`BackwardReferencesHashChainDistanceOnly`)

External collaborators are abstracted into a context: `findCopy` is
`VP8LHashChainFindCopy` (returning `(offset, len)` for a pixel), `pcode` is
`VP8LDistanceToPlaneCode(xsize, ·)`, `pe` is `VP8LPrefixEncodeBits`, and the
color cache is the same `(contains, ins)` abstraction used by
`AddSingleLiteralWithCostModel`. -/

structure DpCtx (C : Type) where
  contains : C → Nat → Option Nat
  ins : C → Nat → C
  cm : CostModel
  argb : Nat → Nat
  ucc : Bool
  findCopy : Nat → Nat × Nat
  pcode : Nat → Nat
  pe : Nat → Nat × Nat

/-- The mutable state of the DP loop: the cost manager (holding `costs` and
`dist_array`), the color-cache state, and the scalar locals of
`BackwardReferencesHashChainDistanceOnly`. -/
structure DpState (C : Type) where
  m : CostManager
  hashers : C
  offsetPrev : Int
  lenPrev : Int
  offsetCost : Int
  firstOffsetIsConstant : Int
  reach : Int

/-- One `AddSingleLiteralWithCostModel` call acting on the DP state. -/
def AddLiteralStep {C : Type} (ctx : DpCtx C) (i : Nat) (prev : Int)
    (s : DpState C) : DpState C :=
  let r := AddSingleLiteralWithCostModel ctx.contains ctx.ins ctx.cm ctx.argb
    i ctx.ucc prev s.hashers s.m.costs s.m.distArray
  { s with
    hashers := r.1
    m := { s.m with costs := r.2.1, distArray := r.2.2 } }

/-- The `j`-search loop of the same-offset branch (lines 658-664): starting
at `j` with `n` further iterations allowed (`n = reach - j`), stop at the
first `j` whose successor breaks the offset run (re-reading `findCopy j`),
or fall off the end at `reach + 1` (whose `findCopy` was read last). -/
def FindJGo (fc : Nat → Nat × Nat) (offset : Nat) : Nat → Nat → Nat × Nat
  | j, 0 =>
    if (fc (j + 1)).1 ≠ offset then (j, (fc j).2) else (j + 1, (fc (j + 1)).2)
  | j, n + 1 =>
    if (fc (j + 1)).1 ≠ offset then (j, (fc j).2)
    else FindJGo fc offset (j + 1) n

/-- The full `for (j = i; j <= reach; ++j)` search; when `reach < i` the loop
body never runs and `(j, len_j) = (i, 0)`. -/
def FindJ (fc : Nat → Nat × Nat) (offset i : Nat) (reach : Int) : Nat × Nat :=
  if (i : Int) ≤ reach then FindJGo fc offset i (reach.toNat - i) else (i, 0)

/-- One iteration of the DP loop body (lines 613-679) at pixel `i ≥ 1`. -/
def DpIter {C : Type} (ctx : DpCtx C) (i : Nat) (s : DpState C) : DpState C :=
  let prevCost := s.m.costs (i - 1)
  let off := (ctx.findCopy i).1
  let len := (ctx.findCopy i).2
  let s1 := AddLiteralStep ctx i prevCost s
  let s2 :=
    if 2 ≤ len then
      if (off : Int) ≠ s1.offsetPrev then
        let oc := GetDistanceCost ctx.cm ctx.pe (ctx.pcode off)
        { s1 with
          offsetCost := oc
          firstOffsetIsConstant := 1
          m := PushInterval s1.m (prevCost + oc) i len }
      else
        let s1a :=
          if s1.firstOffsetIsConstant = 1 then
            { s1 with
              reach := (i : Int) - 1 + s1.lenPrev - 1
              firstOffsetIsConstant := 0 }
          else s1
        if (i : Int) + (len : Int) - 1 > s1a.reach then
          let jl := FindJ ctx.findCopy off i s1a.reach
          let m1 := UpdateCostAtIndex s1a.m (jl.1 - 1) false
          let m2 := UpdateCostAtIndex m1 jl.1 false
          let m3 := PushInterval m2 (m2.costs (jl.1 - 1) + s1a.offsetCost)
            jl.1 jl.2
          { s1a with m := m3, reach := (jl.1 : Int) + (jl.2 : Int) - 1 }
        else s1a
    else s1
  let s3 := { s2 with m := UpdateCostAtIndex s2.m i true }
  { s3 with offsetPrev := (off : Int), lenPrev := (len : Int) }

/-- The DP loop from pixel `i` for `n` more iterations. -/
def DpLoop {C : Type} (ctx : DpCtx C) : Nat → Nat → DpState C → DpState C
  | _, 0, s => s
  | i, n + 1, s => DpLoop ctx (i + 1) n (DpIter ctx i s)

/-- Initialization (lines 607-611): `dist_array[0] = 0` followed by the
first pixel added as a literal with `prev_cost = 0`; the scalar locals get
their sentinel initializers. -/
def DpInit {C : Type} (ctx : DpCtx C) (m0 : CostManager) (h0 : C) :
    DpState C :=
  AddLiteralStep ctx 0 0
    { m := { m0 with
        distArray := fun j => if j = 0 then 0 else m0.distArray j }
      hashers := h0
      offsetPrev := -1
      lenPrev := -1
      offsetCost := -1
      firstOffsetIsConstant := -1
      reach := 0 }

/-- `BackwardReferencesHashChainDistanceOnly` (the DP part, after the
allocations succeeded): initialization followed by the loop over pixels
`1 .. pix_count - 1`. -/
def BackwardReferencesHashChainDistanceOnly {C : Type} (ctx : DpCtx C)
    (m0 : CostManager) (h0 : C) (pixCount : Nat) : DpState C :=
  DpLoop ctx 1 (pixCount - 1) (DpInit ctx m0 h0)

theorem DpIter_relax {C : Type} (ctx : DpCtx C) (i : Nat) (s : DpState C) :
    RelaxStepM (AddLiteralStep ctx i (s.m.costs (i - 1)) s).m
      (DpIter ctx i s).m := by
  simp only [DpIter]
  by_cases g1 : 2 ≤ (ctx.findCopy i).2
  rotate_left
  · rw [if_neg g1]
    exact UpdateCostAtIndex_relax _ i true
  rw [if_pos g1]
  by_cases g2 : ((ctx.findCopy i).1 : Int) ≠
      (AddLiteralStep ctx i (s.m.costs (i - 1)) s).offsetPrev
  · rw [if_pos g2]
    exact RelaxStep_trans (PushInterval_relax _ _ i (ctx.findCopy i).2)
      (UpdateCostAtIndex_relax _ i true)
  · rw [if_neg g2]
    by_cases g3 : (AddLiteralStep ctx i (s.m.costs (i - 1))
        s).firstOffsetIsConstant = 1
    · rw [if_pos g3]
      by_cases g4 : (i : Int) + ((ctx.findCopy i).2 : Int) - 1 >
          ({ AddLiteralStep ctx i (s.m.costs (i - 1)) s with
              reach := (i : Int) - 1 +
                (AddLiteralStep ctx i (s.m.costs (i - 1)) s).lenPrev - 1
              firstOffsetIsConstant := 0 } : DpState C).reach
      · rw [if_pos g4]
        exact RelaxStep_trans (UpdateCostAtIndex_relax _ _ false)
          (RelaxStep_trans (UpdateCostAtIndex_relax _ _ false)
            (RelaxStep_trans (PushInterval_relax _ _ _ _)
              (UpdateCostAtIndex_relax _ i true)))
      · rw [if_neg g4]
        exact UpdateCostAtIndex_relax _ i true
    · rw [if_neg g3]
      by_cases g4 : (i : Int) + ((ctx.findCopy i).2 : Int) - 1 >
          (AddLiteralStep ctx i (s.m.costs (i - 1)) s).reach
      · rw [if_pos g4]
        exact RelaxStep_trans (UpdateCostAtIndex_relax _ _ false)
          (RelaxStep_trans (UpdateCostAtIndex_relax _ _ false)
            (RelaxStep_trans (PushInterval_relax _ _ _ _)
              (UpdateCostAtIndex_relax _ i true)))
      · rw [if_neg g4]
        exact UpdateCostAtIndex_relax _ i true

/-- The loop invariant for claim C2: the cost/dist pairing holds, and every
already-reached position has a cost bounded by the accumulated literal
steps. -/
def DpInv {C : Type} (B : Int) (i : Nat) (s : DpState C) : Prop :=
  CostsOk s.m.costs s.m.distArray ∧
  ∀ p, p < i → s.m.costs p ≤ ((p : Int) + 1) * B

theorem DpIter_inv {C : Type} (ctx : DpCtx C) (B : Int) (i : Nat)
    (s : DpState C)
    (hB1 : ∀ v, DivRound (GetLiteralCost ctx.cm v * 82) 100 ≤ B)
    (hB2 : ∀ ix, DivRound (GetCacheCost ctx.cm ix * 68) 100 ≤ B)
    (hi : 1 ≤ i) (h : DpInv B i s) : DpInv B (i + 1) (DpIter ctx i s) := by
  have hrel1 : RelaxStepM s.m (AddLiteralStep ctx i (s.m.costs (i - 1)) s).m :=
    AddSingleLiteral_relax ctx.contains ctx.ins ctx.cm ctx.argb i ctx.ucc
      (s.m.costs (i - 1)) s.hashers s.m.costs s.m.distArray
  have hrel2 := DpIter_relax ctx i s
  constructor
  · exact CostsOk_of_relax (CostsOk_of_relax h.1 hrel1) hrel2
  · intro p hp
    have hstep2 := RelaxStep_costs_le hrel2 p
    by_cases hpi : p < i
    · have hstep1 := RelaxStep_costs_le hrel1 p
      have hb := h.2 p hpi
      omega
    · have hpe : p = i := by omega
      subst hpe
      have hcand : (AddLiteralStep ctx p (s.m.costs (p - 1)) s).m.costs p ≤
          s.m.costs (p - 1) + B :=
        AddSingleLiteral_le_cand ctx.contains ctx.ins ctx.cm ctx.argb p
          ctx.ucc (s.m.costs (p - 1)) s.hashers s.m.costs s.m.distArray B
          hB1 hB2
      have hprev : s.m.costs (p - 1) ≤ (((p - 1 : Nat) : Int) + 1) * B :=
        h.2 (p - 1) (by omega)
      have hcast : ((p - 1 : Nat) : Int) + 1 = (p : Int) := by omega
      rw [hcast] at hprev
      have hmul : (p : Int) * B + B = ((p : Int) + 1) * B := by ring
      omega

theorem DpLoop_inv {C : Type} (ctx : DpCtx C) (B : Int)
    (hB1 : ∀ v, DivRound (GetLiteralCost ctx.cm v * 82) 100 ≤ B)
    (hB2 : ∀ ix, DivRound (GetCacheCost ctx.cm ix * 68) 100 ≤ B) :
    ∀ (n i : Nat) (s : DpState C), 1 ≤ i → DpInv B i s →
      DpInv B (i + n) (DpLoop ctx i n s) := by
  intro n
  induction n with
  | zero => intro i s _ h; exact h
  | succ n ih =>
    intro i s hi h
    have h2 := ih (i + 1) (DpIter ctx i s) (by omega)
      (DpIter_inv ctx B i s hB1 hB2 hi h)
    have : i + (n + 1) = (i + 1) + n := by omega
    rw [this]
    exact h2

theorem DpInit_inv {C : Type} (ctx : DpCtx C) (m0 : CostManager) (h0 : C)
    (B : Int)
    (hinit : ∀ p, m0.costs p = WEBP_INT64_MAX)
    (hB1 : ∀ v, DivRound (GetLiteralCost ctx.cm v * 82) 100 ≤ B)
    (hB2 : ∀ ix, DivRound (GetCacheCost ctx.cm ix * 68) 100 ≤ B) :
    DpInv B 1 (DpInit ctx m0 h0) := by
  have hok0 : CostsOk m0.costs
      (fun j => if j = 0 then 0 else m0.distArray j) := by
    intro p
    refine ⟨le_of_eq (hinit p), fun hlt => ?_⟩
    rw [hinit p] at hlt
    omega
  have hrel : RelaxStep m0.costs
      (fun j => if j = 0 then 0 else m0.distArray j)
      (DpInit ctx m0 h0).m.costs (DpInit ctx m0 h0).m.distArray :=
    AddSingleLiteral_relax ctx.contains ctx.ins ctx.cm ctx.argb 0 ctx.ucc 0
      h0 m0.costs (fun j => if j = 0 then 0 else m0.distArray j)
  constructor
  · exact CostsOk_of_relax hok0 hrel
  · intro p hp
    have hpe : p = 0 := by omega
    subst hpe
    have hcand : (DpInit ctx m0 h0).m.costs 0 ≤ 0 + B :=
      AddSingleLiteral_le_cand ctx.contains ctx.ins ctx.cm ctx.argb 0 ctx.ucc
        0 h0 m0.costs (fun j => if j = 0 then 0 else m0.distArray j) B hB1 hB2
    have hmul : (((0 : Nat) : Int) + 1) * B = 0 + B := by push_cast; ring
    rw [hmul]
    exact hcand

/-- C2: after the distance-only DP completes on `pix_count` pixels, every
position's cost is strictly below the `INT64_MAX` sentinel it was
initialized to (by `CostManagerInit`), and `1 ≤ dist_array[i] ≤ i + 1` for
every `i`.  Hypotheses: the cost-model step costs (literal scaled by
82/100, cache-index scaled by 68/100) are bounded by some `B ≥ 0` with
`pix_count * B` below the sentinel — true of the real tables, whose entries
are `uint32_t` fixed-point bit counts. -/
theorem dp_final_costs_and_dist {C : Type} (ctx : DpCtx C) (m0 : CostManager)
    (h0 : C) (pixCount : Nat) (B : Int)
    (hinit : ∀ p, m0.costs p = WEBP_INT64_MAX)
    (hB1 : ∀ v, DivRound (GetLiteralCost ctx.cm v * 82) 100 ≤ B)
    (hB2 : ∀ ix, DivRound (GetCacheCost ctx.cm ix * 68) 100 ≤ B)
    (hB0 : 0 ≤ B)
    (hNB : (pixCount : Int) * B < WEBP_INT64_MAX)
    (hpix : 0 < pixCount) :
    ∀ p, p < pixCount →
      (BackwardReferencesHashChainDistanceOnly ctx m0 h0 pixCount).m.costs p <
        WEBP_INT64_MAX ∧
      1 ≤ (BackwardReferencesHashChainDistanceOnly ctx m0 h0
        pixCount).m.distArray p ∧
      (BackwardReferencesHashChainDistanceOnly ctx m0 h0
        pixCount).m.distArray p ≤ p + 1 := by
  have hinv := DpLoop_inv ctx B hB1 hB2 (pixCount - 1) 1 (DpInit ctx m0 h0)
    (le_refl 1) (DpInit_inv ctx m0 h0 B hinit hB1 hB2)
  have hn : 1 + (pixCount - 1) = pixCount := by omega
  rw [hn] at hinv
  intro p hp
  have hb := hinv.2 p hp
  have hle : ((p : Int) + 1) * B ≤ (pixCount : Int) * B := by
    have h1 : ((p : Int) + 1) ≤ (pixCount : Int) := by omega
    exact mul_le_mul_of_nonneg_right h1 hB0
  have hfin : (BackwardReferencesHashChainDistanceOnly ctx m0 h0
      pixCount).m.costs p < WEBP_INT64_MAX := by
    show (DpLoop ctx 1 (pixCount - 1) (DpInit ctx m0 h0)).m.costs p <
      WEBP_INT64_MAX
    omega
  have hd := (hinv.1 p).2 hfin
  exact ⟨hfin, hd.1, hd.2⟩

def zeroCostModel : CostModel :=
  ⟨fun _ => 0, fun _ => 0, fun _ => 0, fun _ => 0, fun _ => 0⟩

def trivialCtx : DpCtx Unit :=
  { contains := fun _ _ => none
    ins := fun u _ => u
    cm := zeroCostModel
    argb := fun _ => 0
    ucc := false
    findCopy := fun _ => (0, 0)
    pcode := fun d => d
    pe := fun _ => (0, 0) }

def dpM0 : CostManager := { exampleManager with costs := fun _ => WEBP_INT64_MAX }

/-- Witness for C2: the DP on a two-pixel image with the zero cost model. -/
theorem dp_final_costs_and_dist_witness :
    (∀ v, DivRound (GetLiteralCost zeroCostModel v * 82) 100 ≤ 0) ∧
    ((2 : Nat) : Int) * 0 < WEBP_INT64_MAX ∧
    ∀ p, p < 2 →
      (BackwardReferencesHashChainDistanceOnly trivialCtx dpM0 () 2).m.costs
          p < WEBP_INT64_MAX ∧
      1 ≤ (BackwardReferencesHashChainDistanceOnly trivialCtx dpM0 ()
        2).m.distArray p ∧
      (BackwardReferencesHashChainDistanceOnly trivialCtx dpM0 ()
        2).m.distArray p ≤ p + 1 :=
  ⟨fun v => by show DivRound ((0 : Int) * 82) 100 ≤ 0; decide, by decide,
    dp_final_costs_and_dist trivialCtx dpM0 () 2 0 (fun p => rfl)
      (fun v => by show DivRound ((0 : Int) * 82) 100 ≤ 0; decide)
      (fun ix => by show DivRound ((0 : Int) * 68) 100 ≤ 0; decide)
      (by decide) (by decide) (by decide)⟩

theorem DpIter_full_relax {C : Type} (ctx : DpCtx C) (i : Nat)
    (s : DpState C) : RelaxStepM s.m (DpIter ctx i s).m := by
  have h1 : RelaxStepM s.m (AddLiteralStep ctx i (s.m.costs (i - 1)) s).m :=
    AddSingleLiteral_relax ctx.contains ctx.ins ctx.cm ctx.argb i ctx.ucc
      (s.m.costs (i - 1)) s.hashers s.m.costs s.m.distArray
  exact RelaxStep_trans h1 (DpIter_relax ctx i s)

theorem DpLoop_relax {C : Type} (ctx : DpCtx C) :
    ∀ (n a : Nat) (s : DpState C), RelaxStepM s.m (DpLoop ctx a n s).m := by
  intro n
  induction n with
  | zero => intro a s; exact RelaxStep_refl _ _
  | succ n ih =>
    intro a s
    exact RelaxStep_trans (DpIter_full_relax ctx a s)
      (ih (a + 1) (DpIter ctx a s))

theorem DpLoop_split {C : Type} (ctx : DpCtx C) :
    ∀ (mm nn a : Nat) (s : DpState C),
      DpLoop ctx a (mm + nn) s = DpLoop ctx (a + mm) nn (DpLoop ctx a mm s) := by
  intro mm
  induction mm with
  | zero =>
    intro nn a s
    have e1 : 0 + nn = nn := by omega
    have e2 : a + 0 = a := by omega
    rw [e1, e2]
    rfl
  | succ mm ih =>
    intro nn a s
    have e1 : (mm + 1) + nn = (mm + nn) + 1 := by omega
    rw [e1]
    have e2 : DpLoop ctx a ((mm + nn) + 1) s =
        DpLoop ctx (a + 1) (mm + nn) (DpIter ctx a s) := rfl
    have e3 : DpLoop ctx a (mm + 1) s =
        DpLoop ctx (a + 1) mm (DpIter ctx a s) := rfl
    rw [e2, e3, ih nn (a + 1) (DpIter ctx a s)]
    have e4 : a + 1 + mm = a + (mm + 1) := by omega
    rw [e4]

/-! ### Claim C5: the literal-edge bound

As stated the property is false: when the color cache is enabled and
contains `argb[i]`, `AddSingleLiteralWithCostModel` tries only the
cache-index candidate `prev_cost + DivRound(GetCacheCost(model, ix)·68,
100)` — the literal candidate is not tried at all — and the cache cost can
exceed the scaled literal cost.  `dp_literal_edge_refuted` runs the DP on a
concrete two-pixel image where this happens. -/

def cexModel : CostModel :=
  ⟨fun _ => 0, fun _ => 0, fun _ => 0, fun _ => 0,
    fun n => if n = 280 then 100 else 0⟩

def cexCtx : DpCtx Bool :=
  { contains := fun b _ => if b then some 0 else none
    ins := fun _ _ => true
    cm := cexModel
    argb := fun _ => 7
    ucc := true
    findCopy := fun _ => (0, 0)
    pcode := fun d => d
    pe := fun _ => (0, 0) }

def cexM0 : CostManager :=
  { head := []
    count := 0
    cacheIntervals := []
    costCache := fun _ => 0
    costs := fun _ => WEBP_INT64_MAX
    distArray := fun _ => 0
    pool := 0
    allocOk := fun _ => false
    allocTick := 0 }

/-- Counterexample to C5 as stated: pixel 1 hits the color cache (slot cost
100, scaled to 68) while its literal cost is 0, so after the DP
`costs[1] = 68 > costs[0] + DivRound(GetLiteralCost(argb[1])·82, 100) = 0`. -/
theorem dp_literal_edge_refuted :
    ¬ ((BackwardReferencesHashChainDistanceOnly cexCtx cexM0 false 2).m.costs
          1 ≤
        (BackwardReferencesHashChainDistanceOnly cexCtx cexM0 false
            2).m.costs 0 +
        DivRound (GetLiteralCost cexCtx.cm (cexCtx.argb 1) * 82) 100) := by
  decide

/-- C5 (amended; the claim as stated is refuted by
`dp_literal_edge_refuted`): for every `i ∈ [1, N)`, the final `costs[i]` is
at most the cost `costs[i-1]` read at the start of iteration `i` plus any
bound `B` on the scaled single-pixel step — the scaled literal cost
(82/100) when the pixel misses the color cache, and the scaled cache-index
cost (68/100) when it hits.  The literal edge alone does not bound the
step, because on a cache hit only the cache-index candidate is tried. -/
theorem dp_literal_edge_amended {C : Type} (ctx : DpCtx C) (m0 : CostManager)
    (h0 : C) (pixCount : Nat) (B : Int) (i : Nat)
    (hB1 : ∀ v, DivRound (GetLiteralCost ctx.cm v * 82) 100 ≤ B)
    (hB2 : ∀ ix, DivRound (GetCacheCost ctx.cm ix * 68) 100 ≤ B)
    (hi1 : 1 ≤ i) (hi2 : i < pixCount) :
    (BackwardReferencesHashChainDistanceOnly ctx m0 h0 pixCount).m.costs i ≤
      (DpLoop ctx 1 (i - 1) (DpInit ctx m0 h0)).m.costs (i - 1) + B := by
  have h0eq : BackwardReferencesHashChainDistanceOnly ctx m0 h0 pixCount =
      DpLoop ctx (i + 1) (pixCount - i - 1)
        (DpIter ctx i (DpLoop ctx 1 (i - 1) (DpInit ctx m0 h0))) := by
    show DpLoop ctx 1 (pixCount - 1) (DpInit ctx m0 h0) = _
    have e1 : pixCount - 1 = (i - 1) + (pixCount - i) := by omega
    rw [e1, DpLoop_split]
    have e2 : 1 + (i - 1) = i := by omega
    rw [e2]
    have e3 : pixCount - i = (pixCount - i - 1) + 1 := by omega
    rw [e3]
    have e4 : DpLoop ctx i ((pixCount - i - 1) + 1)
        (DpLoop ctx 1 (i - 1) (DpInit ctx m0 h0)) =
        DpLoop ctx (i + 1) (pixCount - i - 1)
          (DpIter ctx i (DpLoop ctx 1 (i - 1) (DpInit ctx m0 h0))) := rfl
    rw [e4]
    have e5 : pixCount - i - 1 + 1 - 1 = pixCount - i - 1 := by omega
    rw [e5]
  rw [h0eq]
  have h1 := RelaxStep_costs_le (DpLoop_relax ctx (pixCount - i - 1) (i + 1)
    (DpIter ctx i (DpLoop ctx 1 (i - 1) (DpInit ctx m0 h0)))) i
  have h2 := RelaxStep_costs_le (DpIter_relax ctx i
    (DpLoop ctx 1 (i - 1) (DpInit ctx m0 h0))) i
  have h3 : (AddLiteralStep ctx i
      ((DpLoop ctx 1 (i - 1) (DpInit ctx m0 h0)).m.costs (i - 1))
      (DpLoop ctx 1 (i - 1) (DpInit ctx m0 h0))).m.costs i ≤
      (DpLoop ctx 1 (i - 1) (DpInit ctx m0 h0)).m.costs (i - 1) + B :=
    AddSingleLiteral_le_cand ctx.contains ctx.ins ctx.cm ctx.argb i ctx.ucc
      ((DpLoop ctx 1 (i - 1) (DpInit ctx m0 h0)).m.costs (i - 1))
      (DpLoop ctx 1 (i - 1) (DpInit ctx m0 h0)).hashers
      (DpLoop ctx 1 (i - 1) (DpInit ctx m0 h0)).m.costs
      (DpLoop ctx 1 (i - 1) (DpInit ctx m0 h0)).m.distArray B hB1 hB2
  omega

/-- Witness for the amended C5 at a concrete instance. -/
theorem dp_literal_edge_amended_witness :
    (BackwardReferencesHashChainDistanceOnly trivialCtx dpM0 () 2).m.costs 1 ≤
      (DpLoop trivialCtx 1 0 (DpInit trivialCtx dpM0 ())).m.costs 0 + 0 :=
  dp_literal_edge_amended trivialCtx dpM0 () 2 0 1
    (fun v => by show DivRound ((0 : Int) * 82) 100 ≤ 0; decide)
    (fun ix => by show DivRound ((0 : Int) * 68) 100 ≤ 0; decide)
    (by decide) (by decide)
